import Mathlib

/-!
# Verification of the synapse HTTP/1.1 server core

A shallow embedding, in Lean 4, of the request-handling core of the
synapse web server (files src/http_parser.c, src/http_server.c,
src/http_router.c, src/tcp_server.c).  Bytes are modelled as natural
numbers, byte buffers as lists of naturals, and the C string functions
(strstr, strchr, strcasecmp, strtol, isspace, ...) are given explicit
models that stop at the first NUL byte exactly where the C code does.
I/O always succeeds in this model (writes never fail, temporary files
can always be opened); allocation failures are not modelled, so the
PARSER_ERR / 500 paths that only arise from failed malloc or tmpfile
calls are unreachable here.

The HTTP engine (http_server.c) is modelled as a state machine over
`HttpConn`, with recursion implemented via explicit fuel so that every
definition is executable and kernel-reducible; the wrapper functions
supply fuel that is provably sufficient on the inputs considered by the
theorems.
-/

namespace Synapse

/-! ## Bytes and C-string primitives -/

/-- ASCII bytes of a Lean string literal (all our literals are ASCII). -/
def bytesOf (s : String) : List Nat := s.toList.map Char.toNat

/-- CRLF, the HTTP line terminator. -/
def CRLF : List Nat := [13, 10]

/-- CRLF CRLF, the header-block terminator. -/
def CRLF4 : List Nat := [13, 10, 13, 10]

/-- The portion of a byte buffer a C string function sees: everything up
to (excluding) the first NUL byte. -/
def cstr (l : List Nat) : List Nat := l.takeWhile (fun c => c != 0)

/-- C `isspace` on a byte (C locale). -/
def isspaceB (c : Nat) : Bool := c = 32 || c = 9 || c = 10 || c = 11 || c = 12 || c = 13

/-- C `isdigit` on a byte. -/
def isdigitB (c : Nat) : Bool := 48 ≤ c && c ≤ 57

/-- C `isalnum` on a byte (C locale; bytes outside ASCII are not alphanumeric). -/
def isalnumB (c : Nat) : Bool :=
  (48 ≤ c && c ≤ 57) || (65 ≤ c && c ≤ 90) || (97 ≤ c && c ≤ 122)

/-- C `isxdigit` on a byte. -/
def isxdigitB (c : Nat) : Bool :=
  (48 ≤ c && c ≤ 57) || (65 ≤ c && c ≤ 70) || (97 ≤ c && c ≤ 102)

/-- `tolower` on a byte, as used by `strcasecmp`. -/
def lowerB (c : Nat) : Nat := if 65 ≤ c ∧ c ≤ 90 then c + 32 else c

/-- `strcasecmp(a, b) == 0` on NUL-free byte lists. -/
def caseEqB (a b : List Nat) : Bool := a.map lowerB == b.map lowerB

/-- Index of the first occurrence of byte `c` in `l` (C `strchr` on a
NUL-free list). -/
def idxOf (c : Nat) : List Nat → Option Nat
  | [] => none
  | x :: t => if x = c then some 0 else (idxOf c t).map (· + 1)

/-- Index of the first occurrence of `p` as a contiguous sublist of `l`
(C `strstr` on NUL-free lists; callers pass `cstr` buffers). -/
def indexOfSub (p : List Nat) : List Nat → Option Nat
  | [] => if p = [] then some 0 else none
  | x :: t => if p.isPrefixOf (x :: t) then some 0 else (indexOfSub p t).map (· + 1)

/-- Whether `p` occurs as a contiguous sublist of `l`. -/
def containsSub (p l : List Nat) : Bool := (indexOfSub p l).isSome

/-- Value of a list of ASCII digits, most significant first. -/
def digitsToNat (l : List Nat) : Nat := l.foldl (fun a c => a * 10 + (c - 48)) 0

/-- LONG_MAX on the LP64 platforms the server targets. -/
def LONG_MAX : Nat := 2 ^ 63 - 1

/-- C `strtol(s, &end, 10)` on a NUL-free byte list: skips leading
whitespace, consumes an optional sign and a run of digits, clamps to the
`long` range, and reports the end pointer as an index into `s`.  When no
digits are consumed the end pointer is reset to the start of `s`. -/
def strtol10 (s : List Nat) : Int × Nat :=
  let w := (s.takeWhile isspaceB).length
  let signed : Bool × Nat :=
    match s.drop w with
    | 45 :: _ => (true, w + 1)
    | 43 :: _ => (false, w + 1)
    | _ => (false, w)
  let ds := (s.drop signed.2).takeWhile isdigitB
  if ds.length = 0 then (0, 0)
  else
    let n : Int := (digitsToNat ds : Int)
    let v : Int := if signed.1 then -n else n
    let clamped : Int :=
      if v > (LONG_MAX : Int) then (LONG_MAX : Int)
      else if v < -((LONG_MAX : Int) + 1) then -((LONG_MAX : Int) + 1)
      else v
    (clamped, signed.2 + ds.length)

/-! ## http_parser.c -/

/-- HTTP method enumeration (http_parser.h). -/
inductive HttpMethod
  | unknown | get | post | put | delete | head | options | patch | trace | connect
  deriving DecidableEq, Repr

/-- A parsed request as produced by `http_parse_request`: method, URI
and version slices plus the ordered header vector of (name, value)
pairs.  The body fields of the C struct are attached later by the
engine and are carried separately in this model. -/
structure HttpRequestParsed where
  method : HttpMethod
  uri : List Nat
  version : List Nat
  headers : List (List Nat × List Nat)
  deriving DecidableEq, Repr

/-- Parse errors of http_parser.c. -/
inductive HttpParseErr
  | badRequest | parserErr
  deriving DecidableEq, Repr

/-- `parse_method` (http_parser.c): exact match against the nine known tokens. -/
def parse_method (m : List Nat) : HttpMethod :=
  if m = bytesOf "GET" then .get
  else if m = bytesOf "POST" then .post
  else if m = bytesOf "PUT" then .put
  else if m = bytesOf "DELETE" then .delete
  else if m = bytesOf "HEAD" then .head
  else if m = bytesOf "OPTIONS" then .options
  else if m = bytesOf "PATCH" then .patch
  else if m = bytesOf "TRACE" then .trace
  else if m = bytesOf "CONNECT" then .connect
  else .unknown

/-- `trim_whitespace` (http_parser.c): strip leading then trailing
ASCII whitespace. -/
def trim_whitespace (l : List Nat) : List Nat :=
  ((l.dropWhile isspaceB).reverse.dropWhile isspaceB).reverse

/-- `is_unreserved` (http_parser.c). -/
def is_unreserved (c : Nat) : Bool :=
  isalnumB c || c = 45 || c = 46 || c = 95 || c = 126

/-- The sub-delimiter / extra characters accepted by the `switch` in
`is_valid_uri`: `/ : @ ! $ & + , ; = ( ) * '`. -/
def isUriExtra (c : Nat) : Bool :=
  c = 47 || c = 58 || c = 64 || c = 33 || c = 36 || c = 38 ||
  c = 43 || c = 44 || c = 59 || c = 61 || c = 40 || c = 41 || c = 42 || c = 39

/-- The indexed loop of `is_valid_uri`, mirroring
`for (i = 0; i < strlen(uri); ++i)` with the `i += 2` skip after a
valid percent triple.  `u` is the full (NUL-free) URI, `i` the current
index; the fuel argument dominates the number of remaining iterations. -/
def uriLoopIdx (u : List Nat) : Nat → Nat → Bool
  | 0, _ => true
  | fuel + 1, i =>
    if i < u.length then
      let c := u.getD i 0
      if is_unreserved c then uriLoopIdx u fuel (i + 1)
      else if c = 37 then
        if i + 2 < u.length ∧ isxdigitB (u.getD (i + 1) 0) ∧ isxdigitB (u.getD (i + 2) 0) then
          uriLoopIdx u fuel (i + 3)
        else false
      else if isUriExtra c then uriLoopIdx u fuel (i + 1)
      else false
    else true

/-- `is_valid_uri` (http_parser.c): the URI must start with a slash and
every octet must pass the loop above.  The C function receives a
NUL-terminated slice, hence the `cstr`. -/
def is_valid_uri (uri : List Nat) : Bool :=
  let u := cstr uri
  match u with
  | [] => false
  | c :: _ => c = 47 && uriLoopIdx u (u.length + 1) 0

/-- One header line split: find the first colon, split, trim both
sides.  Mirrors the body of the `while` loop in `parse_headers`. -/
def splitHeaderLine (line : List Nat) : Option (List Nat × List Nat) :=
  match idxOf 58 line with
  | none => none
  | some ci => some (trim_whitespace (line.take ci), trim_whitespace (line.drop (ci + 1)))

/-- `parse_headers` (http_parser.c): iterate CRLF-delimited lines until
the empty line (or until no CRLF remains, in which case the headers
collected so far are returned).  Allocation failures (PARSER_ERR) are
not modelled.  The fuel dominates the number of iterations; each
iteration consumes at least two bytes, so `s.length + 1` is always
sufficient. -/
def parse_headers : Nat → List Nat → Except HttpParseErr (List (List Nat × List Nat))
  | 0, _ => .error .parserErr
  | fuel + 1, s =>
    match indexOfSub CRLF (cstr s) with
    | none => .ok []
    | some i =>
      if i = 0 then .ok []
      else
        let line := (cstr s).take i
        match splitHeaderLine line with
        | none => .error .badRequest
        | some nv =>
          match parse_headers fuel (s.drop (i + 2)) with
          | .error e => .error e
          | .ok hs => .ok (nv :: hs)

/-- `http_get_header_value` (http_parser.c): first case-insensitive
match on the header name. -/
def http_get_header_value (hs : List (List Nat × List Nat)) (name : List Nat) :
    Option (List Nat) :=
  (hs.find? (fun h => caseEqB h.1 name)).map (fun h => h.2)

/-- `http_parse_request` (http_parser.c) on the raw contents of the
headers buffer.  The C code mutates the buffer in place by writing NUL
bytes at the separators it finds; the mutations only affect bytes
before the header terminator, which are discarded afterwards, so this
pure model splits slices instead.  All string searches stop at the
first NUL of the buffer, as the C string functions do. -/
def http_parse_request (s : List Nat) : Except HttpParseErr HttpRequestParsed :=
  let cs := cstr s
  match indexOfSub CRLF cs with
  | none => .error .badRequest
  | some i =>
    let reqline := cs.take i
    match idxOf 32 reqline with
    | none => .error .badRequest
    | some a =>
      let methodStr := reqline.take a
      let afterMethod := reqline.drop (a + 1)
      match idxOf 32 afterMethod with
      | none => .error .badRequest
      | some b =>
        let uri := afterMethod.take b
        let version := afterMethod.drop (b + 1)
        if parse_method methodStr = .unknown then .error .badRequest
        else if ¬ is_valid_uri uri then .error .badRequest
        else if version ≠ bytesOf "HTTP/1.1" then .error .badRequest
        else
          match parse_headers (s.length + 1) (s.drop (i + 2)) with
          | .error e => .error e
          | .ok hs =>
            if (http_get_header_value hs (bytesOf "Host")).isNone then .error .badRequest
            else .ok { method := parse_method methodStr, uri := uri,
                       version := version, headers := hs }

/-! ## http_server.c : connection state, callbacks, responses -/

/-- `http_conn_state_t`. -/
inductive HttpConnState
  | readingHeaders | readingBody
  deriving DecidableEq, Repr

/-- `struct http_conn_t`: the per-connection HTTP state.  The memory
body buffer and the temporary body file are both modelled as the list
of bytes written to the chosen sink (`bodySink`), discriminated by
`bodyInFile`.  The `closed` flag models the underlying
`tcp_conn_t.is_closed` flag: freed storage is not modelled, a closed
connection simply receives no further events. -/
structure HttpConn where
  state : HttpConnState
  headersBuff : List Nat
  headersLen : Nat
  bodySink : List Nat
  bodyInFile : Bool
  bodyExpected : Nat
  bodyReceived : Nat
  parsedRequest : Option HttpRequestParsed
  closed : Bool
  deriving DecidableEq, Repr

/-- The observable events of a connection: requests dispatched to the
router's `on_request` (with the body the router sees and the
body-in-file flag), bytes sent on the socket, and the closing of the
connection. -/
inductive HttpEv
  | dispatch (req : HttpRequestParsed) (body : List Nat) (inFile : Bool)
  | send (bytes : List Nat)
  | close
  deriving DecidableEq, Repr

/-- What a router callback does during one invocation: the responses it
sends through `http_server_send_data`, and whether it called
`http_server_close_conn`. -/
structure RouterResult where
  sends : List (List Nat)
  closes : Bool

/-- `http_server_callbacks_t`: the three optional hooks. -/
structure HttpCallbacks where
  onRequest : Option (HttpRequestParsed → List Nat → Bool → RouterResult)
  onBadRequest : Option RouterResult
  onServerError : Option RouterResult

/-- `HEADERS_BUFF_SIZE`. -/
def HEADERS_BUFF_SIZE : Nat := 8192

/-- `BODY_IN_FILE_THRESHOLD`. -/
def BODY_IN_FILE_THRESHOLD : Nat := 1024 * 1024

/-- The hardcoded 431 response of `http_on_data`. -/
def res431 : List Nat :=
  bytesOf "HTTP/1.1 431 Request Header Fields Too Large\r\nConnection: close\r\n\r\n"

/-- The default 400 response of `bad_request`. -/
def res400 : List Nat := bytesOf "HTTP/1.1 400 Bad Request\r\nConnection: close\r\n\r\n"

/-- The default 500 response of `internal_server_error`. -/
def res500 : List Nat :=
  bytesOf "HTTP/1.1 500 Internal Server Error\r\nConnection: close\r\n\r\n"

/-- The 501 response sent by `handle_request` when no `on_request`
callback was supplied. -/
def res501 : List Nat := bytesOf "HTTP/1.1 501 Not Implemented\r\nContent-Length: 0\r\n\r\n"

/-- Modelled from the spec: `tcp_server_is_conn_closed` is declared in
tcp_server.h ("Checks if a connection is marked as closed") and called
from `handle_request`, but its definition is not among the sources;
following the header documentation and the spec's description of the
`closed` flag it returns that flag. -/
def tcp_server_is_conn_closed (c : HttpConn) : Bool := c.closed

/-- `tcp_server_close_conn` as seen from the HTTP layer: a no-op on an
already-closed connection, otherwise it marks the connection closed
(unregistering and unlinking happen in the TCP layer, modelled
separately below) and this model records a single close event. -/
def closeConn (c : HttpConn) : HttpConn × List HttpEv :=
  if c.closed then (c, []) else ({ c with closed := true }, [.close])

/-- `bad_request` (http_server.c): invoke the `on_bad_request` hook if
present and then close unconditionally; otherwise send the default 400
and close.  Sends always succeed in this model. -/
def bad_request (cb : HttpCallbacks) (c : HttpConn) : HttpConn × List HttpEv :=
  match cb.onBadRequest with
  | some r =>
    let step1 := if r.closes then closeConn c else (c, [])
    let step2 := closeConn step1.1
    (step2.1, r.sends.map .send ++ step1.2 ++ step2.2)
  | none =>
    let step := closeConn c
    (step.1, .send res400 :: step.2)

/-- `internal_server_error` (http_server.c), analogously. -/
def internal_server_error (cb : HttpCallbacks) (c : HttpConn) : HttpConn × List HttpEv :=
  match cb.onServerError with
  | some r =>
    let step1 := if r.closes then closeConn c else (c, [])
    let step2 := closeConn step1.1
    (step2.1, r.sends.map .send ++ step1.2 ++ step2.2)
  | none =>
    let step := closeConn c
    (step.1, .send res500 :: step.2)

/-- The Content-Length extraction of `try_parse_request` (lines
240-246): absent header leaves `body_expected` untouched, a present
header is run through `strtol` base 10 and rejected when the end
pointer is not at the terminating NUL or the value is negative. -/
def parseContentLengthE (hs : List (List Nat × List Nat)) : Except Unit (Option Nat) :=
  match http_get_header_value hs (bytesOf "Content-Length") with
  | none => .ok none
  | some v =>
    let r := strtol10 v
    if r.2 ≠ v.length ∨ r.1 < 0 then .error ()
    else .ok (some r.1.toNat)

/-- `reset_http_conn`. -/
def reset_http_conn (c : HttpConn) : HttpConn :=
  { c with parsedRequest := none, bodySink := [], bodyInFile := false,
           headersLen := 0, bodyExpected := 0, bodyReceived := 0,
           state := .readingHeaders }

/-- `init_body_reading`: switch to the body-reading state, choose the
sink (temporary file above the threshold, heap buffer otherwise), and
spill the body bytes already sitting in the headers buffer after the
terminator into the sink.  tmpfile/malloc failures are not modelled. -/
def init_body_reading (c : HttpConn) : HttpConn :=
  let c1 := { c with state := .readingBody,
                     bodyInFile := c.bodyExpected > BODY_IN_FILE_THRESHOLD }
  let bodyInBuffer := c1.headersBuff.length - c1.headersLen
  if bodyInBuffer > 0 then
    let toWrite := min bodyInBuffer c1.bodyExpected
    let bodyStart := c1.headersBuff.drop c1.headersLen
    { c1 with bodySink := bodyStart.take toWrite, bodyReceived := toWrite }
  else c1

/-- A default request value for the (unreachable) case where
`handle_request` runs without a parsed request stored. -/
def defaultReq : HttpRequestParsed :=
  { method := .unknown, uri := [], version := [], headers := [] }

/-- The three mutually recursive steps of the engine:
`try_parse_request`, `handle_request` and `check_if_body_received`. -/
inductive EngineCall
  | tryParse | handle | afterBody
  deriving DecidableEq, Repr

/-- The mutual recursion of `try_parse_request` / `handle_request` /
`check_if_body_received` (http_server.c), with explicit fuel.  The
result is the updated connection, the events emitted, and the boolean
the C functions return (whether the connection should stay open and
`http_on_data` should keep consuming).  `none` means fuel exhaustion
and never arises for the fuel the wrapper supplies. -/
def engineGo (cb : HttpCallbacks) : Nat → EngineCall → HttpConn →
    Option (HttpConn × List HttpEv × Bool)
  | 0, _, _ => none
  | fuel + 1, .tryParse, c =>
    -- try_parse_request, lines 227-254
    match indexOfSub CRLF4 (cstr c.headersBuff) with
    | none => some (c, [], true)
    | some idx =>
      match http_parse_request c.headersBuff with
      | .error .badRequest =>
        let r := bad_request cb c
        some (r.1, r.2, false)
      | .error .parserErr =>
        let r := internal_server_error cb c
        some (r.1, r.2, false)
      | .ok pr =>
        let c1 := { c with parsedRequest := some pr, headersLen := idx + 4 }
        match parseContentLengthE pr.headers with
        | .error _ =>
          let r := bad_request cb c1
          some (r.1, r.2, false)
        | .ok clv =>
          let c2 := { c1 with bodyExpected := clv.getD c1.bodyExpected }
          if c2.bodyExpected = 0 then engineGo cb fuel .handle c2
          else engineGo cb fuel .afterBody (init_body_reading c2)
  | fuel + 1, .afterBody, c =>
    -- check_if_body_received, lines 309-319; the finalization of the
    -- sink (NUL terminator / rewind) has no observable effect on the
    -- byte list model
    if c.bodyReceived ≥ c.bodyExpected then engineGo cb fuel .handle c
    else some (c, [], true)
  | fuel + 1, .handle, c =>
    -- handle_request, lines 327-364
    let pr := c.parsedRequest.getD defaultReq
    let afterCb : HttpConn × List HttpEv × Bool :=
      match cb.onRequest with
      | some f =>
        let r := f pr c.bodySink c.bodyInFile
        let evs := HttpEv.dispatch pr c.bodySink c.bodyInFile :: r.sends.map .send
        if r.closes then
          let cc := closeConn c
          (cc.1, evs ++ cc.2, false)
        else (c, evs, true)
      | none => (c, [.send res501], true)
    if tcp_server_is_conn_closed afterCb.1 ∨ afterCb.2.2 = false then
      some (afterCb.1, afterCb.2.1, false)
    else
      let c1 := afterCb.1
      let evs := afterCb.2.1
      let connHeader := http_get_header_value pr.headers (bytesOf "Connection")
      let shouldClose := match connHeader with
        | some v => caseEqB v (bytesOf "close")
        | none => false
      if shouldClose then
        let cc := closeConn c1
        some (cc.1, evs ++ cc.2, false)
      else
        let total := c1.headersLen + c1.bodyExpected
        let dataLeft := if c1.headersBuff.length > total then c1.headersBuff.length - total else 0
        let c2 := { reset_http_conn c1 with headersBuff := c1.headersBuff.drop total }
        if dataLeft > 0 then
          match engineGo cb fuel .tryParse c2 with
          | none => none
          | some r => some (r.1, evs ++ r.2.1, r.2.2)
        else some (c2, evs, true)

/-- Fuel sufficient for `engineGo` starting from connection `c`: every
chain of three calls strictly decreases the headers buffer. -/
def engineFuel (c : HttpConn) : Nat := 3 * c.headersBuff.length + 9

/-- The consumption loop of `http_on_data` (http_server.c, lines
143-198), with explicit fuel dominating the number of loop
iterations. -/
def onDataGo (cb : HttpCallbacks) : Nat → HttpConn → List Nat →
    Option (HttpConn × List HttpEv)
  | 0, _, _ => none
  | fuel + 1, c, input =>
    if input.isEmpty then some (c, [])
    else
      match c.state with
      | .readingHeaders =>
        let space := HEADERS_BUFF_SIZE - c.headersBuff.length - 1
        if space = 0 then
          let cc := closeConn c
          some (cc.1, .send res431 :: cc.2)
        else
          let n := min input.length space
          let c1 := { c with headersBuff := c.headersBuff ++ input.take n }
          match engineGo cb (engineFuel c1) .tryParse c1 with
          | none => none
          | some r =>
            if r.2.2 then
              match onDataGo cb fuel r.1 (input.drop n) with
              | none => none
              | some r2 => some (r2.1, r.2.1 ++ r2.2)
            else some (r.1, r.2.1)
      | .readingBody =>
        let remaining := c.bodyExpected - c.bodyReceived
        let n := min input.length remaining
        let c1 := { c with bodySink := c.bodySink ++ input.take n,
                           bodyReceived := c.bodyReceived + n }
        match engineGo cb (engineFuel c1) .afterBody c1 with
        | none => none
        | some r =>
          if r.2.2 then
            match onDataGo cb fuel r.1 (input.drop n) with
            | none => none
            | some r2 => some (r2.1, r.2.1 ++ r2.2)
          else some (r.1, r.2.1)

/-- `http_on_data` with sufficient fuel for its loop (at most one loop
iteration per input byte plus one zero-progress iteration each). -/
def http_on_data (cb : HttpCallbacks) (c : HttpConn) (input : List Nat) :
    Option (HttpConn × List HttpEv) :=
  onDataGo cb (2 * input.length + 2) c input

/-- The connection state `http_on_connect` creates (calloc-zeroed). -/
def initialHttpConn : HttpConn :=
  { state := .readingHeaders, headersBuff := [], headersLen := 0,
    bodySink := [], bodyInFile := false, bodyExpected := 0,
    bodyReceived := 0, parsedRequest := none, closed := false }

/-- Deliver a sequence of TCP segments to one connection: the read loop
of `handle_read_event` (tcp_server.c) stops delivering once the
connection is marked closed. -/
def runChunks (cb : HttpCallbacks) : HttpConn → List (List Nat) →
    Option (HttpConn × List HttpEv)
  | c, [] => some (c, [])
  | c, x :: xs =>
    if c.closed then some (c, [])
    else
      match http_on_data cb c x with
      | none => none
      | some r =>
        match runChunks cb r.1 xs with
        | none => none
        | some r2 => some (r2.1, r.2 ++ r2.2)

/-! ## Lemmas about the byte-level primitives -/

/-- `p` occurs in `l` at position `q`. -/
def MatchAt (q : Nat) (p l : List Nat) : Prop := p <+: l.drop q

instance (q : Nat) (p l : List Nat) : Decidable (MatchAt q p l) := by
  unfold MatchAt; infer_instance

theorem cstr_eq_self {l : List Nat} (h : ∀ c ∈ l, c ≠ 0) : cstr l = l := by
  induction l with
  | nil => rfl
  | cons x t ih =>
    have hx : (x != 0) = true := by
      simpa using h x (List.mem_cons_self x t)
    simp only [cstr, List.takeWhile_cons, hx, if_true]
    exact congrArg (x :: ·) (ih fun c hc => h c (List.mem_cons_of_mem x hc))

theorem cstr_append {a b : List Nat} (h : ∀ c ∈ a, c ≠ 0) :
    cstr (a ++ b) = a ++ cstr b := by
  induction a with
  | nil => rfl
  | cons x t ih =>
    have hx : (x != 0) = true := by
      simpa using h x (List.mem_cons_self x t)
    simp only [cstr, List.cons_append, List.takeWhile_cons, hx, if_true]
    exact congrArg (x :: ·) (ih fun c hc => h c (List.mem_cons_of_mem x hc))

theorem idxOf_cons (c x : Nat) (t : List Nat) :
    idxOf c (x :: t) = if x = c then some 0 else (idxOf c t).map (· + 1) := rfl

theorem idxOf_append_first {a : List Nat} {c : Nat} (h : c ∉ a) (z : List Nat) :
    idxOf c (a ++ c :: z) = some a.length := by
  induction a with
  | nil => simp [idxOf]
  | cons x t ih =>
    have hx : x ≠ c := fun he => h (he ▸ List.mem_cons_self x t)
    have ih' := ih (fun hc => h (List.mem_cons_of_mem x hc))
    rw [List.cons_append, idxOf_cons, if_neg hx, ih']
    rfl

theorem idxOf_isSome_of_mem {c : Nat} {l : List Nat} (h : c ∈ l) :
    (idxOf c l).isSome := by
  induction l with
  | nil => cases h
  | cons x t ih =>
    by_cases hx : x = c
    · simp [idxOf_cons, hx]
    · have hc : c ∈ t := by
        rcases List.mem_cons.mp h with h1 | h1
        · exact absurd h1.symm hx
        · exact h1
      rw [idxOf_cons, if_neg hx]
      rcases Option.isSome_iff_exists.mp (ih hc) with ⟨i, hi⟩
      simp [hi]

theorem indexOfSub_nil (p : List Nat) :
    indexOfSub p [] = if p = [] then some 0 else none := rfl

theorem indexOfSub_cons (p : List Nat) (x : Nat) (t : List Nat) :
    indexOfSub p (x :: t) =
      if p.isPrefixOf (x :: t) then some 0 else (indexOfSub p t).map (· + 1) := rfl

theorem matchAt_zero_iff {p l : List Nat} : MatchAt 0 p l ↔ p <+: l := by
  simp [MatchAt]

theorem matchAt_succ_cons {p : List Nat} {x : Nat} {t : List Nat} {j : Nat} :
    MatchAt (j + 1) p (x :: t) ↔ MatchAt j p t := by
  simp [MatchAt, List.drop_succ_cons]

/-- Characterization of `indexOfSub`: it returns the first match. -/
theorem indexOfSub_eq_some_iff {p l : List Nat} {i : Nat} :
    indexOfSub p l = some i ↔ (MatchAt i p l ∧ ∀ j < i, ¬ MatchAt j p l) := by
  induction l generalizing i with
  | nil =>
    rw [indexOfSub_nil]
    constructor
    · intro h
      by_cases hp : p = []
      · rw [if_pos hp, Option.some.injEq] at h
        subst h
        exact ⟨by simp [MatchAt, hp], by omega⟩
      · rw [if_neg hp] at h
        cases h
    · rintro ⟨h1, h2⟩
      have hp : p = [] := List.prefix_nil.mp (by simpa [MatchAt] using h1)
      have hi : i = 0 := by
        by_contra hne
        exact h2 0 (Nat.pos_of_ne_zero hne) (by simp [MatchAt, hp])
      simp [hp, hi]
  | cons x t ih =>
    rw [indexOfSub_cons]
    constructor
    · intro h
      by_cases hp : p.isPrefixOf (x :: t) = true
      · rw [if_pos hp, Option.some.injEq] at h
        subst h
        exact ⟨matchAt_zero_iff.mpr (List.isPrefixOf_iff_prefix.mp hp), by omega⟩
      · rw [if_neg hp, Option.map_eq_some'] at h
        obtain ⟨i', hi', rfl⟩ := h
        obtain ⟨m1, m2⟩ := ih.mp hi'
        refine ⟨matchAt_succ_cons.mpr m1, ?_⟩
        intro j hj
        cases j with
        | zero =>
          intro hm
          exact hp (List.isPrefixOf_iff_prefix.mpr (matchAt_zero_iff.mp hm))
        | succ j' =>
          intro hm
          exact m2 j' (by omega) (matchAt_succ_cons.mp hm)
    · rintro ⟨h1, h2⟩
      by_cases hp : p.isPrefixOf (x :: t) = true
      · have hi : i = 0 := by
          by_contra hne
          exact h2 0 (Nat.pos_of_ne_zero hne)
            (matchAt_zero_iff.mpr (List.isPrefixOf_iff_prefix.mp hp))
        rw [if_pos hp, hi]
      · cases i with
        | zero =>
          exact absurd (List.isPrefixOf_iff_prefix.mpr (matchAt_zero_iff.mp h1)) hp
        | succ i' =>
          rw [if_neg hp,
            ih.mpr ⟨matchAt_succ_cons.mp h1,
              fun j hj hm => h2 (j + 1) (by omega) (matchAt_succ_cons.mpr hm)⟩]
          rfl

theorem indexOfSub_eq_none_iff {p l : List Nat} :
    indexOfSub p l = none ↔ ∀ j, ¬ MatchAt j p l := by
  induction l with
  | nil =>
    rw [indexOfSub_nil]
    constructor
    · intro h j hm
      have hp : p = [] := List.prefix_nil.mp (by simpa [MatchAt] using hm)
      rw [if_pos hp] at h
      cases h
    · intro h
      by_cases hp : p = []
      · exact absurd (by simp [MatchAt, hp]) (h 0)
      · rw [if_neg hp]
  | cons x t ih =>
    rw [indexOfSub_cons]
    constructor
    · intro h j hm
      by_cases hp : p.isPrefixOf (x :: t) = true
      · rw [if_pos hp] at h
        cases h
      · rw [if_neg hp, Option.map_eq_none'] at h
        cases j with
        | zero => exact hp (List.isPrefixOf_iff_prefix.mpr (matchAt_zero_iff.mp hm))
        | succ j' => exact ih.mp h j' (matchAt_succ_cons.mp hm)
    · intro h
      have hp : ¬ p.isPrefixOf (x :: t) = true := by
        intro hc
        exact h 0 (matchAt_zero_iff.mpr (List.isPrefixOf_iff_prefix.mp hc))
      rw [if_neg hp, Option.map_eq_none']
      exact ih.mpr (fun j hm => h (j + 1) (matchAt_succ_cons.mpr hm))

theorem containsSub_eq_false_iff {p l : List Nat} :
    containsSub p l = false ↔ ∀ j, ¬ MatchAt j p l := by
  unfold containsSub
  constructor
  · intro hf j hm
    cases h : indexOfSub p l with
    | none => exact indexOfSub_eq_none_iff.mp h j hm
    | some i => rw [h] at hf; cases hf
  · intro hall
    rw [indexOfSub_eq_none_iff.mpr hall]
    rfl

theorem matchAt_append_right {q : Nat} {p a b : List Nat} (h : MatchAt q p b) :
    MatchAt (a.length + q) p (a ++ b) := by
  unfold MatchAt at h ⊢
  rw [← List.drop_drop, List.drop_left]
  exact h

theorem matchAt_append_left {q : Nat} {p a b : List Nat} (h : MatchAt q p a) :
    MatchAt q p (a ++ b) := by
  unfold MatchAt at h ⊢
  rw [List.drop_append_eq_append_drop]
  exact h.trans (List.prefix_append _ _)

theorem matchAt_append_elim {q : Nat} {p a b : List Nat} (h : MatchAt q p (a ++ b))
    (hle : q + p.length ≤ a.length) : MatchAt q p a := by
  unfold MatchAt at h ⊢
  have he : p = ((a ++ b).drop q).take p.length := by
    obtain ⟨t, ht⟩ := h
    simp [← ht]
  rw [List.drop_append_eq_append_drop, List.take_append_of_le_length (by
    simp only [List.length_drop]; omega)] at he
  exact he ▸ List.take_prefix _ _

theorem matchAt_decomp_pat {q : Nat} {p1 p2 l : List Nat}
    (h : MatchAt q (p1 ++ p2) l) : MatchAt q p1 l ∧ MatchAt (q + p1.length) p2 l := by
  unfold MatchAt at h ⊢
  constructor
  · exact (List.prefix_append p1 p2).trans h
  · obtain ⟨t, ht⟩ := h
    rw [← List.drop_drop, ← ht]
    simp [List.drop_left']

theorem matchAt_of_take {q n : Nat} {p l : List Nat} (h : MatchAt q p (l.take n)) :
    MatchAt q p l := by
  unfold MatchAt at h ⊢
  rw [List.drop_take] at h
  exact h.trans (List.take_prefix _ _)

theorem matchAt_shift_right {q : Nat} {p a b : List Nat} (hq : a.length ≤ q)
    (h : MatchAt q p (a ++ b)) : MatchAt (q - a.length) p b := by
  unfold MatchAt at h ⊢
  rwa [List.drop_append_eq_append_drop, List.drop_eq_nil_of_le hq, List.nil_append] at h

theorem containsSub_cons_tail {p : List Nat} {x : Nat} {t : List Nat}
    (h : containsSub p (x :: t) = false) : containsSub p t = false := by
  rw [containsSub_eq_false_iff] at h ⊢
  exact fun j hm => h (j + 1) (matchAt_succ_cons.mpr hm)

theorem matchAt_mem {q : Nat} {c : Nat} {p l : List Nat} (hm : MatchAt q p l)
    (hc : c ∈ p) : c ∈ l := by
  unfold MatchAt at hm
  obtain ⟨t, ht⟩ := hm
  have : c ∈ l.drop q := ht ▸ List.mem_append_left t hc
  exact List.mem_of_mem_drop this

theorem containsSub_crlf_eq_false_of_not_mem {l : List Nat} (h : 10 ∉ l) :
    containsSub CRLF l = false := by
  rw [containsSub_eq_false_iff]
  intro j hm
  exact h (matchAt_mem hm (by simp [CRLF]))

/-- Where a CRLF can sit in a line followed by its CRLF terminator:
either exactly at the end of the (CRLF-free) line, or beyond it. -/
theorem matchAt_crlf_line {ℓ rest : List Nat} {q : Nat}
    (h : containsSub CRLF ℓ = false) (hm : MatchAt q CRLF (ℓ ++ 13 :: 10 :: rest)) :
    q = ℓ.length ∨ (ℓ.length + 2 ≤ q ∧ MatchAt (q - (ℓ.length + 2)) CRLF rest) := by
  induction ℓ generalizing q with
  | nil =>
    match q with
    | 0 => exact Or.inl rfl
    | 1 =>
      exfalso
      have := matchAt_succ_cons.mp hm
      rw [matchAt_zero_iff, CRLF] at this
      exact absurd (List.cons_prefix_cons.mp this).1 (by omega)
    | q + 2 =>
      refine Or.inr ⟨by simp, ?_⟩
      have := matchAt_succ_cons.mp (matchAt_succ_cons.mp hm)
      simpa using this
  | cons x t ih =>
    match q with
    | 0 =>
      exfalso
      rw [matchAt_zero_iff, CRLF, List.cons_append] at hm
      obtain ⟨hx, hrest⟩ := List.cons_prefix_cons.mp hm
      match t with
      | [] =>
        rw [List.nil_append] at hrest
        exact absurd (List.cons_prefix_cons.mp hrest).1 (by omega)
      | y :: t' =>
        rw [List.cons_append] at hrest
        have hy : y = 10 := ((List.cons_prefix_cons.mp hrest).1).symm
        have : MatchAt 0 CRLF (x :: y :: t') := by
          rw [matchAt_zero_iff, CRLF, hx, hy]
          exact ⟨t', rfl⟩
        exact containsSub_eq_false_iff.mp h 0 this
    | q + 1 =>
      rw [List.cons_append] at hm
      rcases ih (containsSub_cons_tail h) (matchAt_succ_cons.mp hm) with h1 | ⟨h1, h2⟩
      · exact Or.inl (by simp [h1])
      · refine Or.inr ⟨by simp; omega, ?_⟩
        have he : q + 1 - ((x :: t).length + 2) = q - (t.length + 2) := by
          simp
        rw [he]
        exact h2

/-- CRLF4 = CRLF ++ CRLF. -/
theorem crlf4_eq : CRLF4 = CRLF ++ CRLF := rfl

/-- Where a CRLF CRLF can sit in a line followed by its CRLF
terminator: either right at the end of the line with the next two bytes
continuing the match, or beyond the terminator. -/
theorem matchAt_crlf4_line {ℓ rest : List Nat} {q : Nat}
    (h : containsSub CRLF ℓ = false) (hm : MatchAt q CRLF4 (ℓ ++ 13 :: 10 :: rest)) :
    (q = ℓ.length ∧ MatchAt 0 CRLF rest) ∨
      (ℓ.length + 2 ≤ q ∧ MatchAt (q - (ℓ.length + 2)) CRLF4 rest) := by
  have hm2 := matchAt_decomp_pat (crlf4_eq ▸ hm)
  rcases matchAt_crlf_line h hm2.1 with h1 | ⟨h1, _⟩
  · subst h1
    left
    refine ⟨rfl, ?_⟩
    unfold MatchAt at hm
    rw [List.drop_left] at hm
    rw [matchAt_zero_iff]
    rw [CRLF4] at hm
    obtain ⟨h13, hm⟩ := List.cons_prefix_cons.mp hm
    obtain ⟨h10, hm⟩ := List.cons_prefix_cons.mp hm
    exact hm
  · right
    refine ⟨h1, ?_⟩
    have : ℓ ++ 13 :: 10 :: rest = (ℓ ++ [13, 10]) ++ rest := by simp
    rw [this] at hm
    have := matchAt_shift_right (by simp; omega) hm
    simpa using this

/-- A nonempty CRLF-free line followed by its terminator never starts
with a CRLF. -/
theorem crlf_not_prefix_line {ℓ w : List Nat} (hne : ℓ ≠ [])
    (h : containsSub CRLF ℓ = false) : ¬ CRLF <+: (ℓ ++ 13 :: 10 :: w) := by
  intro hp
  match ℓ, hne with
  | [a], _ =>
    rw [List.cons_append, List.nil_append, CRLF] at hp
    obtain ⟨_, hp2⟩ := List.cons_prefix_cons.mp hp
    exact absurd (List.cons_prefix_cons.mp hp2).1 (by omega)
  | a :: b :: t, _ =>
    rw [List.cons_append, List.cons_append, CRLF] at hp
    obtain ⟨ha, hp2⟩ := List.cons_prefix_cons.mp hp
    have hb : b = 10 := ((List.cons_prefix_cons.mp hp2).1).symm
    exact containsSub_eq_false_iff.mp h 0
      (by rw [matchAt_zero_iff, CRLF, ha, hb]; exact ⟨t, rfl⟩)

/-- First CRLF in a CRLF-free block followed by a CRLF. -/
theorem first_crlf_at {a : List Nat} (h : containsSub CRLF a = false) (z : List Nat) :
    indexOfSub CRLF (a ++ 13 :: 10 :: z) = some a.length := by
  rw [indexOfSub_eq_some_iff]
  constructor
  · unfold MatchAt
    rw [List.drop_left]
    exact ⟨z, rfl⟩
  · intro j hj hm
    rcases matchAt_crlf_line h hm with h1 | ⟨h1, _⟩ <;> omega

/-! ## Structured well-formed requests -/

/-- CRLF-joined lines: each line followed by its CRLF terminator. -/
def linesBytes : List (List Nat) → List Nat
  | [] => []
  | ℓ :: ls => ℓ ++ 13 :: 10 :: linesBytes ls

/-- A line is wire-safe when it is nonempty and free of NUL and CRLF. -/
def lineOk (ℓ : List Nat) : Bool :=
  !ℓ.isEmpty && !containsSub CRLF ℓ && ℓ.all (fun c => c != 0)

theorem linesBytes_length_ge {ls : List (List Nat)} (h : ls ≠ []) :
    2 ≤ (linesBytes ls).length := by
  match ls, h with
  | ℓ :: ls', _ => simp [linesBytes]; omega

/-- The first CRLF CRLF in a block of nonempty CRLF-free lines followed
by a final CRLF sits exactly at the last line's terminator, whatever
follows. -/
theorem first_crlf4_lines {ls : List (List Nat)} (hne : ls ≠ [])
    (h : ∀ ℓ ∈ ls, ℓ ≠ [] ∧ containsSub CRLF ℓ = false) (z : List Nat) :
    indexOfSub CRLF4 (linesBytes ls ++ 13 :: 10 :: z) =
      some ((linesBytes ls).length - 2) := by
  induction ls with
  | nil => exact absurd rfl hne
  | cons ℓ ls' ih =>
    obtain ⟨hℓne, hℓf⟩ := h ℓ (List.mem_cons_self ℓ ls')
    by_cases hls' : ls' = []
    · subst hls'
      have hrw : linesBytes [ℓ] ++ 13 :: 10 :: z = ℓ ++ 13 :: 10 :: (13 :: 10 :: z) := by
        simp [linesBytes]
      have hlen : (linesBytes [ℓ]).length - 2 = ℓ.length := by simp [linesBytes]
      rw [hrw, hlen, indexOfSub_eq_some_iff]
      refine ⟨?_, ?_⟩
      · unfold MatchAt
        rw [List.drop_left]
        exact ⟨z, rfl⟩
      · intro j hj hm
        rcases matchAt_crlf4_line hℓf hm with ⟨h1, _⟩ | ⟨h1, _⟩ <;> omega
    · have ihres := ih hls' (fun ℓ2 h2 => h ℓ2 (List.mem_cons_of_mem ℓ h2))
      have hrw : linesBytes (ℓ :: ls') ++ 13 :: 10 :: z =
          (ℓ ++ [13, 10]) ++ (linesBytes ls' ++ 13 :: 10 :: z) := by
        simp [linesBytes]
      have hlen2 : 2 ≤ (linesBytes ls').length := linesBytes_length_ge hls'
      have htgt : (linesBytes (ℓ :: ls')).length - 2 =
          (ℓ ++ [13, 10]).length + ((linesBytes ls').length - 2) := by
        simp [linesBytes]; omega
      rw [hrw, htgt, indexOfSub_eq_some_iff]
      obtain ⟨hm1, hm2⟩ := indexOfSub_eq_some_iff.mp ihres
      refine ⟨matchAt_append_right hm1, ?_⟩
      intro j hj hm
      have hrw2 : (ℓ ++ [13, 10]) ++ (linesBytes ls' ++ 13 :: 10 :: z) =
          ℓ ++ 13 :: 10 :: (linesBytes ls' ++ 13 :: 10 :: z) := by
        simp
      rw [hrw2] at hm
      rcases matchAt_crlf4_line hℓf hm with ⟨h1, h2⟩ | ⟨h1, h2⟩
      · -- a CRLF right at the start of the next block of lines: impossible
        match ls', hls' with
        | ℓ2 :: ls'', _ =>
          obtain ⟨h2ne, h2f⟩ := h ℓ2 (List.mem_cons_of_mem ℓ (List.mem_cons_self ℓ2 ls''))
          have : linesBytes (ℓ2 :: ls'') ++ 13 :: 10 :: z =
              ℓ2 ++ 13 :: 10 :: (linesBytes ls'' ++ 13 :: 10 :: z) := by
            simp [linesBytes]
          rw [matchAt_zero_iff, this] at h2
          exact crlf_not_prefix_line h2ne h2f h2
      · have hlb : (ℓ ++ [13, 10]).length = ℓ.length + 2 := by simp
        rw [hlb] at hj
        exact hm2 (j - (ℓ.length + 2)) (by omega) h2

/-- A structured pipelined request: method token, URI, raw header
lines, body.  Its wire form is `reqBytes`. -/
structure WfReq where
  methodB : List Nat
  uriB : List Nat
  rawLines : List (List Nat)
  body : List Nat
  deriving DecidableEq, Repr

/-- The request line. -/
def reqLine (r : WfReq) : List Nat :=
  r.methodB ++ 32 :: r.uriB ++ 32 :: bytesOf "HTTP/1.1"

/-- The header block including the terminating CRLF CRLF. -/
def headerBytes (r : WfReq) : List Nat :=
  linesBytes (reqLine r :: r.rawLines) ++ [13, 10]

/-- The full wire bytes of one request. -/
def reqBytes (r : WfReq) : List Nat := headerBytes r ++ r.body

/-- The byte stream of a pipelined request sequence. -/
def streamOf (rs : List WfReq) : List Nat := (rs.map reqBytes).flatten

/-- The header pairs the parser extracts from the raw lines. -/
def parsedHeaders (lines : List (List Nat)) : List (List Nat × List Nat) :=
  lines.map (fun ℓ => (splitHeaderLine ℓ).getD ([], []))

/-- The parsed request the engine stores for a structured request. -/
def canonicalReq (r : WfReq) : HttpRequestParsed :=
  { method := parse_method r.methodB, uri := r.uriB,
    version := bytesOf "HTTP/1.1", headers := parsedHeaders r.rawLines }

/-- The `Content-Length` value the engine extracts, as a defaulted
natural (0 when the header is absent); only meaningful on well-formed
requests. -/
def contentLenOf (r : WfReq) : Nat :=
  match parseContentLengthE (parsedHeaders r.rawLines) with
  | .error _ => 0
  | .ok none => 0
  | .ok (some v) => v

/-- Body-in-file flag for a structured request (on well-formed requests
the Content-Length equals the body length). -/
def inFileOf (r : WfReq) : Bool := r.body.length > BODY_IN_FILE_THRESHOLD

/-- Well-formedness of a structured request: known method, valid URI,
wire-safe header lines each containing a colon, a Host header, a
Content-Length consistent with the body (absent means empty body), and
a header block that fits the engine's buffer. -/
def wfReq (r : WfReq) : Bool :=
  (parse_method r.methodB != .unknown) &&
  is_valid_uri r.uriB && r.uriB.all (fun c => c != 0) &&
  r.rawLines.all (fun ℓ => lineOk ℓ && ℓ.contains 58) &&
  (http_get_header_value (parsedHeaders r.rawLines) (bytesOf "Host")).isSome &&
  (match parseContentLengthE (parsedHeaders r.rawLines) with
   | .error _ => false
   | .ok none => r.body.isEmpty
   | .ok (some v) => r.body.length = v) &&
  (headerBytes r).length ≤ 8191

/-! ## The URI acceptance condition, stated from the claim's wording -/

/-- The claim's per-octet condition, recursing structurally over the
octets: each octet is an unreserved character, the start of a `%HH`
triple with two hex digits, or one of the accepted extra characters. -/
def uriCharsOk : List Nat → Bool
  | [] => true
  | c :: rest =>
    if is_unreserved c then uriCharsOk rest
    else if c = 37 then
      match rest with
      | h1 :: h2 :: rest2 => isxdigitB h1 && isxdigitB h2 && uriCharsOk rest2
      | _ => false
    else if isUriExtra c then uriCharsOk rest
    else false

/-- The claim's URI acceptance condition: begins with a slash and every
octet passes `uriCharsOk`. -/
def uriSpecValid (u : List Nat) : Bool :=
  match u with
  | [] => false
  | c :: _ => c = 47 && uriCharsOk u

theorem uriCharsOk_unres {c : Nat} (h : is_unreserved c = true) (rest : List Nat) :
    uriCharsOk (c :: rest) = uriCharsOk rest := by
  rw [uriCharsOk.eq_def]
  simp [h]

theorem uriCharsOk_percent (a b : Nat) (t : List Nat) :
    uriCharsOk (37 :: a :: b :: t) = (isxdigitB a && isxdigitB b && uriCharsOk t) := by
  rw [uriCharsOk.eq_def]
  simp [is_unreserved, isalnumB]

theorem uriCharsOk_percent_nil : uriCharsOk [37] = false := by decide

theorem uriCharsOk_percent_one (a : Nat) : uriCharsOk [37, a] = false := by
  rw [uriCharsOk.eq_def]
  simp [is_unreserved, isalnumB]

theorem uriCharsOk_extra {c : Nat} (h1 : is_unreserved c = false) (h2 : c ≠ 37)
    (h3 : isUriExtra c = true) (rest : List Nat) :
    uriCharsOk (c :: rest) = uriCharsOk rest := by
  rw [uriCharsOk.eq_def]
  simp [h1, h2, h3]

theorem uriCharsOk_bad {c : Nat} (h1 : is_unreserved c = false) (h2 : c ≠ 37)
    (h3 : isUriExtra c = false) (rest : List Nat) :
    uriCharsOk (c :: rest) = false := by
  rw [uriCharsOk.eq_def]
  simp [h1, h2, h3]

theorem uriLoopIdx_eq_charsOk (u : List Nat) :
    ∀ fuel i, u.length - i + 1 ≤ fuel → uriLoopIdx u fuel i = uriCharsOk (u.drop i) := by
  intro fuel
  induction fuel with
  | zero => intro i hf; omega
  | succ fuel ih =>
    intro i hf
    by_cases hi : i < u.length
    · have hdrop : u.drop i = u.getD i 0 :: u.drop (i + 1) := by
        rw [List.getD_eq_getElem u 0 hi]
        exact List.drop_eq_getElem_cons hi
      rw [hdrop]
      simp only [uriLoopIdx, hi, if_true]
      by_cases hu : is_unreserved (u.getD i 0) = true
      · rw [if_pos hu, uriCharsOk_unres hu]
        exact ih (i + 1) (by omega)
      · rw [if_neg hu]
        have hu' : is_unreserved (u.getD i 0) = false := by simpa using hu
        by_cases hp : u.getD i 0 = 37
        · rw [if_pos hp, hp]
          by_cases hlen : i + 2 < u.length
          · have h1 : i + 1 < u.length := by omega
            have hdrop1 : u.drop (i + 1) = u.getD (i + 1) 0 :: u.drop (i + 2) := by
              rw [List.getD_eq_getElem u 0 h1]
              exact List.drop_eq_getElem_cons h1
            have hdrop2 : u.drop (i + 2) = u.getD (i + 2) 0 :: u.drop (i + 3) := by
              rw [List.getD_eq_getElem u 0 hlen]
              exact List.drop_eq_getElem_cons hlen
            rw [hdrop1, hdrop2, uriCharsOk_percent]
            by_cases hx1 : isxdigitB (u.getD (i + 1) 0) = true
            · by_cases hx2 : isxdigitB (u.getD (i + 2) 0) = true
              · rw [if_pos ⟨hlen, hx1, hx2⟩, ih (i + 3) (by omega), hx1, hx2]
                simp
              · have hx2' : isxdigitB (u.getD (i + 2) 0) = false := by simpa using hx2
                rw [if_neg (fun hc => hx2 hc.2.2), hx2']
                simp
            · have hx1' : isxdigitB (u.getD (i + 1) 0) = false := by simpa using hx1
              rw [if_neg (fun hc => hx1 hc.2.1), hx1']
              simp
          · rw [if_neg (fun hc => hlen hc.1)]
            match hd : u.drop (i + 1) with
            | [] => exact uriCharsOk_percent_nil.symm
            | [x] => exact (uriCharsOk_percent_one x).symm
            | x :: y :: t =>
              exfalso
              have hlen2 : (u.drop (i + 1)).length = u.length - (i + 1) :=
                List.length_drop _ _
              rw [hd] at hlen2
              simp at hlen2
              omega
        · rw [if_neg hp]
          by_cases he : isUriExtra (u.getD i 0) = true
          · rw [if_pos he, uriCharsOk_extra hu' hp he]
            exact ih (i + 1) (by omega)
          · rw [if_neg he, uriCharsOk_bad hu' hp (by simpa using he)]
    · simp only [uriLoopIdx, hi, if_false]
      rw [List.drop_eq_nil_of_le (by omega)]
      rfl

/-- The indexed C loop and the structural condition agree on NUL-free
URIs; shared backbone of the claim about `is_valid_uri`. -/
theorem is_valid_uri_eq_spec {u : List Nat} (h0 : ∀ c ∈ u, c ≠ 0) :
    is_valid_uri u = uriSpecValid u := by
  unfold is_valid_uri uriSpecValid
  rw [cstr_eq_self h0]
  match u with
  | [] => rfl
  | c :: t =>
    have he := uriLoopIdx_eq_charsOk (c :: t) ((c :: t).length + 1) 0 (by omega)
    rw [List.drop_zero] at he
    show (decide (c = 47) && uriLoopIdx (c :: t) ((c :: t).length + 1) 0) =
      (decide (c = 47) && uriCharsOk (c :: t))
    rw [he]

theorem uriCharsOk_not_mem_aux :
    ∀ (n : Nat) (u : List Nat), u.length ≤ n → uriCharsOk u = true →
      ∀ c ∈ u, c ≠ 0 ∧ c ≠ 10 ∧ c ≠ 13 ∧ c ≠ 32 := by
  intro n
  induction n with
  | zero =>
    intro u hu h c hc
    have hnil : u = [] := List.length_eq_zero.mp (by omega)
    subst hnil
    cases hc
  | succ n ih =>
    intro u hu h c hc
    match u, hc with
    | d :: rest, hc =>
      by_cases h1 : is_unreserved d = true
      · rw [uriCharsOk_unres h1] at h
        rcases List.mem_cons.mp hc with rfl | hc2
        · unfold is_unreserved isalnumB at h1
          simp only [Bool.or_eq_true, decide_eq_true_eq, Bool.and_eq_true] at h1
          omega
        · exact ih rest (by simp at hu; omega) h c hc2
      · have h1' : is_unreserved d = false := by simpa using h1
        by_cases h2 : d = 37
        · subst h2
          match rest with
          | [] => rw [uriCharsOk_percent_nil] at h; cases h
          | [a] => rw [uriCharsOk_percent_one] at h; cases h
          | a :: b :: rest2 =>
            rw [uriCharsOk_percent] at h
            simp only [Bool.and_eq_true] at h
            obtain ⟨⟨hx1, hx2⟩, hr⟩ := h
            unfold isxdigitB at hx1 hx2
            simp only [Bool.or_eq_true, decide_eq_true_eq, Bool.and_eq_true] at hx1 hx2
            rcases List.mem_cons.mp hc with rfl | hc2
            · omega
            · rcases List.mem_cons.mp hc2 with rfl | hc3
              · omega
              · rcases List.mem_cons.mp hc3 with rfl | hc4
                · omega
                · exact ih rest2 (by simp at hu ⊢; omega) hr c hc4
        · by_cases h3 : isUriExtra d = true
          · rw [uriCharsOk_extra h1' h2 h3] at h
            rcases List.mem_cons.mp hc with rfl | hc2
            · unfold isUriExtra at h3
              simp only [Bool.or_eq_true, decide_eq_true_eq] at h3
              omega
            · exact ih rest (by simp at hu; omega) h c hc2
          · rw [uriCharsOk_bad h1' h2 (by simpa using h3)] at h
            cases h

/-- Octets of a URI accepted by the parser are never NUL, LF, CR or
space. -/
theorem uriCharsOk_mem_facts {u : List Nat} (h : uriCharsOk u = true) :
    ∀ c ∈ u, c ≠ 0 ∧ c ≠ 10 ∧ c ≠ 13 ∧ c ≠ 32 :=
  uriCharsOk_not_mem_aux u.length u (le_refl _) h

/-! ## Facts derived from well-formedness -/

theorem parse_method_cases {m : List Nat} (h : parse_method m ≠ .unknown) :
    m = bytesOf "GET" ∨ m = bytesOf "POST" ∨ m = bytesOf "PUT" ∨
    m = bytesOf "DELETE" ∨ m = bytesOf "HEAD" ∨ m = bytesOf "OPTIONS" ∨
    m = bytesOf "PATCH" ∨ m = bytesOf "TRACE" ∨ m = bytesOf "CONNECT" := by
  unfold parse_method at h
  split_ifs at h with h1 h2 h3 h4 h5 h6 h7 h8 h9 <;> tauto

theorem method_char_facts {m : List Nat} (h : parse_method m ≠ .unknown) :
    (∀ c ∈ m, c ≠ 0 ∧ c ≠ 32 ∧ c ≠ 10 ∧ c ≠ 13) ∧ m ≠ [] := by
  rcases parse_method_cases h with h | h | h | h | h | h | h | h | h <;>
    subst h <;> exact (by decide)

/-- The well-formedness conjuncts, unbundled. -/
theorem wfReq_parts {r : WfReq} (h : wfReq r = true) :
    parse_method r.methodB ≠ .unknown ∧
    is_valid_uri r.uriB = true ∧
    (∀ c ∈ r.uriB, c ≠ 0) ∧
    (∀ ℓ ∈ r.rawLines, lineOk ℓ = true ∧ 58 ∈ ℓ) ∧
    (http_get_header_value (parsedHeaders r.rawLines) (bytesOf "Host")).isSome = true ∧
    (match parseContentLengthE (parsedHeaders r.rawLines) with
     | .error _ => False
     | .ok none => r.body = []
     | .ok (some v) => r.body.length = v) ∧
    (headerBytes r).length ≤ 8191 := by
  unfold wfReq at h
  simp only [Bool.and_eq_true] at h
  obtain ⟨⟨⟨⟨⟨⟨hm, hu⟩, hnul⟩, hlines⟩, hhost⟩, hcl⟩, hsize⟩ := h
  refine ⟨bne_iff_ne.mp hm, hu, ?_, ?_, hhost, ?_, by simpa using hsize⟩
  · intro c hc
    simpa using List.all_eq_true.mp hnul c hc
  · intro ℓ hl
    have hx := List.all_eq_true.mp hlines ℓ hl
    simp only [Bool.and_eq_true] at hx
    exact ⟨hx.1, by simpa using hx.2⟩
  · revert hcl
    match parseContentLengthE (parsedHeaders r.rawLines) with
    | .error e => intro hc; exact absurd hc (by simp)
    | .ok none => intro hc; simpa using hc
    | .ok (some v) => intro hc; exact of_decide_eq_true hc

theorem uriB_charsOk {r : WfReq} (h : wfReq r = true) : uriCharsOk r.uriB = true := by
  obtain ⟨hm, hu, hnul, _⟩ := wfReq_parts h
  rw [is_valid_uri_eq_spec hnul] at hu
  unfold uriSpecValid at hu
  match hr : r.uriB with
  | [] => rw [hr] at hu; cases hu
  | c :: t =>
    rw [hr] at hu
    simp only [Bool.and_eq_true] at hu
    exact hu.2

theorem linesBytes_nul_free {ls : List (List Nat)}
    (h : ∀ ℓ ∈ ls, ∀ c ∈ ℓ, c ≠ 0) : ∀ c ∈ linesBytes ls, c ≠ 0 := by
  induction ls with
  | nil => intro c hc; cases hc
  | cons ℓ t ih =>
    intro c hc
    simp only [linesBytes, List.mem_append, List.mem_cons] at hc
    rcases hc with hc | hc | hc | hc
    · exact h ℓ (List.mem_cons_self ℓ t) c hc
    · omega
    · omega
    · exact ih (fun ℓ2 h2 => h ℓ2 (List.mem_cons_of_mem ℓ h2)) c hc

theorem lineOk_parts {ℓ : List Nat} (h : lineOk ℓ = true) :
    ℓ ≠ [] ∧ containsSub CRLF ℓ = false ∧ ∀ c ∈ ℓ, c ≠ 0 := by
  unfold lineOk at h
  simp only [Bool.and_eq_true, Bool.not_eq_true', List.all_eq_true, bne_iff_ne, ne_eq] at h
  obtain ⟨⟨h1, h2⟩, h3⟩ := h
  refine ⟨?_, h2, fun c hc => h3 c hc⟩
  intro he
  subst he
  simp at h1

theorem reqLine_nul_free {r : WfReq} (h : wfReq r = true) :
    ∀ c ∈ reqLine r, c ≠ 0 := by
  obtain ⟨hm, _, hnul, _⟩ := wfReq_parts h
  obtain ⟨hmc, _⟩ := method_char_facts hm
  intro c hc
  unfold reqLine at hc
  rcases List.mem_append.mp hc with hc1 | hc2
  · rcases List.mem_append.mp hc1 with hca | hcb
    · exact (hmc c hca).1
    · rcases List.mem_cons.mp hcb with rfl | hcu
      · omega
      · exact hnul c hcu
  · rcases List.mem_cons.mp hc2 with rfl | hcv
    · omega
    · have hv : ∀ d ∈ bytesOf "HTTP/1.1", d ≠ 0 := by decide
      exact hv c hcv

theorem reqLine_no_lf {r : WfReq} (h : wfReq r = true) : 10 ∉ reqLine r := by
  obtain ⟨hm, _, _, _⟩ := wfReq_parts h
  obtain ⟨hmc, _⟩ := method_char_facts hm
  have huc := uriCharsOk_mem_facts (uriB_charsOk h)
  intro hc
  unfold reqLine at hc
  rcases List.mem_append.mp hc with hc1 | hc2
  · rcases List.mem_append.mp hc1 with hca | hcb
    · exact (hmc 10 hca).2.2.1 rfl
    · rcases List.mem_cons.mp hcb with he | hcu
      · omega
      · exact (huc 10 hcu).2.1 rfl
  · rcases List.mem_cons.mp hc2 with he | hcv
    · omega
    · have hv : 10 ∉ bytesOf "HTTP/1.1" := by decide
      exact hv hcv

theorem drop_append_cons2 (a : List Nat) (x y : Nat) (z : List Nat) :
    (a ++ x :: y :: z).drop (a.length + 2) = z := by
  have he : a ++ x :: y :: z = (a ++ [x, y]) ++ z := by simp
  have hl : (a ++ [x, y]).length = a.length + 2 := by simp
  rw [he, ← hl, List.drop_left]

theorem drop_append_cons (a : List Nat) (x : Nat) (z : List Nat) :
    (a ++ x :: z).drop (a.length + 1) = z := by
  have he : a ++ x :: z = (a ++ [x]) ++ z := by simp
  have hl : (a ++ [x]).length = a.length + 1 := by simp
  rw [he, ← hl, List.drop_left]

theorem headerBytes_nul_free {r : WfReq} (h : wfReq r = true) :
    ∀ c ∈ headerBytes r, c ≠ 0 := by
  obtain ⟨_, _, _, hlines, _⟩ := wfReq_parts h
  intro c hc
  unfold headerBytes at hc
  simp only [List.mem_append, List.mem_cons] at hc
  rcases hc with hc | hc
  · refine linesBytes_nul_free ?_ c hc
    intro ℓ hl
    rcases List.mem_cons.mp hl with rfl | hl2
    · exact reqLine_nul_free h
    · exact (lineOk_parts (hlines ℓ hl2).1).2.2
  · rcases hc with hc | hc
    · omega
    · simp at hc
      omega

/-! ## The parser on structured requests -/

theorem parse_headers_lines {lines : List (List Nat)}
    (h : ∀ ℓ ∈ lines, lineOk ℓ = true ∧ 58 ∈ ℓ) (z : List Nat) :
    ∀ fuel, lines.length + 1 ≤ fuel →
      parse_headers fuel (linesBytes lines ++ 13 :: 10 :: z) = .ok (parsedHeaders lines) := by
  induction lines generalizing z with
  | nil =>
    intro fuel hf
    match fuel, hf with
    | fuel + 1, _ =>
      have hcstr : cstr (linesBytes [] ++ 13 :: 10 :: z) = 13 :: 10 :: cstr z := by
        have he : linesBytes [] ++ 13 :: 10 :: z = [13, 10] ++ z := by simp [linesBytes]
        rw [he, cstr_append (by decide)]
        rfl
      have hidx : indexOfSub CRLF (cstr (linesBytes [] ++ 13 :: 10 :: z)) = some 0 := by
        rw [hcstr]
        simpa using first_crlf_at (a := []) (by decide) (cstr z)
      simp only [parse_headers, hidx]
      rfl
  | cons ℓ ls ih =>
    intro fuel hf
    match fuel, hf with
    | fuel + 1, hf =>
      obtain ⟨hok, hcolon⟩ := h ℓ (List.mem_cons_self ℓ ls)
      obtain ⟨hne, hcrlf, hnul⟩ := lineOk_parts hok
      have hs : linesBytes (ℓ :: ls) ++ 13 :: 10 :: z =
          ℓ ++ 13 :: 10 :: (linesBytes ls ++ 13 :: 10 :: z) := by
        simp [linesBytes]
      have hcstr : cstr (linesBytes (ℓ :: ls) ++ 13 :: 10 :: z) =
          ℓ ++ 13 :: 10 :: cstr (linesBytes ls ++ 13 :: 10 :: z) := by
        rw [hs]
        have he : ℓ ++ 13 :: 10 :: (linesBytes ls ++ 13 :: 10 :: z) =
            (ℓ ++ [13, 10]) ++ (linesBytes ls ++ 13 :: 10 :: z) := by simp
        rw [he, cstr_append (by
          intro c hc
          rcases List.mem_append.mp hc with hc1 | hc2
          · exact hnul c hc1
          · rcases List.mem_cons.mp hc2 with rfl | hc3
            · omega
            · rcases List.mem_cons.mp hc3 with rfl | hc4
              · omega
              · cases hc4)]
        simp
      have hidx : indexOfSub CRLF (cstr (linesBytes (ℓ :: ls) ++ 13 :: 10 :: z)) =
          some ℓ.length := by
        rw [hcstr]
        exact first_crlf_at hcrlf _
      have hlenne : ℓ.length ≠ 0 := fun he => hne (List.length_eq_zero.mp he)
      have htake : (cstr (linesBytes (ℓ :: ls) ++ 13 :: 10 :: z)).take ℓ.length = ℓ := by
        rw [hcstr]
        exact List.take_left ℓ _
      obtain ⟨nv, hnv⟩ : ∃ nv, splitHeaderLine ℓ = some nv := by
        unfold splitHeaderLine
        rcases Option.isSome_iff_exists.mp (idxOf_isSome_of_mem hcolon) with ⟨ci, hci⟩
        rw [hci]
        exact ⟨_, rfl⟩
      have hdrop : (linesBytes (ℓ :: ls) ++ 13 :: 10 :: z).drop (ℓ.length + 2) =
          linesBytes ls ++ 13 :: 10 :: z := by
        rw [hs]
        exact drop_append_cons2 ℓ 13 10 _
      have hrec := ih (fun ℓ2 h2 => h ℓ2 (List.mem_cons_of_mem ℓ h2)) z fuel (by
        simp at hf
        omega)
      simp only [parse_headers, hidx, hlenne, if_false, htake, hnv, hdrop, hrec]
      have hgetD : parsedHeaders (ℓ :: ls) = nv :: parsedHeaders ls := by
        unfold parsedHeaders
        simp [hnv]
      rw [hgetD]

/-- The parser on a structured well-formed request's header block,
whatever bytes follow the terminator: it yields the canonical parsed
request.  This is the stability fact the engine proofs build on. -/
theorem parse_wf {r : WfReq} (h : wfReq r = true) (w : List Nat) :
    http_parse_request (headerBytes r ++ w) = .ok (canonicalReq r) := by
  obtain ⟨hm, hu, hnulu, hlines, hhost, hcl, hsize⟩ := wfReq_parts h
  have hmc := method_char_facts hm
  have huc := uriCharsOk_mem_facts (uriB_charsOk h)
  have hhb : headerBytes r ++ w =
      reqLine r ++ 13 :: 10 :: (linesBytes r.rawLines ++ 13 :: 10 :: w) := by
    simp [headerBytes, linesBytes]
  have hcstr : cstr (headerBytes r ++ w) = headerBytes r ++ cstr w :=
    cstr_append (headerBytes_nul_free h)
  have hcstr2 : cstr (headerBytes r ++ w) =
      reqLine r ++ 13 :: 10 :: (linesBytes r.rawLines ++ 13 :: 10 :: cstr w) := by
    rw [hcstr]
    have he : headerBytes r ++ cstr w =
        reqLine r ++ 13 :: 10 :: (linesBytes r.rawLines ++ 13 :: 10 :: cstr w) := by
      simp [headerBytes, linesBytes]
    exact he
  have hcrlffree : containsSub CRLF (reqLine r) = false :=
    containsSub_crlf_eq_false_of_not_mem (reqLine_no_lf h)
  have hidx : indexOfSub CRLF (cstr (headerBytes r ++ w)) = some (reqLine r).length := by
    rw [hcstr2]
    exact first_crlf_at hcrlffree _
  have hreq : reqLine r = r.methodB ++ 32 :: (r.uriB ++ 32 :: bytesOf "HTTP/1.1") := by
    simp [reqLine]
  have htake : (cstr (headerBytes r ++ w)).take (reqLine r).length = reqLine r := by
    rw [hcstr2]
    exact List.take_left _ _
  have ha : idxOf 32 (reqLine r) = some r.methodB.length := by
    rw [hreq]
    exact idxOf_append_first (fun hc => ((hmc.1 32 hc).2.1) rfl) _
  have hmtake : (reqLine r).take r.methodB.length = r.methodB := by
    rw [hreq]
    exact List.take_left _ _
  have hmdrop : (reqLine r).drop (r.methodB.length + 1) =
      r.uriB ++ 32 :: bytesOf "HTTP/1.1" := by
    rw [hreq]
    exact drop_append_cons _ 32 _
  have hb2 : idxOf 32 (r.uriB ++ 32 :: bytesOf "HTTP/1.1") = some r.uriB.length :=
    idxOf_append_first (fun hc => ((huc 32 hc).2.2.2) rfl) _
  have hutake : (r.uriB ++ 32 :: bytesOf "HTTP/1.1").take r.uriB.length = r.uriB :=
    List.take_left _ _
  have hudrop : (r.uriB ++ 32 :: bytesOf "HTTP/1.1").drop (r.uriB.length + 1) =
      bytesOf "HTTP/1.1" :=
    drop_append_cons _ 32 _
  have hdrop2 : (headerBytes r ++ w).drop ((reqLine r).length + 2) =
      linesBytes r.rawLines ++ 13 :: 10 :: w := by
    rw [hhb]
    exact drop_append_cons2 _ 13 10 _
  have hfuel : r.rawLines.length + 1 ≤ (headerBytes r ++ w).length + 1 := by
    have hc1 : r.rawLines.length ≤ (linesBytes r.rawLines).length := by
      clear * -
      induction r.rawLines with
      | nil => simp
      | cons ℓ t ih => simp [linesBytes]; omega
    have hc2 : (linesBytes r.rawLines).length ≤ (headerBytes r).length := by
      simp [headerBytes, linesBytes]
      omega
    simp only [List.length_append]
    omega
  have hph := parse_headers_lines hlines w ((headerBytes r ++ w).length + 1) hfuel
  unfold http_parse_request
  simp only [hidx, htake, ha, hmtake, hmdrop, hb2, hutake, hudrop, hdrop2, hph]
  rw [if_neg hm, if_neg (by rw [hu]; simp), if_neg (by simp)]
  have hhostne : (http_get_header_value (parsedHeaders r.rawLines)
      (bytesOf "Host")).isNone ≠ true := by
    rcases Option.isSome_iff_exists.mp hhost with ⟨v, hv⟩
    simp [hv]
  rw [if_neg (by simpa using hhostne)]
  rfl

/-! ## The abstract request-stream machine -/

/-- Whether the request carries a `Connection: close` header, looked up
exactly as `handle_request` does (first case-insensitive match). -/
def hasCloseHdr (r : WfReq) : Bool :=
  match http_get_header_value (parsedHeaders r.rawLines) (bytesOf "Connection") with
  | some v => caseEqB v (bytesOf "close")
  | none => false

/-- The events the engine emits when it completes request `r`: a
dispatch to `on_request` followed by whatever the router sends, or the
engine's own 501 when no `on_request` callback is installed. -/
def evsFor (cb : HttpCallbacks) (r : WfReq) : List HttpEv :=
  match cb.onRequest with
  | some f => .dispatch (canonicalReq r) r.body (inFileOf r) ::
      (f (canonicalReq r) r.body (inFileOf r)).sends.map .send
  | none => [.send res501]

/-- Result of consuming a byte count on the abstract stream machine. -/
structure AdvRes where
  rs : List WfReq
  pos : Nat
  evs : List HttpEv
  live : Bool
  deriving Repr

/-- The abstract machine: consume bytes up to absolute position `p`
(counted from the start of the first request in `rs`), completing
requests and emitting their events while the connection stays open. -/
def advance (cb : HttpCallbacks) : List WfReq → Nat → AdvRes
  | [], _ => ⟨[], 0, [], true⟩
  | r :: rest, p =>
    if p < (reqBytes r).length then ⟨r :: rest, p, [], true⟩
    else if hasCloseHdr r then ⟨[], 0, evsFor cb r ++ [.close], false⟩
    else
      let a := advance cb rest (p - (reqBytes r).length)
      ⟨a.rs, a.pos, evsFor cb r ++ a.evs, a.live⟩

/-- A router that never closes the connection from inside
`on_request`. -/
def routerTame (cb : HttpCallbacks) : Prop :=
  ∀ f, cb.onRequest = some f →
    ∀ pr body inf, (f pr body inf).closes = false

/-- Connection state while reading headers: `b` stream bytes buffered,
everything else zeroed. -/
def concH (rs : List WfReq) (b : Nat) : HttpConn :=
  { initialHttpConn with headersBuff := (streamOf rs).take b }

/-- Connection state while reading the body of `r`: `c` bytes of `r`'s
wire image consumed in total, of which `b` reached the headers
buffer. -/
def concB (r : WfReq) (rest : List WfReq) (c b : Nat) : HttpConn :=
  { state := .readingBody,
    headersBuff := (streamOf (r :: rest)).take b,
    headersLen := (headerBytes r).length,
    bodySink := r.body.take (c - (headerBytes r).length),
    bodyInFile := inFileOf r,
    bodyExpected := r.body.length,
    bodyReceived := c - (headerBytes r).length,
    parsedRequest := some (canonicalReq r),
    closed := false }

/-- Connection state right before `handle_request` for request `r`:
headers parsed, body complete in the sink. -/
def preHandle (r : WfReq) (rest : List WfReq) (b : Nat) (st : HttpConnState) : HttpConn :=
  { state := st,
    headersBuff := (streamOf (r :: rest)).take b,
    headersLen := (headerBytes r).length,
    bodySink := r.body,
    bodyInFile := inFileOf r,
    bodyExpected := r.body.length,
    bodyReceived := r.body.length,
    parsedRequest := some (canonicalReq r),
    closed := false }

/-- The between-deliveries invariant: the connection is the canonical
state for position `c` (bytes of the current request's wire image
consumed) and buffer fill `b`. -/
def Inv (rs : List WfReq) (c b : Nat) (conn : HttpConn) : Prop :=
  match rs with
  | [] => c = 0 ∧ b = 0 ∧ conn = initialHttpConn
  | r :: rest =>
      (c = b ∧ b < (headerBytes r).length ∧ conn = concH (r :: rest) b)
    ∨ ((headerBytes r).length ≤ b ∧ b ≤ c ∧ b ≤ 8191 ∧
       c < (reqBytes r).length ∧ 0 < r.body.length ∧ conn = concB r rest c b)

theorem streamOf_cons (r : WfReq) (rest : List WfReq) :
    streamOf (r :: rest) = reqBytes r ++ streamOf rest := by
  simp [streamOf]

theorem streamOf_nil : streamOf [] = [] := rfl

theorem headerBytes_len_ge (r : WfReq) : 4 ≤ (headerBytes r).length := by
  unfold headerBytes
  have := @linesBytes_length_ge (reqLine r :: r.rawLines) (by simp)
  simp only [List.length_append]
  simp
  omega

theorem reqBytes_len (r : WfReq) :
    (reqBytes r).length = (headerBytes r).length + r.body.length := by
  simp [reqBytes]

/-- The first CRLF CRLF in a well-formed header block, whatever
follows, is the one that terminates it. -/
theorem first_crlf4_header {r : WfReq} (h : wfReq r = true) (z : List Nat) :
    indexOfSub CRLF4 (headerBytes r ++ z) = some ((headerBytes r).length - 4) := by
  obtain ⟨hm, _, _, hlines, _⟩ := wfReq_parts h
  have hmc := method_char_facts hm
  have hwire : ∀ ℓ ∈ reqLine r :: r.rawLines, ℓ ≠ [] ∧ containsSub CRLF ℓ = false := by
    intro ℓ hl
    rcases List.mem_cons.mp hl with rfl | hl2
    · constructor
      · have : r.methodB ≠ [] := hmc.2
        unfold reqLine
        intro he
        rcases List.append_eq_nil.mp (List.append_eq_nil.mp he).1 with ⟨h1, h2⟩
        cases h2
      · exact containsSub_crlf_eq_false_of_not_mem (reqLine_no_lf h)
    · obtain ⟨hne, hf, _⟩ := lineOk_parts (hlines ℓ hl2).1
      exact ⟨hne, hf⟩
  have hfl := @first_crlf4_lines (reqLine r :: r.rawLines) (by simp) hwire z
  have he : headerBytes r ++ z = linesBytes (reqLine r :: r.rawLines) ++ 13 :: 10 :: z := by
    simp [headerBytes]
  have hlen : (headerBytes r).length - 4 =
      (linesBytes (reqLine r :: r.rawLines)).length - 2 := by
    simp [headerBytes]
  rw [he, hlen]
  exact hfl

/-- No CRLF CRLF appears in a proper prefix of a well-formed header
block that stops before the terminator. -/
theorem no_term_in_short_prefix {r : WfReq} (h : wfReq r = true) {b : Nat}
    (hb : b < (headerBytes r).length) (y : List Nat) :
    indexOfSub CRLF4 ((headerBytes r ++ y).take b) = none := by
  rw [indexOfSub_eq_none_iff]
  intro j hm
  have hj4 : j + 4 ≤ b := by
    unfold MatchAt at hm
    obtain ⟨t, ht⟩ := hm
    have hlen := congrArg List.length ht
    simp only [List.length_append, List.length_drop, List.length_take, CRLF4] at hlen
    simp only [List.length_cons, List.length_nil] at hlen
    omega
  have hm2 : MatchAt j CRLF4 (headerBytes r ++ y) := matchAt_of_take hm
  obtain ⟨_, hfirst⟩ := indexOfSub_eq_some_iff.mp (first_crlf4_header h y)
  have h4 := headerBytes_len_ge r
  exact hfirst j (by omega) hm2

theorem stream_decomp (r : WfReq) (rest : List WfReq) :
    streamOf (r :: rest) = headerBytes r ++ (r.body ++ streamOf rest) := by
  rw [streamOf_cons]
  simp [reqBytes]

theorem buffer_take_short {r : WfReq} (rest : List WfReq) {b : Nat}
    (hb : b ≤ (headerBytes r).length) :
    (streamOf (r :: rest)).take b = (headerBytes r).take b := by
  rw [stream_decomp, List.take_append_of_le_length hb]

theorem buffer_take_long {r : WfReq} (rest : List WfReq) {b : Nat}
    (hb : (headerBytes r).length ≤ b) :
    (streamOf (r :: rest)).take b =
      headerBytes r ++ (r.body ++ streamOf rest).take (b - (headerBytes r).length) := by
  rw [stream_decomp, List.take_append_eq_append_take, List.take_of_length_le hb]

theorem buffer_drop_total (r : WfReq) (rest : List WfReq) (b : Nat) :
    ((streamOf (r :: rest)).take b).drop (reqBytes r).length =
      (streamOf rest).take (b - (reqBytes r).length) := by
  rw [List.drop_take, streamOf_cons, List.drop_left]

theorem spill_take {r : WfReq} (rest : List WfReq) {b t : Nat}
    (ht : t ≤ b - (headerBytes r).length) (htL : t ≤ r.body.length) :
    (((streamOf (r :: rest)).take b).drop (headerBytes r).length).take t =
      r.body.take t := by
  rw [List.drop_take, stream_decomp, List.drop_left, List.take_take, min_eq_left ht]
  exact List.take_append_of_le_length htL

theorem idx_buffer_short {r : WfReq} (rest : List WfReq) {b : Nat}
    (h : wfReq r = true) (hb : b < (headerBytes r).length) :
    indexOfSub CRLF4 (cstr ((streamOf (r :: rest)).take b)) = none := by
  rw [stream_decomp]
  have hself : cstr ((headerBytes r ++ (r.body ++ streamOf rest)).take b) =
      (headerBytes r ++ (r.body ++ streamOf rest)).take b := by
    apply cstr_eq_self
    intro c hc
    rw [List.take_append_of_le_length (le_of_lt hb)] at hc
    exact headerBytes_nul_free h c (List.take_subset b _ hc)
  rw [hself]
  exact no_term_in_short_prefix h hb _

theorem idx_buffer_long {r : WfReq} (rest : List WfReq) {b : Nat}
    (h : wfReq r = true) (hb : (headerBytes r).length ≤ b) :
    indexOfSub CRLF4 (cstr ((streamOf (r :: rest)).take b)) =
      some ((headerBytes r).length - 4) := by
  rw [buffer_take_long rest hb, cstr_append (headerBytes_nul_free h)]
  exact first_crlf4_header h _

theorem parse_buffer_long {r : WfReq} (rest : List WfReq) {b : Nat}
    (h : wfReq r = true) (hb : (headerBytes r).length ≤ b) :
    http_parse_request ((streamOf (r :: rest)).take b) = .ok (canonicalReq r) := by
  rw [buffer_take_long rest hb]
  exact parse_wf h _

theorem stream_len_cons (r : WfReq) (rest : List WfReq) :
    (streamOf (r :: rest)).length = (reqBytes r).length + (streamOf rest).length := by
  rw [streamOf_cons]
  simp

/-- The Content-Length extraction on a well-formed request: it succeeds
and the defaulted value is the body length. -/
theorem cl_of_wf {r : WfReq} (h : wfReq r = true) :
    ∃ o, parseContentLengthE (parsedHeaders r.rawLines) = .ok o ∧
      o.getD 0 = r.body.length := by
  obtain ⟨_, _, _, _, _, hcl, _⟩ := wfReq_parts h
  revert hcl
  match parseContentLengthE (parsedHeaders r.rawLines) with
  | .error e => intro hcl; cases hcl
  | .ok none => intro hcl; exact ⟨none, rfl, by rw [hcl]; rfl⟩
  | .ok (some v) => intro hcl; exact ⟨some v, rfl, by rw [← hcl]; rfl⟩

/-- Outcome of a `try_parse_request` cascade from a headers-reading
state with `b` stream bytes buffered: it is exactly what the abstract
machine says. -/
def TryOut (cb : HttpCallbacks) (fuel : Nat) (rs : List WfReq) (b : Nat) : Prop :=
  ∃ conn', engineGo cb fuel .tryParse (concH rs b) =
      some (conn', (advance cb rs b).evs, (advance cb rs b).live) ∧
    ((advance cb rs b).live = true →
      Inv (advance cb rs b).rs (advance cb rs b).pos (advance cb rs b).pos conn') ∧
    ((advance cb rs b).live = false → conn'.closed = true)

/-- Outcome of `handle_request` on a completed request `r` with `b`
stream bytes buffered. -/
def HandleOut (cb : HttpCallbacks) (fuel : Nat) (r : WfReq) (rest : List WfReq)
    (b : Nat) (st : HttpConnState) : Prop :=
  (hasCloseHdr r = true →
    engineGo cb fuel .handle (preHandle r rest b st) =
      some ({ preHandle r rest b st with closed := true }, evsFor cb r ++ [.close], false)) ∧
  (hasCloseHdr r = false →
    ∃ conn', engineGo cb fuel .handle (preHandle r rest b st) =
        some (conn', evsFor cb r ++ (advance cb rest (b - (reqBytes r).length)).evs,
          (advance cb rest (b - (reqBytes r).length)).live) ∧
      ((advance cb rest (b - (reqBytes r).length)).live = true →
        Inv (advance cb rest (b - (reqBytes r).length)).rs
          (advance cb rest (b - (reqBytes r).length)).pos
          (advance cb rest (b - (reqBytes r).length)).pos conn') ∧
      ((advance cb rest (b - (reqBytes r).length)).live = false → conn'.closed = true))

/-- The cascade of `try_parse_request`, `handle_request` and
`check_if_body_received` tracks the abstract machine. -/
theorem engine_nest (cb : HttpCallbacks) (hcb : routerTame cb) :
    ∀ fuel : Nat,
      (∀ r rest b st, wfReq r = true → (∀ r2 ∈ rest, wfReq r2 = true) →
        b ≤ 8191 → b ≤ (streamOf (r :: rest)).length → 3 * b + 7 ≤ fuel →
        HandleOut cb fuel r rest b st) ∧
      (∀ rs b, (∀ r2 ∈ rs, wfReq r2 = true) → b ≤ 8191 →
        b ≤ (streamOf rs).length → 3 * b + 9 ≤ fuel →
        TryOut cb fuel rs b) := by
  intro fuel
  induction fuel using Nat.strong_induction_on with
  | _ fuel ih =>
    constructor
    · -- handle_request
      intro r rest b st hwr hwrest hb8 hbs hfuel
      match fuel, hfuel with
      | f + 1, hfuel =>
        have h4 := headerBytes_len_ge r
        have hblen : ((streamOf (r :: rest)).take b).length = b := by
          simp only [List.length_take]
          omega
        have hdrop : ((streamOf (r :: rest)).take b).drop
              ((headerBytes r).length + r.body.length) =
            (streamOf rest).take (b - ((headerBytes r).length + r.body.length)) := by
          have h := buffer_drop_total r rest b
          rwa [reqBytes_len] at h
        have hhdrs : (canonicalReq r).headers = parsedHeaders r.rawLines := rfl
        -- the close outcome of handle_request
        have h1 : hasCloseHdr r = true →
            engineGo cb (f + 1) .handle (preHandle r rest b st) =
              some ({ preHandle r rest b st with closed := true },
                evsFor cb r ++ [.close], false) := by
          intro hch
          cases hg : http_get_header_value (parsedHeaders r.rawLines) (bytesOf "Connection") with
          | none => exact absurd hch (by simp [hasCloseHdr, hg])
          | some v =>
            have hv : caseEqB v (bytesOf "close") = true := by
              have h := hch
              simp only [hasCloseHdr, hg] at h
              exact h
            cases hocb : cb.onRequest with
            | some f0 =>
              have hclos : (f0 (canonicalReq r) r.body (inFileOf r)).closes = false :=
                hcb f0 hocb (canonicalReq r) r.body (inFileOf r)
              simp [engineGo, preHandle, hocb, hclos, tcp_server_is_conn_closed,
                hhdrs, hg, hv, closeConn, evsFor]
            | none =>
              simp [engineGo, preHandle, hocb, tcp_server_is_conn_closed,
                hhdrs, hg, hv, closeConn, evsFor]
        -- the keep-alive outcome with pipelined data left over
        have h2 : hasCloseHdr r = false → b > (reqBytes r).length →
            engineGo cb (f + 1) .handle (preHandle r rest b st) =
              (match engineGo cb f .tryParse (concH rest (b - (reqBytes r).length)) with
               | none => none
               | some res => some (res.1, evsFor cb r ++ res.2.1, res.2.2)) := by
          intro hch hgt
          have hgt' : b > (headerBytes r).length + r.body.length := by
            rw [reqBytes_len] at hgt
            exact hgt
          cases hg : http_get_header_value (parsedHeaders r.rawLines) (bytesOf "Connection") with
          | none =>
            cases hocb : cb.onRequest with
            | some f0 =>
              have hclos : (f0 (canonicalReq r) r.body (inFileOf r)).closes = false :=
                hcb f0 hocb (canonicalReq r) r.body (inFileOf r)
              simp [engineGo, preHandle, hocb, hclos, tcp_server_is_conn_closed,
                hhdrs, hg, evsFor, hblen, hdrop, reset_http_conn, concH,
                initialHttpConn, reqBytes_len, hgt', Nat.sub_pos_of_lt hgt']
            | none =>
              simp [engineGo, preHandle, hocb, tcp_server_is_conn_closed,
                hhdrs, hg, evsFor, hblen, hdrop, reset_http_conn, concH,
                initialHttpConn, reqBytes_len, hgt', Nat.sub_pos_of_lt hgt']
          | some v =>
            have hv : caseEqB v (bytesOf "close") = false := by
              have h := hch
              simp only [hasCloseHdr, hg] at h
              exact h
            cases hocb : cb.onRequest with
            | some f0 =>
              have hclos : (f0 (canonicalReq r) r.body (inFileOf r)).closes = false :=
                hcb f0 hocb (canonicalReq r) r.body (inFileOf r)
              simp [engineGo, preHandle, hocb, hclos, tcp_server_is_conn_closed,
                hhdrs, hg, hv, evsFor, hblen, hdrop, reset_http_conn, concH,
                initialHttpConn, reqBytes_len, hgt', Nat.sub_pos_of_lt hgt']
            | none =>
              simp [engineGo, preHandle, hocb, tcp_server_is_conn_closed,
                hhdrs, hg, hv, evsFor, hblen, hdrop, reset_http_conn, concH,
                initialHttpConn, reqBytes_len, hgt', Nat.sub_pos_of_lt hgt']
        -- the keep-alive outcome with the buffer exhausted
        have h3 : hasCloseHdr r = false → b ≤ (reqBytes r).length →
            engineGo cb (f + 1) .handle (preHandle r rest b st) =
              some (concH rest (b - (reqBytes r).length), evsFor cb r, true) := by
          intro hch hle
          have hle' : ¬ b > (headerBytes r).length + r.body.length := by
            rw [reqBytes_len] at hle
            omega
          cases hg : http_get_header_value (parsedHeaders r.rawLines) (bytesOf "Connection") with
          | none =>
            cases hocb : cb.onRequest with
            | some f0 =>
              have hclos : (f0 (canonicalReq r) r.body (inFileOf r)).closes = false :=
                hcb f0 hocb (canonicalReq r) r.body (inFileOf r)
              simp [engineGo, preHandle, hocb, hclos, tcp_server_is_conn_closed,
                hhdrs, hg, evsFor, hblen, hdrop, reset_http_conn, concH,
                initialHttpConn, reqBytes_len, hle']
            | none =>
              simp [engineGo, preHandle, hocb, tcp_server_is_conn_closed,
                hhdrs, hg, evsFor, hblen, hdrop, reset_http_conn, concH,
                initialHttpConn, reqBytes_len, hle']
          | some v =>
            have hv : caseEqB v (bytesOf "close") = false := by
              have h := hch
              simp only [hasCloseHdr, hg] at h
              exact h
            cases hocb : cb.onRequest with
            | some f0 =>
              have hclos : (f0 (canonicalReq r) r.body (inFileOf r)).closes = false :=
                hcb f0 hocb (canonicalReq r) r.body (inFileOf r)
              simp [engineGo, preHandle, hocb, hclos, tcp_server_is_conn_closed,
                hhdrs, hg, hv, evsFor, hblen, hdrop, reset_http_conn, concH,
                initialHttpConn, reqBytes_len, hle']
            | none =>
              simp [engineGo, preHandle, hocb, tcp_server_is_conn_closed,
                hhdrs, hg, hv, evsFor, hblen, hdrop, reset_http_conn, concH,
                initialHttpConn, reqBytes_len, hle']
        constructor
        · intro hclh
          exact h1 hclh
        · intro hclf
          by_cases hgt : b > (reqBytes r).length
          · rw [h2 hclf hgt]
            have htry := (ih f (by omega)).2 rest (b - (reqBytes r).length) hwrest
              (by omega)
              (by
                have := stream_len_cons r rest
                omega)
              (by
                have ht4 : 4 ≤ (reqBytes r).length := by
                  rw [reqBytes_len]
                  omega
                omega)
            obtain ⟨conn', heng, hinv, hcld⟩ := htry
            rw [heng]
            exact ⟨conn', rfl, hinv, hcld⟩
          · rw [h3 hclf (not_lt.mp hgt)]
            have hbt0 : b - (reqBytes r).length = 0 := by omega
            rw [hbt0]
            match rest, hwrest with
            | [], _ =>
              have hadv0 : advance cb ([] : List WfReq) 0 = ⟨[], 0, [], true⟩ := rfl
              rw [hadv0]
              refine ⟨concH [] 0, by simp, ?_, ?_⟩
              · intro _
                refine ⟨rfl, rfl, ?_⟩
                rfl
              · intro hfalse
                cases hfalse
            | r2 :: rest2, hwrest =>
              have hadv0 : advance cb (r2 :: rest2) 0 = ⟨r2 :: rest2, 0, [], true⟩ := by
                simp only [advance]
                rw [if_pos]
                rw [reqBytes_len]
                have := headerBytes_len_ge r2
                omega
              rw [hadv0]
              refine ⟨concH (r2 :: rest2) 0, by simp, ?_, ?_⟩
              · intro _
                refine Or.inl ⟨rfl, ?_, rfl⟩
                show 0 < (headerBytes r2).length
                have := headerBytes_len_ge r2
                omega
              · intro hfalse
                cases hfalse
    · -- try_parse_request
      intro rs b hw hb8 hbs hfuel
      match fuel, hfuel with
      | f + 1, hfuel =>
        match rs, hbs with
        | [], hbs =>
          have hb0 : b = 0 := by
            rw [streamOf_nil] at hbs
            simpa using hbs
          subst hb0
          have hidx : indexOfSub CRLF4 (cstr (concH [] 0).headersBuff) = none := by
            simp [concH, initialHttpConn, cstr, indexOfSub, CRLF4]
          refine ⟨concH [] 0, ?_, ?_, ?_⟩
          · simp only [engineGo, hidx]
            rfl
          · intro _
            simp [advance, Inv, concH, initialHttpConn]
          · intro hl
            simp [advance] at hl
        | r :: rest, hbs =>
          have hwr : wfReq r = true := hw r (List.mem_cons_self r rest)
          have hwrest : ∀ r2 ∈ rest, wfReq r2 = true :=
            fun r2 h2 => hw r2 (List.mem_cons_of_mem r h2)
          have h4 := headerBytes_len_ge r
          by_cases hshort : b < (headerBytes r).length
          · -- terminator not yet buffered: wait for more data
            have hidx : indexOfSub CRLF4 (cstr (concH (r :: rest) b).headersBuff) = none := by
              simp only [concH]
              exact idx_buffer_short rest hwr hshort
            have hadv : advance cb (r :: rest) b = ⟨r :: rest, b, [], true⟩ := by
              unfold advance
              rw [if_pos (by rw [reqBytes_len]; omega)]
            refine ⟨concH (r :: rest) b, ?_, ?_, ?_⟩
            · simp only [engineGo, hidx, hadv]
            · intro _
              rw [hadv]
              exact Or.inl ⟨rfl, hshort, rfl⟩
            · rw [hadv]
              intro hfalse
              cases hfalse
          · -- full header block in the buffer: parse fires
            push_neg at hshort
            have hidx : indexOfSub CRLF4 (cstr (concH (r :: rest) b).headersBuff) =
                some ((headerBytes r).length - 4) := by
              simp only [concH]
              exact idx_buffer_long rest hwr hshort
            have hparse : http_parse_request (concH (r :: rest) b).headersBuff =
                .ok (canonicalReq r) := by
              simp only [concH]
              exact parse_buffer_long rest hwr hshort
            obtain ⟨clo, hclo, hclv⟩ := cl_of_wf hwr
            have hclo' : parseContentLengthE (canonicalReq r).headers = .ok clo := hclo
            have hl4 : (headerBytes r).length - 4 + 4 = (headerBytes r).length := by omega
            by_cases hL0 : r.body.length = 0
            · -- no body: handle_request immediately
              have hbody : r.body = [] := List.length_eq_zero.mp hL0
              have hstep : engineGo cb (f + 1) .tryParse (concH (r :: rest) b) =
                  engineGo cb f .handle (preHandle r rest b .readingHeaders) := by
                simp only [engineGo, hidx, hparse, hclo']
                rw [if_pos (by simp [concH, initialHttpConn, hclv, hL0])]
                congr 1
                simp [concH, initialHttpConn, preHandle, hl4, hclv, hL0, hbody,
                  inFileOf, BODY_IN_FILE_THRESHOLD]
              have hhdl := (ih f (by omega)).1 r rest b .readingHeaders hwr hwrest hb8 hbs
                (by omega)
              have htot : (reqBytes r).length = (headerBytes r).length := by
                rw [reqBytes_len, hL0]
                omega
              have hadv : advance cb (r :: rest) b =
                  (if hasCloseHdr r then ⟨[], 0, evsFor cb r ++ [.close], false⟩
                   else
                     let a := advance cb rest (b - (reqBytes r).length)
                     ⟨a.rs, a.pos, evsFor cb r ++ a.evs, a.live⟩) := by
                simp only [advance]
                rw [if_neg (by rw [htot]; omega)]
              by_cases hcl : hasCloseHdr r = true
              · refine ⟨{ preHandle r rest b .readingHeaders with closed := true }, ?_, ?_, ?_⟩
                · rw [hstep, hhdl.1 hcl, hadv, if_pos hcl]
                · rw [hadv, if_pos hcl]
                  intro hlive
                  cases hlive
                · intro _
                  rfl
              · have hclf : hasCloseHdr r = false := by simpa using hcl
                obtain ⟨conn', heng, hinv, hcld⟩ := hhdl.2 hclf
                refine ⟨conn', ?_, ?_, ?_⟩
                · rw [hstep, heng, hadv, if_neg (by rw [hclf]; simp)]
                · rw [hadv, if_neg (by rw [hclf]; simp)]
                  exact hinv
                · rw [hadv, if_neg (by rw [hclf]; simp)]
                  exact hcld
            · -- body expected: init_body_reading then check_if_body_received
              have hL : 0 < r.body.length := Nat.pos_of_ne_zero hL0
              have hblen : ((streamOf (r :: rest)).take b).length = b := by
                simp only [List.length_take]
                omega
              have hstep : engineGo cb (f + 1) .tryParse (concH (r :: rest) b) =
                  engineGo cb f .afterBody
                    (concB r rest (min b ((headerBytes r).length + r.body.length)) b) := by
                simp only [engineGo, hidx, hparse, hclo']
                rw [if_neg (by simp [concH, initialHttpConn, hclv, hL0])]
                congr 1
                unfold init_body_reading
                simp only [concH, initialHttpConn, hclv]
                rw [hl4]
                simp only [hblen]
                by_cases hbib : b - (headerBytes r).length > 0
                · rw [if_pos hbib]
                  have hsp := spill_take (r := r) rest
                    (t := min (b - (headerBytes r).length) r.body.length)
                    (min_le_left _ _) (min_le_right _ _)
                  simp only [concB, hsp]
                  have hmm : min b ((headerBytes r).length + r.body.length) -
                      (headerBytes r).length = min (b - (headerBytes r).length) r.body.length := by
                    omega
                  rw [hmm]
                  rfl
                · rw [if_neg hbib]
                  have hbhl : b = (headerBytes r).length := by omega
                  have hmm : min b ((headerBytes r).length + r.body.length) -
                      (headerBytes r).length = 0 := by omega
                  simp [concB, hmm, hbhl, inFileOf]
              match f, hfuel with
              | f2 + 1, hfuel =>
                have hab : engineGo cb (f2 + 1) .afterBody
                    (concB r rest (min b ((headerBytes r).length + r.body.length)) b) =
                    (if (concB r rest (min b ((headerBytes r).length + r.body.length)) b).bodyReceived ≥
                        (concB r rest (min b ((headerBytes r).length + r.body.length)) b).bodyExpected then
                      engineGo cb f2 .handle
                        (concB r rest (min b ((headerBytes r).length + r.body.length)) b)
                    else some (concB r rest (min b ((headerBytes r).length + r.body.length)) b, [], true)) := rfl
                by_cases hfull : (headerBytes r).length + r.body.length ≤ b
                · -- the whole body is already in the buffer: dispatch
                  have hmin : min b ((headerBytes r).length + r.body.length) =
                      (headerBytes r).length + r.body.length := by omega
                  have hcpre : concB r rest (min b ((headerBytes r).length + r.body.length)) b =
                      preHandle r rest b .readingBody := by
                    rw [hmin]
                    simp only [concB, preHandle]
                    have h1 : (headerBytes r).length + r.body.length - (headerBytes r).length =
                        r.body.length := by omega
                    rw [h1, List.take_length]
                  have hrecv : (concB r rest (min b ((headerBytes r).length + r.body.length))
                        b).bodyReceived ≥
                      (concB r rest (min b ((headerBytes r).length + r.body.length))
                        b).bodyExpected := by
                    simp only [concB, hmin]
                    omega
                  have hhdl := (ih f2 (by omega)).1 r rest b .readingBody hwr hwrest hb8 hbs
                    (by omega)
                  have hadv : advance cb (r :: rest) b =
                      (if hasCloseHdr r then ⟨[], 0, evsFor cb r ++ [.close], false⟩
                       else
                         let a := advance cb rest (b - (reqBytes r).length)
                         ⟨a.rs, a.pos, evsFor cb r ++ a.evs, a.live⟩) := by
                    simp only [advance]
                    rw [if_neg (by rw [reqBytes_len]; omega)]
                  by_cases hclh : hasCloseHdr r = true
                  · refine ⟨{ preHandle r rest b .readingBody with closed := true }, ?_, ?_, ?_⟩
                    · rw [hstep, hab, if_pos hrecv, hcpre, hhdl.1 hclh, hadv, if_pos hclh]
                    · rw [hadv, if_pos hclh]
                      intro hlive
                      cases hlive
                    · intro _
                      rfl
                  · have hclf : hasCloseHdr r = false := by simpa using hclh
                    obtain ⟨conn', heng, hinv, hcld⟩ := hhdl.2 hclf
                    refine ⟨conn', ?_, ?_, ?_⟩
                    · rw [hstep, hab, if_pos hrecv, hcpre, heng, hadv,
                        if_neg (by rw [hclf]; simp)]
                    · rw [hadv, if_neg (by rw [hclf]; simp)]
                      exact hinv
                    · rw [hadv, if_neg (by rw [hclf]; simp)]
                      exact hcld
                · -- await more body bytes
                  have hmin : min b ((headerBytes r).length + r.body.length) = b := by omega
                  have hrecv : (concB r rest (min b ((headerBytes r).length + r.body.length)) b).bodyReceived <
                      (concB r rest (min b ((headerBytes r).length + r.body.length)) b).bodyExpected := by
                    simp only [concB, hmin]
                    omega
                  have hadv : advance cb (r :: rest) b = ⟨r :: rest, b, [], true⟩ := by
                    simp only [advance]
                    rw [if_pos (by rw [reqBytes_len]; omega)]
                  refine ⟨concB r rest b b, ?_, ?_, ?_⟩
                  · rw [hstep, hab, if_neg (not_le.mpr hrecv), hadv, hmin]
                  · intro _
                    rw [hadv]
                    exact Or.inr ⟨hshort, le_refl b, hb8,
                      by rw [reqBytes_len]; exact not_le.mp hfull, hL, rfl⟩
                  · rw [hadv]
                    intro hfalse
                    cases hfalse

/-! ## Composition laws of the abstract machine -/

/-- A canonical state never sits at or beyond the end of the current
request, so the abstract machine does not move from its position. -/
theorem advance_stay (cb : HttpCallbacks) {rs : List WfReq} {c b : Nat} {conn : HttpConn}
    (h : Inv rs c b conn) : advance cb rs c = ⟨rs, c, [], true⟩ := by
  match rs with
  | [] =>
    obtain ⟨hc, -, -⟩ := h
    subst hc
    rfl
  | r :: rest =>
    have hc : c < (reqBytes r).length := by
      rcases h with ⟨hc, hb, -⟩ | ⟨-, -, -, h4, -, -⟩
      · rw [reqBytes_len]
        omega
      · exact h4
    simp only [advance]
    rw [if_pos hc]

/-- Once the abstract machine has closed, feeding more bytes changes
nothing. -/
theorem advance_close_mono (cb : HttpCallbacks) : ∀ (rs : List WfReq) (p q : Nat),
    (advance cb rs p).live = false → p ≤ q →
    advance cb rs q = advance cb rs p := by
  intro rs
  induction rs with
  | nil =>
    intro p q h _
    simp [advance] at h
  | cons r rest ih =>
    intro p q h hpq
    by_cases hp : p < (reqBytes r).length
    · exfalso
      simp only [advance] at h
      rw [if_pos hp] at h
      simp at h
    · have hq : ¬ q < (reqBytes r).length := by omega
      by_cases hcl : hasCloseHdr r = true
      · simp only [advance]
        rw [if_neg hp, if_neg hq, if_pos hcl, if_pos hcl]
      · have h' : (advance cb rest (p - (reqBytes r).length)).live = false := by
          simp only [advance] at h
          rw [if_neg hp, if_neg hcl] at h
          exact h
        have hihe := ih (p - (reqBytes r).length) (q - (reqBytes r).length) h' (by omega)
        simp only [advance]
        rw [if_neg hp, if_neg hq, if_neg hcl, if_neg hcl, hihe]

/-- The abstract machine only drops whole requests from the front. -/
theorem advance_rs_mem (cb : HttpCallbacks) : ∀ (rs : List WfReq) (p : Nat) (r2 : WfReq),
    r2 ∈ (advance cb rs p).rs → r2 ∈ rs := by
  intro rs
  induction rs with
  | nil =>
    intro p r2 h
    simp [advance] at h
  | cons r rest ih =>
    intro p r2 h
    by_cases hp : p < (reqBytes r).length
    · simp only [advance] at h
      rw [if_pos hp] at h
      exact h
    · by_cases hcl : hasCloseHdr r = true
      · simp only [advance] at h
        rw [if_neg hp, if_pos hcl] at h
        simp at h
      · simp only [advance] at h
        rw [if_neg hp, if_neg hcl] at h
        exact List.mem_cons_of_mem r (ih _ _ h)

/-- While live, the unconsumed suffix of the stream is the unconsumed
suffix of the remaining requests. -/
theorem advance_live_drop (cb : HttpCallbacks) : ∀ (rs : List WfReq) (p : Nat),
    (advance cb rs p).live = true → p ≤ (streamOf rs).length →
    (streamOf rs).drop p = (streamOf (advance cb rs p).rs).drop (advance cb rs p).pos ∧
      (advance cb rs p).pos ≤ (streamOf (advance cb rs p).rs).length := by
  intro rs
  induction rs with
  | nil =>
    intro p _ hlen
    have hp0 : p = 0 := by
      rw [streamOf_nil] at hlen
      simpa using hlen
    subst hp0
    exact ⟨rfl, by simp [advance]⟩
  | cons r rest ih =>
    intro p hlive hlen
    by_cases hplt : p < (reqBytes r).length
    · have he : advance cb (r :: rest) p = ⟨r :: rest, p, [], true⟩ := by
        simp only [advance]
        rw [if_pos hplt]
      rw [he]
      exact ⟨rfl, hlen⟩
    · by_cases hcl : hasCloseHdr r = true
      · exfalso
        simp only [advance] at hlive
        rw [if_neg hplt, if_pos hcl] at hlive
        simp at hlive
      · obtain ⟨d, rfl⟩ : ∃ d, p = (reqBytes r).length + d :=
          ⟨p - (reqBytes r).length, by omega⟩
        have hsub : (reqBytes r).length + d - (reqBytes r).length = d := by omega
        have he : advance cb (r :: rest) ((reqBytes r).length + d) =
            ⟨(advance cb rest d).rs, (advance cb rest d).pos,
             evsFor cb r ++ (advance cb rest d).evs, (advance cb rest d).live⟩ := by
          simp only [advance]
          rw [if_neg hplt, if_neg hcl, hsub]
        rw [he] at hlive ⊢
        have hlen' : d ≤ (streamOf rest).length := by
          rw [stream_len_cons] at hlen
          omega
        obtain ⟨hdrop, hpos⟩ := ih d hlive hlen'
        refine ⟨?_, hpos⟩
        rw [streamOf_cons, List.drop_append]
        exact hdrop

/-- Consuming `p + d` bytes is consuming `p` bytes and then `d` more
from the position reached, provided the machine is still live. -/
theorem advance_add (cb : HttpCallbacks) : ∀ (rs : List WfReq) (p d : Nat),
    (advance cb rs p).live = true →
    advance cb rs (p + d) =
      ⟨(advance cb (advance cb rs p).rs ((advance cb rs p).pos + d)).rs,
       (advance cb (advance cb rs p).rs ((advance cb rs p).pos + d)).pos,
       (advance cb rs p).evs ++
         (advance cb (advance cb rs p).rs ((advance cb rs p).pos + d)).evs,
       (advance cb (advance cb rs p).rs ((advance cb rs p).pos + d)).live⟩ := by
  intro rs
  induction rs with
  | nil =>
    intro p d _
    simp [advance]
  | cons r rest ih =>
    intro p d hlive
    by_cases hplt : p < (reqBytes r).length
    · have he : advance cb (r :: rest) p = ⟨r :: rest, p, [], true⟩ := by
        simp only [advance]
        rw [if_pos hplt]
      rw [he]
      rfl
    · by_cases hcl : hasCloseHdr r = true
      · exfalso
        simp only [advance] at hlive
        rw [if_neg hplt, if_pos hcl] at hlive
        simp at hlive
      · obtain ⟨e, rfl⟩ : ∃ e, p = (reqBytes r).length + e :=
          ⟨p - (reqBytes r).length, by omega⟩
        have hsub : (reqBytes r).length + e - (reqBytes r).length = e := by omega
        have he : advance cb (r :: rest) ((reqBytes r).length + e) =
            ⟨(advance cb rest e).rs, (advance cb rest e).pos,
             evsFor cb r ++ (advance cb rest e).evs, (advance cb rest e).live⟩ := by
          simp only [advance]
          rw [if_neg hplt, if_neg hcl, hsub]
        have hplt2 : ¬ (reqBytes r).length + e + d < (reqBytes r).length := by omega
        have hsub2 : (reqBytes r).length + e + d - (reqBytes r).length = e + d := by omega
        have he2 : advance cb (r :: rest) ((reqBytes r).length + e + d) =
            ⟨(advance cb rest (e + d)).rs, (advance cb rest (e + d)).pos,
             evsFor cb r ++ (advance cb rest (e + d)).evs,
             (advance cb rest (e + d)).live⟩ := by
          simp only [advance]
          rw [if_neg hplt2, if_neg hcl, hsub2]
        have hlive' : (advance cb rest e).live = true := by
          rw [he] at hlive
          exact hlive
        rw [show (reqBytes r).length + e + d = (reqBytes r).length + (e + d) from by omega] at he2 ⊢
        rw [he2, he, ih e d hlive']
        simp

/-- Every canonical state has the connection open. -/
theorem Inv_closed {rs : List WfReq} {c b : Nat} {conn : HttpConn}
    (h : Inv rs c b conn) : conn.closed = false := by
  match rs with
  | [] =>
    obtain ⟨-, -, hconn⟩ := h
    rw [hconn]
    rfl
  | r :: rest =>
    rcases h with ⟨-, -, hconn⟩ | ⟨-, -, -, -, -, hconn⟩ <;> rw [hconn] <;> rfl

/-- Consuming zero bytes is a no-op for the abstract machine. -/
theorem advance_zero (cb : HttpCallbacks) : ∀ rs : List WfReq,
    advance cb rs 0 = ⟨rs, 0, [], true⟩ := by
  intro rs
  match rs with
  | [] => rfl
  | r :: rest =>
    have h4 := headerBytes_len_ge r
    simp only [advance]
    rw [if_pos (by rw [reqBytes_len]; omega)]

/-- Dropping from a window taken out of a stream is a window further
into the stream. -/
theorem drop_of_take_drop {l x : List Nat} {c n : Nat}
    (hx : x = (l.drop c).take x.length) :
    x.drop n = (l.drop (c + n)).take (x.length - n) := by
  conv_lhs => rw [hx]
  rw [List.drop_take, List.drop_drop]

/-- The bytes of the stream between the end of `r`'s header block and
the end of `r`'s wire image are body bytes of `r`. -/
theorem stream_body_slice (r : WfReq) (rest : List WfReq) {c n : Nat}
    (hc : (headerBytes r).length ≤ c)
    (hcn : c + n ≤ (headerBytes r).length + r.body.length) :
    ((streamOf (r :: rest)).drop c).take n =
      (r.body.drop (c - (headerBytes r).length)).take n := by
  have hassoc : streamOf (r :: rest) = headerBytes r ++ (r.body ++ streamOf rest) := by
    rw [streamOf_cons, reqBytes, List.append_assoc]
  obtain ⟨k, rfl⟩ : ∃ k, c = (headerBytes r).length + k :=
    ⟨c - (headerBytes r).length, by omega⟩
  rw [hassoc, List.drop_append, Nat.add_sub_cancel_left]
  rw [List.drop_append_eq_append_drop,
    show k - r.body.length = 0 from by omega, List.drop_zero]
  rw [List.take_append_of_le_length]
  rw [List.length_drop]
  omega

/-- Dropping a whole request's wire image from the stream leaves the
stream of the remaining requests. -/
theorem stream_drop_req (r : WfReq) (rest : List WfReq) :
    (streamOf (r :: rest)).drop (reqBytes r).length = streamOf rest := by
  rw [streamOf_cons, List.drop_left]

/-- The canonical position never exceeds the remaining stream. -/
theorem Inv_pos_le {rs : List WfReq} {c b : Nat} {conn : HttpConn}
    (h : Inv rs c b conn) : c ≤ (streamOf rs).length := by
  match rs with
  | [] =>
    obtain ⟨hc, -, -⟩ := h
    simp [hc, streamOf_nil]
  | r :: rest =>
    have hc : c < (reqBytes r).length := by
      rcases h with ⟨hc, hb, -⟩ | ⟨-, -, -, h4, -, -⟩
      · rw [reqBytes_len]
        omega
      · exact h4
    have := stream_len_cons r rest
    omega

/-- Delivering one TCP segment to a connection in a canonical state:
the consumption loop of `http_on_data` emits exactly the abstract
machine's events for the bytes consumed and lands in the canonical
state of the position reached. -/
theorem onData_run (cb : HttpCallbacks) (hcb : routerTame cb) :
    ∀ (fuel : Nat) (rs : List WfReq) (c b : Nat) (conn : HttpConn) (x : List Nat),
      (∀ r2 ∈ rs, wfReq r2 = true) → Inv rs c b conn →
      c + x.length ≤ (streamOf rs).length →
      x = ((streamOf rs).drop c).take x.length →
      x.length + 1 ≤ fuel →
      ∃ conn', onDataGo cb fuel conn x =
          some (conn', (advance cb rs (c + x.length)).evs) ∧
        ((advance cb rs (c + x.length)).live = true →
          ∃ b2, Inv (advance cb rs (c + x.length)).rs (advance cb rs (c + x.length)).pos
              b2 conn' ∧
            (streamOf rs).drop (c + x.length) =
              (streamOf (advance cb rs (c + x.length)).rs).drop
                (advance cb rs (c + x.length)).pos) ∧
        ((advance cb rs (c + x.length)).live = false → conn'.closed = true) := by
  intro fuel
  induction fuel with
  | zero =>
    intro rs c b conn x _ _ _ _ hf
    omega
  | succ f ihf =>
    intro rs c b conn x hwf hinv hbound hx hf
    have hstay := advance_stay cb hinv
    cases x with
    | nil =>
      refine ⟨conn, ?_, ?_, ?_⟩
      · simp [onDataGo, hstay]
      · intro _
        refine ⟨b, ?_, ?_⟩
        · simp only [List.length_nil, Nat.add_zero, hstay]
          exact hinv
        · simp only [List.length_nil, Nat.add_zero, hstay]
      · simp only [List.length_nil, Nat.add_zero, hstay]
        intro hfalse
        simp at hfalse
    | cons x0 xt =>
      cases rs with
      | nil =>
        exfalso
        have hx0 : (x0 :: xt).length = 0 := by
          rw [streamOf_nil] at hbound
          simp only [List.length_nil] at hbound
          omega
        simp at hx0
      | cons r rest =>
        have hwr : wfReq r = true := hwf r (List.mem_cons_self r rest)
        have hwrest : ∀ r2 ∈ rest, wfReq r2 = true :=
          fun r2 h2 => hwf r2 (List.mem_cons_of_mem r h2)
        have h4 := headerBytes_len_ge r
        have hl81 : (headerBytes r).length ≤ 8191 := (wfReq_parts hwr).2.2.2.2.2.2
        have hm1 : 1 ≤ (x0 :: xt).length := by simp
        rcases hinv with ⟨hcb', hblt, hconn⟩ | ⟨hhl, hble, hb81, hclt, hLpos, hconn⟩
        · -- reading headers: c = b < (headerBytes r).length
          subst hconn
          subst c
          have hbl : ((streamOf (r :: rest)).take b).length = b := by
            simp only [List.length_take]
            omega
          set n := min (x0 :: xt).length (8191 - b) with hn
          have hnle : n ≤ (x0 :: xt).length := min_le_left _ _
          have hnsp : n ≤ 8191 - b := min_le_right _ _
          have hn1 : 1 ≤ n := by
            rw [hn]
            omega
          have htake : (x0 :: xt).take n = ((streamOf (r :: rest)).drop b).take n := by
            conv_lhs => rw [hx]
            rw [List.take_take]
            congr 1
            omega
          have hbuf : (streamOf (r :: rest)).take b ++ (x0 :: xt).take n =
              (streamOf (r :: rest)).take (b + n) := by
            rw [htake]
            exact (List.take_add _ b n).symm
          have hc1 : ({ state := .readingHeaders,
                        headersBuff :=
                          (concH (r :: rest) b).headersBuff ++ (x0 :: xt).take n,
                        headersLen := (concH (r :: rest) b).headersLen,
                        bodySink := (concH (r :: rest) b).bodySink,
                        bodyInFile := (concH (r :: rest) b).bodyInFile,
                        bodyExpected := (concH (r :: rest) b).bodyExpected,
                        bodyReceived := (concH (r :: rest) b).bodyReceived,
                        parsedRequest := (concH (r :: rest) b).parsedRequest,
                        closed := (concH (r :: rest) b).closed } : HttpConn) =
              concH (r :: rest) (b + n) := by
            simp only [concH, initialHttpConn]
            rw [hbuf]
          have hbn81 : b + n ≤ 8191 := by omega
          have hbnstream : b + n ≤ (streamOf (r :: rest)).length := by omega
          have hbl2 : ((streamOf (r :: rest)).take (b + n)).length = b + n := by
            simp only [List.length_take]
            omega
          have hfe : 3 * (b + n) + 9 ≤ engineFuel (concH (r :: rest) (b + n)) := by
            simp only [engineFuel, concH, initialHttpConn]
            rw [hbl2]
          obtain ⟨conn2, hEng, hinv2, hcld2⟩ :=
            (engine_nest cb hcb (engineFuel (concH (r :: rest) (b + n)))).2
              (r :: rest) (b + n) hwf hbn81 hbnstream hfe
          have hstv : (concH (r :: rest) b).state = .readingHeaders := rfl
          have hspv : HEADERS_BUFF_SIZE - ((concH (r :: rest) b).headersBuff).length - 1 =
              8191 - b := by
            simp only [concH, initialHttpConn]
            rw [hbl]
            simp only [HEADERS_BUFF_SIZE]
            omega
          have hspne : ¬ (8191 - b = 0) := by omega
          have hstep : onDataGo cb (f + 1) (concH (r :: rest) b) (x0 :: xt) =
              (if (advance cb (r :: rest) (b + n)).live = true then
                (match onDataGo cb f conn2 ((x0 :: xt).drop n) with
                 | none => none
                 | some r2 => some (r2.1, (advance cb (r :: rest) (b + n)).evs ++ r2.2))
              else some (conn2, (advance cb (r :: rest) (b + n)).evs)) := by
            simp only [onDataGo, List.isEmpty_cons, Bool.false_eq_true, if_false,
              hstv, hspv, ← hn, hc1, hEng, hspne]
          by_cases hlv : (advance cb (r :: rest) (b + n)).live = true
          · -- the engine is still live: process the rest of the segment
            obtain ⟨b2, hinv2', hdummy⟩ : ∃ b2,
                Inv (advance cb (r :: rest) (b + n)).rs (advance cb (r :: rest) (b + n)).pos
                  (advance cb (r :: rest) (b + n)).pos conn2 ∧ True :=
              ⟨(advance cb (r :: rest) (b + n)).pos, hinv2 hlv, trivial⟩
            have hdropeq := advance_live_drop cb (r :: rest) (b + n) hlv hbnstream
            have hwf2 : ∀ r2 ∈ (advance cb (r :: rest) (b + n)).rs, wfReq r2 = true :=
              fun r2 h2 => hwf r2 (advance_rs_mem cb _ _ r2 h2)
            have hxdrop : (x0 :: xt).drop n =
                ((streamOf (r :: rest)).drop (b + n)).take ((x0 :: xt).length - n) :=
              drop_of_take_drop hx
            have hlendrop : ((x0 :: xt).drop n).length = (x0 :: xt).length - n :=
              List.length_drop _ _
            have hx2 : (x0 :: xt).drop n =
                ((streamOf (advance cb (r :: rest) (b + n)).rs).drop
                  (advance cb (r :: rest) (b + n)).pos).take ((x0 :: xt).drop n).length := by
              rw [hlendrop, hxdrop, hdropeq.1]
            have hlstream := congrArg List.length hdropeq.1
            rw [List.length_drop, List.length_drop] at hlstream
            have hbound2 : (advance cb (r :: rest) (b + n)).pos + ((x0 :: xt).drop n).length ≤
                (streamOf (advance cb (r :: rest) (b + n)).rs).length := by
              rw [hlendrop]
              have := hdropeq.2
              omega
            have hf2 : ((x0 :: xt).drop n).length + 1 ≤ f := by
              rw [hlendrop]
              omega
            obtain ⟨conn3, hRun, hcont, hcld3⟩ := ihf (advance cb (r :: rest) (b + n)).rs
              (advance cb (r :: rest) (b + n)).pos (advance cb (r :: rest) (b + n)).pos
              conn2 ((x0 :: xt).drop n) hwf2 hinv2' hbound2 hx2 hf2
            rw [hlendrop] at hRun hcont hcld3
            have hsum : b + (x0 :: xt).length = (b + n) + ((x0 :: xt).length - n) := by omega
            have hAA := advance_add cb (r :: rest) (b + n) ((x0 :: xt).length - n) hlv
            refine ⟨conn3, ?_, ?_, ?_⟩
            · rw [hstep, if_pos hlv, hRun, hsum, hAA]
            · rw [hsum, hAA]
              intro hlive3
              obtain ⟨b3, hinv3, hdrop3⟩ := hcont hlive3
              refine ⟨b3, hinv3, ?_⟩
              have hchain : (streamOf (r :: rest)).drop ((b + n) + ((x0 :: xt).length - n)) =
                  (streamOf (advance cb (r :: rest) (b + n)).rs).drop
                    ((advance cb (r :: rest) (b + n)).pos + ((x0 :: xt).length - n)) := by
                rw [← List.drop_drop, hdropeq.1, List.drop_drop]
              rw [hchain]
              exact hdrop3
            · rw [hsum, hAA]
              exact hcld3
          · -- the engine closed the connection: remaining input is dropped
            have hlvf : (advance cb (r :: rest) (b + n)).live = false := by
              simpa using hlv
            have hmono := advance_close_mono cb (r :: rest) (b + n)
              (b + (x0 :: xt).length) hlvf (by omega)
            refine ⟨conn2, ?_, ?_, ?_⟩
            · rw [hstep, if_neg hlv, hmono]
            · rw [hmono]
              intro hlive
              rw [hlvf] at hlive
              cases hlive
            · intro _
              exact hcld2 hlvf
        · -- reading the body of r
          subst hconn
          have hclt' : c < (headerBytes r).length + r.body.length := by
            rw [reqBytes_len] at hclt
            exact hclt
          have hbl : ((streamOf (r :: rest)).take b).length = b := by
            simp only [List.length_take]
            omega
          have hstvB : (concB r rest c b).state = .readingBody := rfl
          have hbe : (concB r rest c b).bodyExpected = r.body.length := rfl
          have hbr : (concB r rest c b).bodyReceived =
              c - (headerBytes r).length := rfl
          set n := min (x0 :: xt).length
            (r.body.length - (c - (headerBytes r).length)) with hn
          have hnle : n ≤ (x0 :: xt).length := min_le_left _ _
          have hnrem : n ≤ r.body.length - (c - (headerBytes r).length) :=
            min_le_right _ _
          have hn1 : 1 ≤ n := by
            rw [hn]
            omega
          have hcn : c + n ≤ (headerBytes r).length + r.body.length := by omega
          have htake : (x0 :: xt).take n =
              (r.body.drop (c - (headerBytes r).length)).take n := by
            conv_lhs => rw [hx]
            rw [List.take_take, show min n (x0 :: xt).length = n from by omega]
            exact stream_body_slice r rest (by omega) hcn
          have hsink : r.body.take (c - (headerBytes r).length) ++ (x0 :: xt).take n =
              r.body.take (c + n - (headerBytes r).length) := by
            rw [htake, show c + n - (headerBytes r).length =
              (c - (headerBytes r).length) + n from by omega]
            exact (List.take_add _ _ _).symm
          have hc1 : ({ state := .readingBody,
                        headersBuff := (concB r rest c b).headersBuff,
                        headersLen := (concB r rest c b).headersLen,
                        bodySink := (concB r rest c b).bodySink ++ (x0 :: xt).take n,
                        bodyInFile := (concB r rest c b).bodyInFile,
                        bodyExpected := r.body.length,
                        bodyReceived := c - (headerBytes r).length + n,
                        parsedRequest := (concB r rest c b).parsedRequest,
                        closed := (concB r rest c b).closed } : HttpConn) =
              concB r rest (c + n) b := by
            simp only [concB]
            rw [hsink, show c - (headerBytes r).length + n =
              c + n - (headerBytes r).length from by omega]
          have hefB : engineFuel (concB r rest (c + n) b) = (3 * b + 8) + 1 := by
            simp only [engineFuel, concB, hbl]
          have hab : engineGo cb ((3 * b + 8) + 1) .afterBody (concB r rest (c + n) b) =
              (if (concB r rest (c + n) b).bodyReceived ≥
                  (concB r rest (c + n) b).bodyExpected then
                engineGo cb (3 * b + 8) .handle (concB r rest (c + n) b)
              else some (concB r rest (c + n) b, [], true)) := rfl
          have hlendrop : ((x0 :: xt).drop n).length = (x0 :: xt).length - n :=
            List.length_drop _ _
          by_cases hfull : (headerBytes r).length + r.body.length ≤ c + n
          · -- the body is now complete: the engine dispatches the request
            have hceq : c + n = (headerBytes r).length + r.body.length :=
              le_antisymm hcn hfull
            have hcpre : concB r rest (c + n) b = preHandle r rest b .readingBody := by
              rw [hceq]
              simp only [concB, preHandle, Nat.add_sub_cancel_left, List.take_length]
            obtain ⟨hclose, hkeep⟩ := (engine_nest cb hcb (3 * b + 8)).1 r rest b
              .readingBody hwr hwrest hb81 (by omega) (by omega)
            by_cases hclh : hasCloseHdr r = true
            · -- Connection: close — everything afterwards is discarded
              have hEngB : engineGo cb (engineFuel (concB r rest (c + n) b)) .afterBody
                  (concB r rest (c + n) b) =
                  some ({ preHandle r rest b .readingBody with closed := true },
                    evsFor cb r ++ [.close], false) := by
                rw [hefB, hab, if_pos (by simp only [concB]; omega), hcpre, hclose hclh]
              have hadvC : advance cb (r :: rest) (c + (x0 :: xt).length) =
                  ⟨[], 0, evsFor cb r ++ [.close], false⟩ := by
                simp only [advance]
                rw [if_neg (by rw [reqBytes_len]; omega), if_pos hclh]
              refine ⟨{ preHandle r rest b .readingBody with closed := true }, ?_, ?_, ?_⟩
              · simp only [onDataGo, List.isEmpty_cons, Bool.false_eq_true, if_false,
                  hstvB, hbe, hbr, ← hn, hc1, hEngB, hadvC]
              · rw [hadvC]
                intro hlive
                simp at hlive
              · intro _
                rfl
            · -- keep-alive: continue with the requests after r
              have hclf : hasCloseHdr r = false := by simpa using hclh
              obtain ⟨conn2, hEngH, hinvH, hcldH⟩ := hkeep hclf
              have hb0 : b - (reqBytes r).length = 0 := by
                rw [reqBytes_len]
                omega
              simp only [hb0, advance_zero, List.append_nil] at hEngH hinvH
              have hinv2 : Inv rest 0 0 conn2 := hinvH trivial
              have hEngB : engineGo cb (engineFuel (concB r rest (c + n) b)) .afterBody
                  (concB r rest (c + n) b) = some (conn2, evsFor cb r, true) := by
                rw [hefB, hab, if_pos (by simp only [concB]; omega), hcpre]
                exact hEngH
              have hdropstream : (streamOf (r :: rest)).drop (c + n) = streamOf rest := by
                rw [hceq, ← reqBytes_len]
                exact stream_drop_req r rest
              have hxdrop : (x0 :: xt).drop n =
                  ((streamOf rest).drop 0).take ((x0 :: xt).length - n) := by
                rw [List.drop_zero, ← hdropstream]
                exact drop_of_take_drop hx
              have hx2 : (x0 :: xt).drop n =
                  ((streamOf rest).drop 0).take ((x0 :: xt).drop n).length := by
                rw [hlendrop]
                exact hxdrop
              have hbound2 : 0 + ((x0 :: xt).drop n).length ≤ (streamOf rest).length := by
                rw [hlendrop]
                have h1 := stream_len_cons r rest
                rw [reqBytes_len] at h1
                omega
              have hf2 : ((x0 :: xt).drop n).length + 1 ≤ f := by
                rw [hlendrop]
                omega
              obtain ⟨conn3, hRun, hcont, hcld3⟩ :=
                ihf rest 0 0 conn2 ((x0 :: xt).drop n) hwrest hinv2 hbound2 hx2 hf2
              simp only [hlendrop, Nat.zero_add] at hRun hcont hcld3
              have hadvK : advance cb (r :: rest) (c + (x0 :: xt).length) =
                  ⟨(advance cb rest ((x0 :: xt).length - n)).rs,
                   (advance cb rest ((x0 :: xt).length - n)).pos,
                   evsFor cb r ++ (advance cb rest ((x0 :: xt).length - n)).evs,
                   (advance cb rest ((x0 :: xt).length - n)).live⟩ := by
                simp only [advance]
                rw [if_neg (by rw [reqBytes_len]; omega), if_neg hclh,
                  show c + (x0 :: xt).length - (reqBytes r).length =
                    (x0 :: xt).length - n from by rw [reqBytes_len]; omega]
              refine ⟨conn3, ?_, ?_, ?_⟩
              · simp only [onDataGo, List.isEmpty_cons, Bool.false_eq_true, if_false,
                  hstvB, hbe, hbr, ← hn, hc1, hEngB, hRun, hadvK, if_true]
              · rw [hadvK]
                intro hlive3
                obtain ⟨b3, hinv3, hdrop3⟩ := hcont hlive3
                refine ⟨b3, hinv3, ?_⟩
                have hch : (streamOf (r :: rest)).drop (c + (x0 :: xt).length) =
                    (streamOf rest).drop ((x0 :: xt).length - n) := by
                  rw [show c + (x0 :: xt).length = (c + n) + ((x0 :: xt).length - n)
                    from by omega, ← List.drop_drop, hdropstream]
                rw [hch]
                exact hdrop3
              · rw [hadvK]
                exact hcld3
          · -- the body is still incomplete: the whole segment is body bytes
            have hEngB : engineGo cb (engineFuel (concB r rest (c + n) b)) .afterBody
                (concB r rest (c + n) b) = some (concB r rest (c + n) b, [], true) := by
              rw [hefB, hab, if_neg (by simp only [concB]; omega)]
            have hinv2 : Inv (r :: rest) (c + n) b (concB r rest (c + n) b) :=
              Or.inr ⟨hhl, by omega, hb81, by rw [reqBytes_len]; omega, hLpos, rfl⟩
            have hx2 : (x0 :: xt).drop n =
                ((streamOf (r :: rest)).drop (c + n)).take ((x0 :: xt).drop n).length := by
              rw [hlendrop]
              exact drop_of_take_drop hx
            have hbound2 : (c + n) + ((x0 :: xt).drop n).length ≤
                (streamOf (r :: rest)).length := by
              rw [hlendrop]
              omega
            have hf2 : ((x0 :: xt).drop n).length + 1 ≤ f := by
              rw [hlendrop]
              omega
            obtain ⟨conn3, hRun, hcont, hcld3⟩ := ihf (r :: rest) (c + n) b
              (concB r rest (c + n) b) ((x0 :: xt).drop n) hwf hinv2 hbound2 hx2 hf2
            simp only [hlendrop] at hRun hcont hcld3
            rw [show (c + n) + ((x0 :: xt).length - n) = c + (x0 :: xt).length
              from by omega] at hRun hcont hcld3
            refine ⟨conn3, ?_, ?_, ?_⟩
            · simp only [onDataGo, List.isEmpty_cons, Bool.false_eq_true, if_false,
                hstvB, hbe, hbr, ← hn, hc1, hEngB, hRun, List.nil_append, if_true]
            · intro hlive3
              exact hcont hlive3
            · exact hcld3

/-- `handle_read_event` stops delivering segments once the connection
is closed. -/
theorem runChunks_closed (cb : HttpCallbacks) (conn : HttpConn) (xs : List (List Nat))
    (h : conn.closed = true) : runChunks cb conn xs = some (conn, []) := by
  cases xs with
  | nil => rfl
  | cons x xs =>
    simp only [runChunks]
    rw [if_pos h]

/-- Delivering a sequence of TCP segments to a connection in a
canonical state produces exactly the abstract machine's events for the
delivered bytes, and the connection ends up closed exactly when the
abstract machine closed. -/
theorem runChunks_run (cb : HttpCallbacks) (hcb : routerTame cb) :
    ∀ (xs : List (List Nat)) (rs : List WfReq) (c b : Nat) (conn : HttpConn),
      (∀ r2 ∈ rs, wfReq r2 = true) → Inv rs c b conn →
      c + xs.flatten.length ≤ (streamOf rs).length →
      xs.flatten = ((streamOf rs).drop c).take xs.flatten.length →
      ∃ conn', runChunks cb conn xs =
          some (conn', (advance cb rs (c + xs.flatten.length)).evs) ∧
        (conn'.closed = true ↔ (advance cb rs (c + xs.flatten.length)).live = false) := by
  intro xs
  induction xs with
  | nil =>
    intro rs c b conn hwf hinv _ _
    have hstay := advance_stay cb hinv
    refine ⟨conn, ?_, ?_⟩
    · simp [runChunks, hstay]
    · rw [show c + ([] : List (List Nat)).flatten.length = c from by simp, hstay]
      simp [Inv_closed hinv]
  | cons x xs ih =>
    intro rs c b conn hwf hinv hbound hx
    have hflat : ((x :: xs).flatten : List Nat) = x ++ xs.flatten := List.flatten_cons
    have hflen : ((x :: xs).flatten).length = x.length + xs.flatten.length := by
      rw [hflat, List.length_append]
    have hxpre : x = ((streamOf rs).drop c).take x.length := by
      conv_lhs => rw [← List.take_left x xs.flatten, ← hflat, hx]
      rw [List.take_take]
      congr 1
      rw [hflen]
      omega
    have hxbound : c + x.length ≤ (streamOf rs).length := by
      rw [hflen] at hbound
      omega
    obtain ⟨conn2, hOD, hcont, hcld⟩ := onData_run cb hcb (2 * x.length + 2) rs c b conn x
      hwf hinv hxbound hxpre (by omega)
    have hhod : http_on_data cb conn x = onDataGo cb (2 * x.length + 2) conn x := rfl
    by_cases hlv : (advance cb rs (c + x.length)).live = true
    · -- still live after this segment: recurse over the remaining ones
      obtain ⟨b2, hinv2, hdropeq⟩ := hcont hlv
      have hxsflat : xs.flatten = ((streamOf (advance cb rs (c + x.length)).rs).drop
          (advance cb rs (c + x.length)).pos).take xs.flatten.length := by
        have h1 : xs.flatten = ((x :: xs).flatten).drop x.length := by
          rw [hflat, List.drop_left]
        have h2 : ((x :: xs).flatten).drop x.length =
            ((streamOf rs).drop (c + x.length)).take ((x :: xs).flatten.length - x.length) :=
          drop_of_take_drop hx
        have h3 : (x :: xs).flatten.length - x.length = xs.flatten.length := by
          rw [hflen]
          omega
        conv_lhs => rw [h1, h2, h3]
        rw [hdropeq]
      have hlen2 := congrArg List.length hdropeq
      rw [List.length_drop, List.length_drop] at hlen2
      have hpos2 := Inv_pos_le hinv2
      have hbound2 : (advance cb rs (c + x.length)).pos + xs.flatten.length ≤
          (streamOf (advance cb rs (c + x.length)).rs).length := by
        rw [hflen] at hbound
        omega
      have hwf2 : ∀ r2 ∈ (advance cb rs (c + x.length)).rs, wfReq r2 = true :=
        fun r2 h2 => hwf r2 (advance_rs_mem cb _ _ r2 h2)
      obtain ⟨conn3, hRC, hiff⟩ := ih (advance cb rs (c + x.length)).rs
        (advance cb rs (c + x.length)).pos b2 conn2 hwf2 hinv2 hbound2 hxsflat
      have hAA := advance_add cb rs (c + x.length) xs.flatten.length hlv
      have hsum : c + (x :: xs).flatten.length = (c + x.length) + xs.flatten.length := by
        rw [hflen]
        omega
      refine ⟨conn3, ?_, ?_⟩
      · simp only [runChunks, Inv_closed hinv, Bool.false_eq_true, if_false, hhod,
          hOD, hRC]
        rw [hsum, hAA]
      · rw [hsum, hAA]
        exact hiff
    · -- the connection closed during this segment: the rest is skipped
      have hlvf : (advance cb rs (c + x.length)).live = false := by simpa using hlv
      have hcl2 := hcld hlvf
      have hmono := advance_close_mono cb rs (c + x.length) (c + (x :: xs).flatten.length)
        hlvf (by rw [hflen]; omega)
      refine ⟨conn2, ?_, ?_⟩
      · simp only [runChunks, Inv_closed hinv, Bool.false_eq_true, if_false, hhod, hOD,
          runChunks_closed cb conn2 xs hcl2, hmono, List.append_nil]
      · rw [hmono]
        simp [hcl2, hlvf]

/-! ## The trace of a complete well-formed stream -/

/-- Whether the final request of the stream carries `Connection: close`. -/
def lastClose : List WfReq → Bool
  | [] => false
  | [r] => hasCloseHdr r
  | _ :: r2 :: rest => lastClose (r2 :: rest)

theorem streamOf_single (r : WfReq) : streamOf [r] = reqBytes r := by
  simp [streamOf]

/-- Consuming an entire stream whose non-final requests are keep-alive:
every request is completed in order and the machine closes exactly when
the final request asked to. -/
theorem advance_full (cb : HttpCallbacks) : ∀ rs : List WfReq,
    (∀ r ∈ rs, wfReq r = true) →
    (∀ r ∈ rs.dropLast, hasCloseHdr r = false) →
    advance cb rs (streamOf rs).length =
      ⟨[], 0, (rs.map (evsFor cb)).flatten ++ (if lastClose rs then [.close] else []),
       !lastClose rs⟩ := by
  intro rs
  induction rs with
  | nil =>
    intro _ _
    simp [advance, streamOf_nil, lastClose]
  | cons r rest ih =>
    intro hwf hmid
    have h4 := headerBytes_len_ge r
    have hlen := stream_len_cons r rest
    have hrb := reqBytes_len r
    cases rest with
    | nil =>
      have hslen : (streamOf [r]).length = (reqBytes r).length := by
        rw [streamOf_single]
      by_cases hcl : hasCloseHdr r = true
      · simp only [hslen, advance]
        rw [if_neg (by omega), if_pos hcl]
        simp [lastClose, hcl]
      · have hclf : hasCloseHdr r = false := by simpa using hcl
        simp only [hslen, advance]
        rw [if_neg (by omega), if_neg hcl]
        simp [lastClose, hclf]
    | cons r2 rest2 =>
      have hdl : (r :: r2 :: rest2).dropLast = r :: (r2 :: rest2).dropLast := rfl
      have hclr : hasCloseHdr r = false :=
        hmid r (by rw [hdl]; exact List.mem_cons_self _ _)
      have hmid2 : ∀ r3 ∈ (r2 :: rest2).dropLast, hasCloseHdr r3 = false :=
        fun r3 h3 => hmid r3 (by rw [hdl]; exact List.mem_cons_of_mem _ h3)
      have hwf2 : ∀ r3 ∈ r2 :: rest2, wfReq r3 = true :=
        fun r3 h3 => hwf r3 (List.mem_cons_of_mem _ h3)
      have hstep : advance cb (r :: r2 :: rest2) ((streamOf (r :: r2 :: rest2)).length) =
          ⟨(advance cb (r2 :: rest2) ((streamOf (r2 :: rest2)).length)).rs,
           (advance cb (r2 :: rest2) ((streamOf (r2 :: rest2)).length)).pos,
           evsFor cb r ++ (advance cb (r2 :: rest2) ((streamOf (r2 :: rest2)).length)).evs,
           (advance cb (r2 :: rest2) ((streamOf (r2 :: rest2)).length)).live⟩ := by
        simp only [advance]
        rw [if_neg (by omega), if_neg (by simp [hclr]), hlen, Nat.add_sub_cancel_left]
      rw [hstep, ih hwf2 hmid2]
      simp [lastClose, List.append_assoc]

/-- Master theorem: delivering a well-formed stream, chunked arbitrarily,
to a fresh connection yields exactly the per-request event trace, with a
final close exactly when the last request asked for it. -/
theorem server_trace (cb : HttpCallbacks) (hcb : routerTame cb) (rs : List WfReq)
    (xs : List (List Nat)) (hwf : ∀ r ∈ rs, wfReq r = true)
    (hmid : ∀ r ∈ rs.dropLast, hasCloseHdr r = false)
    (hchunks : xs.flatten = streamOf rs) :
    ∃ conn', runChunks cb initialHttpConn xs =
        some (conn', (rs.map (evsFor cb)).flatten ++
          (if lastClose rs then [.close] else [])) ∧
      (conn'.closed = true ↔ lastClose rs = true) := by
  have hinv0 : Inv rs 0 0 initialHttpConn := by
    match rs with
    | [] => exact ⟨rfl, rfl, rfl⟩
    | r :: rest =>
      refine Or.inl ⟨rfl, ?_, ?_⟩
      · have := headerBytes_len_ge r
        omega
      · rfl
  obtain ⟨conn', hRC, hiff⟩ := runChunks_run cb hcb xs rs 0 0 initialHttpConn hwf hinv0
    (by rw [hchunks]; omega)
    (by rw [hchunks, List.drop_zero, List.take_length])
  rw [show (0 : Nat) + xs.flatten.length = (streamOf rs).length from by
    rw [hchunks]; omega] at hRC hiff
  rw [advance_full cb rs hwf hmid] at hRC hiff
  refine ⟨conn', hRC, ?_⟩
  have hiff' : conn'.closed = true ↔ (!lastClose rs) = false := hiff
  rw [hiff']
  cases lastClose rs <;> simp

/-! ## Observations on event traces -/

/-- The parsed requests handed to the router, in order. -/
def dispatchesOf : List HttpEv → List HttpRequestParsed
  | [] => []
  | .dispatch pr _ _ :: t => pr :: dispatchesOf t
  | _ :: t => dispatchesOf t

/-- The response buffers written to the socket, in order. -/
def sendsOf : List HttpEv → List (List Nat)
  | [] => []
  | .send s :: t => s :: sendsOf t
  | _ :: t => sendsOf t

/-- The body contents handed to the router, in order. -/
def bodiesOf : List HttpEv → List (List Nat)
  | [] => []
  | .dispatch _ body _ :: t => body :: bodiesOf t
  | _ :: t => bodiesOf t

theorem dispatchesOf_append : ∀ a b : List HttpEv,
    dispatchesOf (a ++ b) = dispatchesOf a ++ dispatchesOf b := by
  intro a b
  induction a with
  | nil => rfl
  | cons e t ih => cases e <;> simp [dispatchesOf, ih]

theorem sendsOf_append : ∀ a b : List HttpEv,
    sendsOf (a ++ b) = sendsOf a ++ sendsOf b := by
  intro a b
  induction a with
  | nil => rfl
  | cons e t ih => cases e <;> simp [sendsOf, ih]

theorem bodiesOf_append : ∀ a b : List HttpEv,
    bodiesOf (a ++ b) = bodiesOf a ++ bodiesOf b := by
  intro a b
  induction a with
  | nil => rfl
  | cons e t ih => cases e <;> simp [bodiesOf, ih]

theorem dispatchesOf_sendmap (ss : List (List Nat)) :
    dispatchesOf (ss.map .send) = [] := by
  induction ss with
  | nil => rfl
  | cons s t ih => simp [dispatchesOf, ih]

theorem sendsOf_sendmap (ss : List (List Nat)) :
    sendsOf (ss.map .send) = ss := by
  induction ss with
  | nil => rfl
  | cons s t ih => simp [sendsOf, ih]

theorem bodiesOf_sendmap (ss : List (List Nat)) :
    bodiesOf (ss.map .send) = [] := by
  induction ss with
  | nil => rfl
  | cons s t ih => simp [bodiesOf, ih]

theorem dispatchesOf_trace (cb : HttpCallbacks)
    (fr : HttpRequestParsed → List Nat → Bool → RouterResult)
    (hOR : cb.onRequest = some fr) : ∀ rs : List WfReq,
    dispatchesOf ((rs.map (evsFor cb)).flatten) = rs.map canonicalReq := by
  intro rs
  induction rs with
  | nil => rfl
  | cons r rest ih =>
    simp [evsFor, hOR, dispatchesOf_append, dispatchesOf, dispatchesOf_sendmap, ih]

theorem sendsOf_trace (cb : HttpCallbacks)
    (fr : HttpRequestParsed → List Nat → Bool → RouterResult)
    (hOR : cb.onRequest = some fr) : ∀ rs : List WfReq,
    sendsOf ((rs.map (evsFor cb)).flatten) =
      (rs.map (fun r => (fr (canonicalReq r) r.body (inFileOf r)).sends)).flatten := by
  intro rs
  induction rs with
  | nil => rfl
  | cons r rest ih =>
    simp [evsFor, hOR, sendsOf_append, sendsOf, sendsOf_sendmap, ih]

theorem bodiesOf_trace (cb : HttpCallbacks)
    (fr : HttpRequestParsed → List Nat → Bool → RouterResult)
    (hOR : cb.onRequest = some fr) : ∀ rs : List WfReq,
    bodiesOf ((rs.map (evsFor cb)).flatten) = rs.map (fun r => r.body) := by
  intro rs
  induction rs with
  | nil => rfl
  | cons r rest ih =>
    simp [evsFor, hOR, bodiesOf_append, bodiesOf, bodiesOf_sendmap, ih]

theorem dispatchesOf_tail (b : Bool) :
    dispatchesOf (if b then [HttpEv.close] else []) = [] := by
  cases b <;> rfl

theorem sendsOf_tail (b : Bool) :
    sendsOf (if b then [HttpEv.close] else []) = [] := by
  cases b <;> rfl

theorem bodiesOf_tail (b : Bool) :
    bodiesOf (if b then [HttpEv.close] else []) = [] := by
  cases b <;> rfl

/-! ## Claim theorems -/

/-- C1: for every well-formed stream of pipelined requests delivered to
one keep-alive connection (in arbitrary TCP segments), the engine
dispatches exactly the N requests to the router's `on_request` in wire
order, the responses written are exactly the router's responses for
those requests in that order, and the engine closes the connection iff
the final request carried a (case-insensitive) `Connection: close`
header. -/
theorem c1_pipelined_requests_trace (cb : HttpCallbacks)
    (fr : HttpRequestParsed → List Nat → Bool → RouterResult)
    (hcb : routerTame cb) (hOR : cb.onRequest = some fr)
    (rs : List WfReq) (xs : List (List Nat))
    (hwf : ∀ r ∈ rs, wfReq r = true)
    (hmid : ∀ r ∈ rs.dropLast, hasCloseHdr r = false)
    (hchunks : xs.flatten = streamOf rs) :
    ∃ conn' evs, runChunks cb initialHttpConn xs = some (conn', evs) ∧
      dispatchesOf evs = rs.map canonicalReq ∧
      sendsOf evs =
        (rs.map (fun r => (fr (canonicalReq r) r.body (inFileOf r)).sends)).flatten ∧
      (conn'.closed = true ↔ lastClose rs = true) := by
  obtain ⟨conn', hRC, hiff⟩ := server_trace cb hcb rs xs hwf hmid hchunks
  refine ⟨conn', _, hRC, ?_, ?_, hiff⟩
  · rw [dispatchesOf_append, dispatchesOf_trace cb fr hOR rs,
      dispatchesOf_tail, List.append_nil]
  · rw [sendsOf_append, sendsOf_trace cb fr hOR rs, sendsOf_tail, List.append_nil]

/-- C2: a well-formed request parses to the same request whatever the
byte-level chunking of its wire image: any split into successive
segments yields the same event trace — in particular the same dispatched
parsed request and body — as delivering the whole sequence in a single
`on_data` call. -/
theorem c2_chunking_invariance (cb : HttpCallbacks)
    (fr : HttpRequestParsed → List Nat → Bool → RouterResult)
    (hcb : routerTame cb) (hOR : cb.onRequest = some fr)
    (r : WfReq) (hwr : wfReq r = true) (xs : List (List Nat))
    (_hne : ∀ x ∈ xs, x ≠ []) (hflat : xs.flatten = reqBytes r) :
    ∃ conn1 conn2 evs,
      runChunks cb initialHttpConn xs = some (conn1, evs) ∧
      runChunks cb initialHttpConn [reqBytes r] = some (conn2, evs) ∧
      dispatchesOf evs = [canonicalReq r] ∧
      bodiesOf evs = [r.body] := by
  have hwf1 : ∀ r2 ∈ [r], wfReq r2 = true := by
    intro r2 h2
    rw [List.mem_singleton] at h2
    rw [h2]
    exact hwr
  have hmid1 : ∀ r2 ∈ ([r] : List WfReq).dropLast, hasCloseHdr r2 = false := by
    intro r2 h2
    simp at h2
  obtain ⟨conn1, hRC1, -⟩ := server_trace cb hcb [r] xs hwf1 hmid1
    (by rw [hflat, streamOf_single])
  obtain ⟨conn2, hRC2, -⟩ := server_trace cb hcb [r] [reqBytes r] hwf1 hmid1
    (by simp [streamOf_single])
  refine ⟨conn1, conn2, _, hRC1, hRC2, ?_, ?_⟩
  · rw [dispatchesOf_append, dispatchesOf_trace cb fr hOR [r],
      dispatchesOf_tail, List.append_nil, List.map_singleton]
  · rw [bodiesOf_append, bodiesOf_trace cb fr hOR [r], bodiesOf_tail,
      List.append_nil, List.map_singleton]

/-- C3: for a well-formed request whose headers carry `Content-Length: L`
with `L > 0`, the body the router observes at dispatch is exactly the
`L` bytes that follow the CRLF CRLF header terminator on the wire,
however the bytes are split across `on_data` deliveries. -/
theorem c3_body_exact (cb : HttpCallbacks)
    (fr : HttpRequestParsed → List Nat → Bool → RouterResult)
    (hcb : routerTame cb) (hOR : cb.onRequest = some fr)
    (r : WfReq) (L : Nat) (hwr : wfReq r = true)
    (hCL : parseContentLengthE (parsedHeaders r.rawLines) = .ok (some L))
    (_hL : 0 < L) (xs : List (List Nat)) (hflat : xs.flatten = streamOf [r]) :
    ∃ conn' evs, runChunks cb initialHttpConn xs = some (conn', evs) ∧
      bodiesOf evs = [((streamOf [r]).drop (headerBytes r).length).take L] := by
  have hwf1 : ∀ r2 ∈ [r], wfReq r2 = true := by
    intro r2 h2
    rw [List.mem_singleton] at h2
    rw [h2]
    exact hwr
  have hmid1 : ∀ r2 ∈ ([r] : List WfReq).dropLast, hasCloseHdr r2 = false := by
    intro r2 h2
    simp at h2
  have hLbody : L = r.body.length := by
    obtain ⟨o, ho, hv⟩ := cl_of_wf hwr
    rw [hCL] at ho
    cases ho
    simpa using hv
  obtain ⟨conn', hRC, -⟩ := server_trace cb hcb [r] xs hwf1 hmid1 hflat
  refine ⟨conn', _, hRC, ?_⟩
  rw [bodiesOf_append, bodiesOf_trace cb fr hOR [r], bodiesOf_tail,
    List.append_nil, List.map_singleton]
  have hdrop : (streamOf [r]).drop (headerBytes r).length = r.body := by
    rw [streamOf_single, reqBytes, List.drop_left]
  rw [hdrop, hLbody, List.take_length]

/-- C10: with no `on_request` callback installed, the engine itself
answers a complete well-formed request with the hardcoded
`501 Not Implemented` response (which carries `Content-Length: 0`) and
keeps the connection open when the request did not ask to close. -/
theorem c10_no_router_501_keepalive (cb : HttpCallbacks)
    (hOR : cb.onRequest = none) (r : WfReq) (hwr : wfReq r = true)
    (hnc : hasCloseHdr r = false) (xs : List (List Nat))
    (hflat : xs.flatten = streamOf [r]) :
    ∃ conn', runChunks cb initialHttpConn xs = some (conn', [.send res501]) ∧
      conn'.closed = false ∧
      containsSub (bytesOf "501 Not Implemented") res501 = true ∧
      containsSub (bytesOf "Content-Length: 0") res501 = true := by
  have hcb : routerTame cb := by
    intro f hf
    rw [hOR] at hf
    cases hf
  have hwf1 : ∀ r2 ∈ [r], wfReq r2 = true := by
    intro r2 h2
    rw [List.mem_singleton] at h2
    rw [h2]
    exact hwr
  have hmid1 : ∀ r2 ∈ ([r] : List WfReq).dropLast, hasCloseHdr r2 = false := by
    intro r2 h2
    simp at h2
  obtain ⟨conn', hRC, hiff⟩ := server_trace cb hcb [r] xs hwf1 hmid1 hflat
  have htr : (([r].map (evsFor cb)).flatten ++
      (if lastClose [r] then [HttpEv.close] else [])) = [HttpEv.send res501] := by
    simp [evsFor, hOR, lastClose, hnc]
  rw [htr] at hRC
  have hlc : lastClose [r] = false := by
    simp [lastClose, hnc]
  refine ⟨conn', hRC, ?_, by decide, by decide⟩
  rw [hlc] at hiff
  cases hcl : conn'.closed
  · rfl
  · exact absurd (hiff.mp hcl) (by simp)

/-! ## Header overflow: the 431 path -/

/-- `try_parse_request` on a buffer with no header terminator leaves
the connection untouched and keeps reading. -/
theorem engine_noterm (cb : HttpCallbacks) (F : Nat) (hF : 1 ≤ F) (conn : HttpConn)
    (hidx : indexOfSub CRLF4 (cstr conn.headersBuff) = none) :
    engineGo cb F .tryParse conn = some (conn, [], true) := by
  match F, hF with
  | F2 + 1, _ =>
    simp only [engineGo, hidx]

/-- A pattern absent from a list is absent from each of its prefixes. -/
theorem indexOfSub_take_none {p x : List Nat} (h : ∀ j, ¬ MatchAt j p x) (m : Nat) :
    indexOfSub p (x.take m) = none := by
  rw [indexOfSub_eq_none_iff]
  intro j hm
  apply h j
  unfold MatchAt at hm ⊢
  rw [List.drop_take] at hm
  exact hm.trans (List.take_prefix _ _)

/-- The consumption loop while the headers never terminate: bytes pile
up in the headers buffer until its space is exhausted, at which point
the engine sends the hardcoded 431 response and closes. -/
theorem onData_overflow (cb : HttpCallbacks) {x : List Nat}
    (hnz : ∀ ch ∈ x, ch ≠ 0) (hnc : ∀ j, ¬ MatchAt j CRLF4 x) :
    ∀ (fuel : Nat) (y : List Nat) (c : Nat),
      y.length + 1 ≤ fuel → c ≤ 8191 →
      y = (x.drop c).take y.length → c + y.length ≤ x.length →
      (c + y.length ≤ 8191 →
        onDataGo cb fuel { initialHttpConn with headersBuff := x.take c } y =
          some ({ initialHttpConn with headersBuff := x.take (c + y.length) }, [])) ∧
      (8192 ≤ c + y.length →
        ∃ conn', onDataGo cb fuel { initialHttpConn with headersBuff := x.take c } y =
          some (conn', [.send res431, .close]) ∧ conn'.closed = true) := by
  intro fuel
  induction fuel with
  | zero =>
    intro y c hf _ _ _
    omega
  | succ f ihf =>
    intro y c hf hc81 hy hbound
    cases y with
    | nil =>
      constructor
      · intro _
        simp [onDataGo]
      · intro habs
        simp only [List.length_nil] at habs
        omega
    | cons y0 yt =>
      have hbl : ((x.take c).length) = c := by
        simp only [List.length_take]
        omega
      have hstv : initialHttpConn.state = .readingHeaders := rfl
      have hspv : HEADERS_BUFF_SIZE - (x.take c).length - 1 = 8191 - c := by
        rw [hbl]
        simp only [HEADERS_BUFF_SIZE]
        omega
      by_cases hc : c = 8191
      · -- remaining space is zero: 431 and close
        subst hc
        have hsp0 : (8191 : Nat) - 8191 = 0 := by omega
        constructor
        · intro habs
          simp only [List.length_cons] at habs
          omega
        · intro _
          refine ⟨{ initialHttpConn with headersBuff := x.take 8191, closed := true },
            ?_, rfl⟩
          simp [onDataGo, hstv, hspv, hsp0, closeConn, initialHttpConn, HEADERS_BUFF_SIZE,
            (show (8191 : Nat) ⊓ x.length = 8191 from by omega)]
      · have hclt : c < 8191 := by omega
        set n := min (y0 :: yt).length (8191 - c) with hn
        have hnle : n ≤ (y0 :: yt).length := min_le_left _ _
        have hnsp : n ≤ 8191 - c := min_le_right _ _
        have hn1 : 1 ≤ n := by
          rw [hn]
          have : 1 ≤ (y0 :: yt).length := by simp
          omega
        have htake : (y0 :: yt).take n = (x.drop c).take n := by
          conv_lhs => rw [hy]
          rw [List.take_take]
          congr 1
          omega
        have hbuf : x.take c ++ (y0 :: yt).take n = x.take (c + n) := by
          rw [htake]
          exact (List.take_add _ c n).symm
        have hc1 : ({ state := .readingHeaders,
                      headersBuff := x.take c ++ (y0 :: yt).take n,
                      headersLen := initialHttpConn.headersLen,
                      bodySink := initialHttpConn.bodySink,
                      bodyInFile := initialHttpConn.bodyInFile,
                      bodyExpected := initialHttpConn.bodyExpected,
                      bodyReceived := initialHttpConn.bodyReceived,
                      parsedRequest := initialHttpConn.parsedRequest,
                      closed := initialHttpConn.closed } : HttpConn) =
            { initialHttpConn with headersBuff := x.take (c + n) } := by
          simp only [initialHttpConn]
          rw [hbuf]
        have hlit :
            (({ state := HttpConnState.readingHeaders,
                 headersBuff := x.take (c + n),
                 headersLen := initialHttpConn.headersLen,
                 bodySink := initialHttpConn.bodySink,
                 bodyInFile := initialHttpConn.bodyInFile,
                 bodyExpected := initialHttpConn.bodyExpected,
                 bodyReceived := initialHttpConn.bodyReceived,
                 parsedRequest := initialHttpConn.parsedRequest,
                 closed := initialHttpConn.closed } : HttpConn)) =
            { initialHttpConn with headersBuff := x.take (c + n) } := rfl
        have hcstr : cstr (((({ initialHttpConn with headersBuff := x.take (c + n) } :
            HttpConn))).headersBuff) = x.take (c + n) := by
          refine cstr_eq_self ?_
          intro ch hch
          exact hnz ch (List.mem_of_mem_take hch)
        have hidx : indexOfSub CRLF4 (cstr (((({ initialHttpConn with
            headersBuff := x.take (c + n) } : HttpConn))).headersBuff)) = none := by
          rw [hcstr]
          exact indexOfSub_take_none hnc (c + n)
        have hfe1 : 1 ≤ engineFuel { initialHttpConn with headersBuff := x.take (c + n) } := by
          simp [engineFuel]
        have hEng : engineGo cb
            (engineFuel
              ({ state := HttpConnState.readingHeaders,
                 headersBuff := x.take (c + n),
                 headersLen := initialHttpConn.headersLen,
                 bodySink := initialHttpConn.bodySink,
                 bodyInFile := initialHttpConn.bodyInFile,
                 bodyExpected := initialHttpConn.bodyExpected,
                 bodyReceived := initialHttpConn.bodyReceived,
                 parsedRequest := initialHttpConn.parsedRequest,
                 closed := initialHttpConn.closed } : HttpConn))
            .tryParse
            ({ state := HttpConnState.readingHeaders,
                 headersBuff := x.take (c + n),
                 headersLen := initialHttpConn.headersLen,
                 bodySink := initialHttpConn.bodySink,
                 bodyInFile := initialHttpConn.bodyInFile,
                 bodyExpected := initialHttpConn.bodyExpected,
                 bodyReceived := initialHttpConn.bodyReceived,
                 parsedRequest := initialHttpConn.parsedRequest,
                 closed := initialHttpConn.closed } : HttpConn) =
            some
            (({ state := HttpConnState.readingHeaders,
                 headersBuff := x.take (c + n),
                 headersLen := initialHttpConn.headersLen,
                 bodySink := initialHttpConn.bodySink,
                 bodyInFile := initialHttpConn.bodyInFile,
                 bodyExpected := initialHttpConn.bodyExpected,
                 bodyReceived := initialHttpConn.bodyReceived,
                 parsedRequest := initialHttpConn.parsedRequest,
                 closed := initialHttpConn.closed } : HttpConn), [], true) := by
          rw [hlit]
          exact engine_noterm cb _ hfe1 _ hidx
        have hspne : ¬ (8191 - c = 0) := by omega
        have hstep : onDataGo cb (f + 1)
            { initialHttpConn with headersBuff := x.take c } (y0 :: yt) =
            (match onDataGo cb f
              ({ state := HttpConnState.readingHeaders,
                 headersBuff := x.take (c + n),
                 headersLen := initialHttpConn.headersLen,
                 bodySink := initialHttpConn.bodySink,
                 bodyInFile := initialHttpConn.bodyInFile,
                 bodyExpected := initialHttpConn.bodyExpected,
                 bodyReceived := initialHttpConn.bodyReceived,
                 parsedRequest := initialHttpConn.parsedRequest,
                 closed := initialHttpConn.closed } : HttpConn)
              ((y0 :: yt).drop n) with
             | none => none
             | some r2 => some (r2.1, [] ++ r2.2)) := by
          simp only [onDataGo, List.isEmpty_cons, Bool.false_eq_true, if_false,
            hstv, hspv, ← hn, hc1, hEng, hspne, if_true]
        have hlendrop : ((y0 :: yt).drop n).length = (y0 :: yt).length - n :=
          List.length_drop _ _
        have hy2 : (y0 :: yt).drop n = (x.drop (c + n)).take ((y0 :: yt).drop n).length := by
          rw [hlendrop]
          exact drop_of_take_drop hy
        have ⟨ih1, ih2⟩ := ihf ((y0 :: yt).drop n) (c + n)
          (by rw [hlendrop]; omega) (by omega) hy2 (by rw [hlendrop]; omega)
        rw [hlendrop] at ih1 ih2
        constructor
        · intro hle
          have hnfull : n = (y0 :: yt).length := by
            rw [hn]
            omega
          rw [hstep, hlit, ih1 (by omega)]
          rw [show c + n + ((y0 :: yt).length - n) = c + (y0 :: yt).length from by omega]
          rfl
        · intro hge
          obtain ⟨conn', hOD, hcl'⟩ := ih2 (by omega)
          rw [hstep, hlit, hOD]
          exact ⟨conn', rfl, hcl'⟩

/-- Chunked delivery while headers never terminate: the 431 fires as
soon as total delivery reaches the buffer capacity. -/
theorem runChunks_overflow (cb : HttpCallbacks) {x : List Nat}
    (hnz : ∀ ch ∈ x, ch ≠ 0) (hnc : ∀ j, ¬ MatchAt j CRLF4 x) :
    ∀ (xs : List (List Nat)) (c : Nat),
      c ≤ 8191 → xs.flatten = (x.drop c).take xs.flatten.length →
      c + xs.flatten.length ≤ x.length →
      (c + xs.flatten.length ≤ 8191 →
        runChunks cb { initialHttpConn with headersBuff := x.take c } xs =
          some ({ initialHttpConn with headersBuff := x.take (c + xs.flatten.length) }, [])) ∧
      (8192 ≤ c + xs.flatten.length →
        ∃ conn', runChunks cb { initialHttpConn with headersBuff := x.take c } xs =
          some (conn', [.send res431, .close]) ∧ conn'.closed = true) := by
  intro xs
  induction xs with
  | nil =>
    intro c hc81 _ _
    constructor
    · intro _
      simp [runChunks]
    · intro habs
      simp only [List.flatten_nil, List.length_nil] at habs
      omega
  | cons y ys ih =>
    intro c hc81 hflat hbound
    have hfl : ((y :: ys).flatten : List Nat) = y ++ ys.flatten := List.flatten_cons
    have hflen : ((y :: ys).flatten).length = y.length + ys.flatten.length := by
      rw [hfl, List.length_append]
    have hypre : y = (x.drop c).take y.length := by
      conv_lhs => rw [← List.take_left y ys.flatten, ← hfl, hflat]
      rw [List.take_take]
      congr 1
      rw [hflen]
      omega
    have hclosed : ((({ initialHttpConn with headersBuff := x.take c } :
        HttpConn)).closed = true) ↔ False :=
      ⟨fun h => Bool.noConfusion h, False.elim⟩
    rw [hflen] at hbound
    by_cases h1 : c + y.length ≤ 8191
    · -- this segment still fits: buffer it whole and recurse
      have hOD := (onData_overflow cb hnz hnc (2 * y.length + 2) y c (by omega) hc81
        hypre (by omega)).1 h1
      have hysflat : ys.flatten = (x.drop (c + y.length)).take ys.flatten.length := by
        have hdt : ((y :: ys).flatten).drop y.length =
            (x.drop (c + y.length)).take ((y :: ys).flatten.length - y.length) :=
          drop_of_take_drop hflat
        rw [hflen, hfl, List.drop_left] at hdt
        conv_lhs => rw [hdt]
        congr 1
        omega
      have ⟨ih1, ih2⟩ := ih (c + y.length) h1 hysflat (by omega)
      constructor
      · intro hle
        rw [hflen] at hle ⊢
        have h2 := ih1 (by omega)
        simp only [runChunks, hclosed, Bool.false_eq_true, if_false,
          show http_on_data cb { initialHttpConn with headersBuff := x.take c } y =
            onDataGo cb (2 * y.length + 2)
              { initialHttpConn with headersBuff := x.take c } y from rfl,
          hOD, h2, List.nil_append]
        rw [show c + y.length + ys.flatten.length = c + (y.length + ys.flatten.length)
          from by omega]
      · intro hge
        rw [hflen] at hge
        obtain ⟨conn', hRC, hcl'⟩ := ih2 (by omega)
        refine ⟨conn', ?_, hcl'⟩
        simp only [runChunks, hclosed, Bool.false_eq_true, if_false,
          show http_on_data cb { initialHttpConn with headersBuff := x.take c } y =
            onDataGo cb (2 * y.length + 2)
              { initialHttpConn with headersBuff := x.take c } y from rfl,
          hOD, hRC, List.nil_append]
    · -- the buffer overflows inside this very segment
      have hge1 : 8192 ≤ c + y.length := by omega
      obtain ⟨conn', hOD, hcl'⟩ := (onData_overflow cb hnz hnc (2 * y.length + 2) y c
        (by omega) hc81 hypre (by omega)).2 hge1
      constructor
      · intro habs
        rw [hflen] at habs
        omega
      · intro _
        refine ⟨conn', ?_, hcl'⟩
        simp only [runChunks, hclosed, Bool.false_eq_true, if_false,
          show http_on_data cb { initialHttpConn with headersBuff := x.take c } y =
            onDataGo cb (2 * y.length + 2)
              { initialHttpConn with headersBuff := x.take c } y from rfl,
          hOD, runChunks_closed cb conn' ys hcl', List.append_nil]

/-- C4: an input stream whose header block reaches the 8192-byte buffer
without ever containing the CRLF CRLF terminator never gets a 200
response: the engine emits exactly one hardcoded 431 response (which
carries `Connection: close` and no status 200) and closes the
connection. -/
theorem c4_header_overflow_431 (cb : HttpCallbacks) (x : List Nat)
    (xs : List (List Nat)) (hnz : ∀ ch ∈ x, ch ≠ 0)
    (hterm : containsSub CRLF4 x = false) (hlen : 8192 ≤ x.length)
    (hflat : xs.flatten = x) :
    ∃ conn', runChunks cb initialHttpConn xs = some (conn', [.send res431, .close]) ∧
      conn'.closed = true ∧
      sendsOf [HttpEv.send res431, HttpEv.close] = [res431] ∧
      containsSub (bytesOf "431 Request Header Fields Too Large") res431 = true ∧
      containsSub (bytesOf "Connection: close") res431 = true ∧
      containsSub (bytesOf "200") res431 = false := by
  have hidxn : indexOfSub CRLF4 x = none := by
    cases h : indexOfSub CRLF4 x with
    | none => rfl
    | some i =>
      rw [containsSub, h] at hterm
      cases hterm
  have hnc : ∀ j, ¬ MatchAt j CRLF4 x := indexOfSub_eq_none_iff.mp hidxn
  have h0 : ({ initialHttpConn with headersBuff := x.take 0 } : HttpConn) =
      initialHttpConn := rfl
  obtain ⟨conn', hRC, hcl'⟩ := (runChunks_overflow cb hnz hnc xs 0 (by omega)
    (by rw [hflat, List.drop_zero, List.take_length])
    (by rw [hflat]; omega)).2 (by rw [hflat]; omega)
  rw [h0] at hRC
  exact ⟨conn', hRC, hcl', rfl, by decide, by decide, by decide⟩

/-- C7: `is_valid_uri` accepts a request-target exactly when it starts
with `/` and every subsequent octet is an unreserved character, one of
the accepted sub-delimiters, one of `/ : @`, or starts a `%HH` triple
of hex digits — the spec-side predicate `uriSpecValid`, stated from the
claim's wording; and a request line whose URI fails the predicate makes
the whole request `BAD_REQUEST`. -/
theorem c7_uri_acceptance (u : List Nat) (hnz : ∀ c ∈ u, c ≠ 0)
    (hns : 32 ∉ u) (hnlf : 10 ∉ u) (w : List Nat) :
    is_valid_uri u = uriSpecValid u ∧
    (uriSpecValid u = false →
      http_parse_request ((bytesOf "GET" ++ 32 :: (u ++ 32 :: bytesOf "HTTP/1.1")) ++
        13 :: 10 :: w) = .error .badRequest) := by
  refine ⟨is_valid_uri_eq_spec hnz, ?_⟩
  intro hbad
  set rl : List Nat := bytesOf "GET" ++ 32 :: (u ++ 32 :: bytesOf "HTTP/1.1") with hrl
  have hGETnz : ∀ c ∈ bytesOf "GET", c ≠ 0 := by decide
  have hHTTPnz : ∀ c ∈ bytesOf "HTTP/1.1", c ≠ 0 := by decide
  have hGETnlf : (10 : Nat) ∉ bytesOf "GET" := by decide
  have hHTTPnlf : (10 : Nat) ∉ bytesOf "HTTP/1.1" := by decide
  have hrlnz : ∀ c ∈ rl, c ≠ 0 := by
    intro c hc
    rw [hrl] at hc
    rcases List.mem_append.mp hc with h1 | h2
    · exact hGETnz c h1
    · rcases List.mem_cons.mp h2 with h3 | h4
      · omega
      · rcases List.mem_append.mp h4 with h5 | h6
        · exact hnz c h5
        · rcases List.mem_cons.mp h6 with h7 | h8
          · omega
          · exact hHTTPnz c h8
  have hrlnlf : 10 ∉ rl := by
    rw [hrl]
    intro hc
    rcases List.mem_append.mp hc with h1 | h2
    · exact hGETnlf h1
    · rcases List.mem_cons.mp h2 with h3 | h4
      · omega
      · rcases List.mem_append.mp h4 with h5 | h6
        · exact hnlf h5
        · rcases List.mem_cons.mp h6 with h7 | h8
          · omega
          · exact hHTTPnlf h8
  have hcstr : cstr (rl ++ 13 :: 10 :: w) = rl ++ 13 :: 10 :: cstr w := by
    rw [show rl ++ 13 :: 10 :: w = (rl ++ [13, 10]) ++ w from by simp]
    rw [cstr_append (by
      intro c hc
      rcases List.mem_append.mp hc with h1 | h2
      · exact hrlnz c h1
      · simp at h2
        omega)]
    simp
  have hidx : indexOfSub CRLF (cstr (rl ++ 13 :: 10 :: w)) = some rl.length := by
    rw [hcstr]
    exact first_crlf_at (containsSub_crlf_eq_false_of_not_mem hrlnlf) _
  have htake : (cstr (rl ++ 13 :: 10 :: w)).take rl.length = rl := by
    rw [hcstr]
    exact List.take_left _ _
  have ha : idxOf 32 rl = some (bytesOf "GET").length := by
    rw [hrl]
    exact idxOf_append_first (by decide) _
  have hmtake : rl.take (bytesOf "GET").length = bytesOf "GET" := by
    rw [hrl]
    exact List.take_left _ _
  have hmdrop : rl.drop ((bytesOf "GET").length + 1) = u ++ 32 :: bytesOf "HTTP/1.1" := by
    rw [hrl]
    exact drop_append_cons _ 32 _
  have hb2 : idxOf 32 (u ++ 32 :: bytesOf "HTTP/1.1") = some u.length :=
    idxOf_append_first hns _
  have hutake : (u ++ 32 :: bytesOf "HTTP/1.1").take u.length = u := List.take_left _ _
  have hbadv : is_valid_uri u = false := by
    rw [is_valid_uri_eq_spec hnz, hbad]
  unfold http_parse_request
  simp only [hidx, htake, ha, hmtake, hmdrop, hb2, hutake]
  rw [if_neg (by decide), if_pos (by rw [hbadv]; simp)]

/-! ## Content-Length parsing (C5) and outbound response headers (C6) -/

/-- The claim's acceptance condition for a `Content-Length` value,
stated from its wording: a non-negative decimal integer with no
trailing garbage — i.e. a non-empty all-digit string. -/
def claimCLAccepts (v : List Nat) : Bool := !v.isEmpty && v.all isdigitB

/-- C5 (amended): what `try_parse_request` actually does with a
`Content-Length` header.  Absence yields `body_expected = 0`; a present
value is accepted exactly when `strtol` consumes the entire value and
the (clamped) result is non-negative — which admits the empty value
(accepted as 0), an explicit leading `+` sign, and values above
`LONG_MAX` (clamped); everything else is `BAD_REQUEST`. -/
theorem c5_content_length_parsing (hs : List (List Nat × List Nat)) :
    (http_get_header_value hs (bytesOf "Content-Length") = none →
      parseContentLengthE hs = .ok none) ∧
    (∀ v, http_get_header_value hs (bytesOf "Content-Length") = some v →
      parseContentLengthE hs =
        (if (strtol10 v).2 = v.length ∧ 0 ≤ (strtol10 v).1 then
          .ok (some (strtol10 v).1.toNat) else .error ())) := by
  constructor
  · intro h
    simp [parseContentLengthE, h]
  · intro v hv
    simp only [parseContentLengthE, hv]
    by_cases h1 : (strtol10 v).2 = v.length ∧ 0 ≤ (strtol10 v).1
    · rw [if_pos h1, if_neg (by push_neg; exact ⟨h1.1, by omega⟩)]
    · rw [if_neg h1]
      rw [if_pos (by
        rcases not_and_or.mp h1 with h | h
        · exact Or.inl h
        · exact Or.inr (by omega))]

/-- C5 (counterexample): the engine's `Content-Length` handling differs
from the claim's "non-negative decimal integer" acceptance: the empty
value — which the claim's condition rejects as garbage — is accepted
as 0 by the `strtol`-based check, as is an explicit `+` sign. -/
theorem c5_strtol_vs_claim :
    claimCLAccepts [] = false ∧
    parseContentLengthE
      (parsedHeaders [bytesOf "Host: a", bytesOf "Content-Length:"]) = .ok (some 0) ∧
    claimCLAccepts (bytesOf "+7") = false ∧
    parseContentLengthE (parsedHeaders [bytesOf "Content-Length: +7"]) =
      .ok (some 7) := by
  refine ⟨by decide, by rfl, by decide, by rfl⟩

/-- Decimal digits of a number, as response bytes (`%d` / `%ld`). -/
def natToDecBytes (n : Nat) : List Nat := bytesOf (Nat.repr n)

/-- The error page body built by `send_error_response`
(http_router.c): `<html><head><title>%d %s</title></head><body><h1>%d
%s</h1></body></html>` (snprintf truncation at 256 bytes is not
modelled; the router's arguments stay far below it). -/
def send_error_response_body (code : Nat) (msg : List Nat) : List Nat :=
  bytesOf "<html><head><title>" ++ natToDecBytes code ++ 32 :: msg ++
  bytesOf "</title></head><body><h1>" ++ natToDecBytes code ++ 32 :: msg ++
  bytesOf "</h1></body></html>"

/-- The full response built by `send_error_response` (http_router.c),
with the format string split at the header names. -/
def send_error_response (code : Nat) (msg : List Nat) : List Nat :=
  bytesOf "HTTP/1.1 " ++ natToDecBytes code ++ 32 :: msg ++
  bytesOf "\r\nContent-Type: text/html\r\n" ++ bytesOf "Content-Length: " ++
  natToDecBytes (send_error_response_body code msg).length ++
  bytesOf "\r\n" ++ bytesOf "Connection: close" ++ bytesOf "\r\n\r\n" ++
  send_error_response_body code msg

theorem containsSub_of_matchAt {p l : List Nat} {j : Nat} (h : MatchAt j p l) :
    containsSub p l = true := by
  rw [containsSub]
  cases hi : indexOfSub p l with
  | some i => rfl
  | none => exact absurd h (indexOfSub_eq_none_iff.mp hi j)

/-- A pattern occurring in the right part of an append occurs in the
whole. -/
theorem containsSub_append_right {p b : List Nat} (h : containsSub p b = true)
    (a : List Nat) : containsSub p (a ++ b) = true := by
  rw [containsSub] at h
  cases hi : indexOfSub p b with
  | none =>
    rw [hi] at h
    cases h
  | some j =>
    have hm : MatchAt j p b := (indexOfSub_eq_some_iff.mp hi).1
    refine containsSub_of_matchAt (j := a.length + j) ?_
    unfold MatchAt at hm ⊢
    rw [List.drop_append]
    exact hm

theorem containsSub_cons_right {p t : List Nat} (h : containsSub p t = true)
    (x : Nat) : containsSub p (x :: t) = true := by
  rw [containsSub] at h
  cases hi : indexOfSub p t with
  | none =>
    rw [hi] at h
    cases h
  | some j =>
    have hm : MatchAt j p t := (indexOfSub_eq_some_iff.mp hi).1
    exact containsSub_of_matchAt (j := j + 1) (matchAt_succ_cons.mpr hm)

theorem containsSub_self_append (p b : List Nat) : containsSub p (p ++ b) = true :=
  containsSub_of_matchAt (j := 0)
    (by unfold MatchAt; simp)

/-- C6 (amended): the router's `send_error_response` pages (the 403,
404, 405 and router-400 responses) always carry both a `Content-Length`
and a `Connection: close` header, and the engine's hardcoded 501 reply
carries `Content-Length`; but the engine's own hardcoded error
responses (431, default 400, default 500) carry `Connection: close`
without any `Content-Length`, so not every outbound response includes
`Content-Length`. -/
theorem c6_response_headers (code : Nat) (msg : List Nat) :
    containsSub (bytesOf "Content-Length: ") (send_error_response code msg) = true ∧
    containsSub (bytesOf "Connection: close") (send_error_response code msg) = true ∧
    containsSub (bytesOf "Content-Length: ") res501 = true ∧
    containsSub (bytesOf "Connection: close") res431 = true ∧
    containsSub (bytesOf "Connection: close") res400 = true ∧
    containsSub (bytesOf "Connection: close") res500 = true ∧
    containsSub (bytesOf "Content-Length") res431 = false ∧
    containsSub (bytesOf "Content-Length") res400 = false ∧
    containsSub (bytesOf "Content-Length") res500 = false := by
  refine ⟨?_, ?_, by decide, by decide, by decide, by decide, by decide, by decide,
    by decide⟩
  · have h1 : send_error_response code msg =
        (bytesOf "HTTP/1.1 " ++ natToDecBytes code ++ 32 :: msg ++
          bytesOf "\r\nContent-Type: text/html\r\n") ++
        (bytesOf "Content-Length: " ++
          (natToDecBytes (send_error_response_body code msg).length ++
            bytesOf "\r\n" ++ bytesOf "Connection: close" ++ bytesOf "\r\n\r\n" ++
            send_error_response_body code msg)) := by
      unfold send_error_response
      simp [List.append_assoc]
    rw [h1]
    exact containsSub_append_right (containsSub_self_append _ _) _
  · have h1 : send_error_response code msg =
        (bytesOf "HTTP/1.1 " ++ natToDecBytes code ++ 32 :: msg ++
          bytesOf "\r\nContent-Type: text/html\r\n" ++ bytesOf "Content-Length: " ++
          natToDecBytes (send_error_response_body code msg).length ++
          bytesOf "\r\n") ++
        (bytesOf "Connection: close" ++
          (bytesOf "\r\n\r\n" ++ send_error_response_body code msg)) := by
      unfold send_error_response
      simp [List.append_assoc]
    rw [h1]
    exact containsSub_append_right (containsSub_self_append _ _) _

/-- C6 (counterexample): the engine-emitted error responses 431,
default 400 and default 500 carry no `Content-Length` header at all
(they do ask to close the connection), and the 501 reply carries no
`Connection: close`; the claim's "every error response carries both,
and every response carries `Content-Length`" fails for them. -/
theorem c6_engine_responses_lack_content_length :
    containsSub (bytesOf "Content-Length") res431 = false ∧
    containsSub (bytesOf "Content-Length") res400 = false ∧
    containsSub (bytesOf "Content-Length") res500 = false ∧
    containsSub (bytesOf "Connection") res501 = false ∧
    containsSub (bytesOf "431 Request Header Fields Too Large") res431 = true ∧
    containsSub (bytesOf "Connection: close") res431 = true := by
  refine ⟨by decide, by decide, by decide, by decide, by decide, by decide⟩

/-! ## tcp_server.c : the LRU connection list -/

/-- The TCP layer state relevant to connection lifetime: the doubly
linked LRU list of open connections (modelled as a Lean list with the
head first, i.e. least recently active first; each entry is the
connection id paired with its `last_activity` timestamp), the set of
ids whose `is_closed` flag is set, and the log of `on_close` hook
invocations in order. -/
structure TcpSt where
  conns : List (Nat × Nat)
  closedIds : List Nat
  closeLog : List Nat
  deriving DecidableEq, Repr

/-- `tcp_server_close_conn` (tcp_server.c, lines 194-216): guarded by
the `is_closed` flag; the first call marks the connection closed,
unlinks it from the LRU list (the pointer surgery on the doubly linked
list removes exactly the node, which the list model renders as a
filter on the id), and invokes the `on_close` hook once. -/
def tcp_server_close_conn (s : TcpSt) (cid : Nat) : TcpSt :=
  if cid ∈ s.closedIds then s
  else { conns := s.conns.filter (fun c => c.1 ≠ cid),
         closedIds := cid :: s.closedIds,
         closeLog := s.closeLog ++ [cid] }

/-- `move_conn_to_tail` (tcp_server.c, lines 373-383): refresh
`last_activity` to the current time and move the node to the list
tail.  (When the node already is the tail the C code only refreshes the
timestamp, which coincides with unlink-and-append.) -/
def move_conn_to_tail (s : TcpSt) (cid now : Nat) : TcpSt :=
  if s.conns.any (fun c => c.1 = cid) then
    { s with conns := s.conns.filter (fun c => c.1 ≠ cid) ++ [(cid, now)] }
  else s

/-- The walk of `close_inactive_connections` (tcp_server.c, lines
428-440): advance from the head, closing while the head is stale, and
break at the first connection still within the window. -/
def closeInactiveGo (now timeout : Nat) : List (Nat × Nat) → TcpSt → TcpSt
  | [], s => s
  | c :: rest, s =>
    if now - c.2 < timeout then s
    else closeInactiveGo now timeout rest (tcp_server_close_conn s c.1)

/-- `close_inactive_connections` walks the list as found at entry. -/
def close_inactive_connections (now timeout : Nat) (s : TcpSt) : TcpSt :=
  closeInactiveGo now timeout s.conns s

/-- The invariant that the open connections are exactly the listed
ones: no listed id has its closed flag set, and ids occur at most
once. -/
def TcpInv (s : TcpSt) : Prop :=
  (s.conns.map Prod.fst).Nodup ∧ ∀ c ∈ s.conns, c.1 ∉ s.closedIds

theorem close_conn_conns_of_open {s : TcpSt} {cid : Nat} (h : cid ∉ s.closedIds) :
    (tcp_server_close_conn s cid).conns = s.conns.filter (fun c => c.1 ≠ cid) := by
  rw [tcp_server_close_conn, if_neg h]

theorem close_conn_closedIds_of_open {s : TcpSt} {cid : Nat} (h : cid ∉ s.closedIds) :
    (tcp_server_close_conn s cid).closedIds = cid :: s.closedIds := by
  rw [tcp_server_close_conn, if_neg h]

/-- Closing the head of the walk preserves the invariant and removes
exactly the head from the list. -/
theorem close_head_step {c : Nat × Nat} {rest : List (Nat × Nat)} {s : TcpSt}
    (hconns : s.conns = c :: rest) (hinv : TcpInv s) :
    (tcp_server_close_conn s c.1).conns = rest ∧
    TcpInv (tcp_server_close_conn s c.1) ∧
    c.1 ∈ (tcp_server_close_conn s c.1).closedIds := by
  obtain ⟨hnd, hopen⟩ := hinv
  have hc1 : c.1 ∉ s.closedIds := hopen c (by rw [hconns]; exact List.mem_cons_self _ _)
  have hrest : ∀ c2 ∈ rest, c2.1 ≠ c.1 := by
    intro c2 h2
    rw [hconns] at hnd
    simp only [List.map_cons, List.nodup_cons] at hnd
    intro he
    exact hnd.1 (he ▸ List.mem_map_of_mem Prod.fst h2)
  have hfil : s.conns.filter (fun c2 => c2.1 ≠ c.1) = rest := by
    rw [hconns]
    rw [List.filter_cons]
    rw [if_neg (by simp)]
    exact List.filter_eq_self.mpr (fun c2 h2 => by simpa using hrest c2 h2)
  refine ⟨by rw [close_conn_conns_of_open hc1, hfil], ⟨?_, ?_⟩, ?_⟩
  · rw [close_conn_conns_of_open hc1, hfil]
    rw [hconns] at hnd
    exact (List.nodup_cons.mp hnd).2
  · intro c2 h2
    rw [close_conn_conns_of_open hc1, hfil] at h2
    rw [close_conn_closedIds_of_open hc1]
    intro hmem
    rcases List.mem_cons.mp hmem with he | htl
    · exact hrest c2 h2 he
    · exact hopen c2 (by rw [hconns]; exact List.mem_cons_of_mem _ h2) htl
  · rw [close_conn_closedIds_of_open hc1]
    exact List.mem_cons_self _ _

/-- The eviction walk, on a sorted list of open connections: afterwards
every connection still listed is within the inactivity window, and
every stale connection has been marked closed. -/
theorem closeInactiveGo_spec (now timeout : Nat) :
    ∀ (l : List (Nat × Nat)) (s : TcpSt), s.conns = l → TcpInv s →
      l.Pairwise (fun a b => a.2 ≤ b.2) →
      (∀ c ∈ (closeInactiveGo now timeout l s).conns, now - c.2 < timeout) ∧
      (∀ c ∈ l, timeout ≤ now - c.2 →
        c.1 ∈ (closeInactiveGo now timeout l s).closedIds) ∧
      TcpInv (closeInactiveGo now timeout l s) := by
  intro l
  induction l with
  | nil =>
    intro s hc hinv _
    refine ⟨?_, ?_, hinv⟩
    · intro c hmem
      rw [closeInactiveGo] at hmem
      rw [hc] at hmem
      cases hmem
    · intro c hmem
      cases hmem
  | cons c rest ih =>
    intro s hc hinv hsorted
    by_cases hfresh : now - c.2 < timeout
    · have hgo : closeInactiveGo now timeout (c :: rest) s = s := by
        rw [closeInactiveGo, if_pos hfresh]
      rw [hgo]
      refine ⟨?_, ?_, hinv⟩
      · intro c2 h2
        rw [hc] at h2
        rcases List.mem_cons.mp h2 with he | htl
        · rw [he]
          exact hfresh
        · have hle := (List.pairwise_cons.mp hsorted).1 c2 htl
          omega
      · intro c2 h2 hstale
        exfalso
        rcases List.mem_cons.mp h2 with he | htl
        · rw [he] at hstale
          omega
        · have hle := (List.pairwise_cons.mp hsorted).1 c2 htl
          omega
    · have hgo : closeInactiveGo now timeout (c :: rest) s =
          closeInactiveGo now timeout rest (tcp_server_close_conn s c.1) := by
        rw [closeInactiveGo, if_neg hfresh]
      obtain ⟨hcs, hinv2, hmarked⟩ := close_head_step hc hinv
      have hsorted2 := (List.pairwise_cons.mp hsorted).2
      obtain ⟨ih1, ih2, ih3⟩ := ih (tcp_server_close_conn s c.1) hcs hinv2 hsorted2
      rw [hgo]
      refine ⟨ih1, ?_, ih3⟩
      intro c2 h2 hstale
      rcases List.mem_cons.mp h2 with he | htl
      · -- the closed flag, once set, is never cleared by the walk
        have hmono : ∀ (l2 : List (Nat × Nat)) (s2 : TcpSt) (i : Nat),
            i ∈ s2.closedIds → i ∈ (closeInactiveGo now timeout l2 s2).closedIds := by
          intro l2
          induction l2 with
          | nil =>
            intro s2 i hi
            exact hi
          | cons d t ih2 =>
            intro s2 i hi
            rw [closeInactiveGo]
            by_cases hd : now - d.2 < timeout
            · rw [if_pos hd]
              exact hi
            · rw [if_neg hd]
              refine ih2 _ i ?_
              rw [tcp_server_close_conn]
              by_cases hdc : d.1 ∈ s2.closedIds
              · rw [if_pos hdc]
                exact hi
              · rw [if_neg hdc]
                exact List.mem_cons_of_mem _ hi
        rw [he]
        exact hmono rest _ c.1 hmarked
      · exact ih2 c2 htl hstale

/-- C8: with a positive inactivity timeout, the post-batch eviction
walk closes exactly the stale connections — afterwards no listed
connection has been idle for `timeout` or longer, every connection that
was idle that long has its closed flag set — and a fresh activity
timestamp at the tail keeps the list ordered by `last_activity`, so the
walk's early break loses nothing. -/
theorem c8_inactivity_eviction (now timeout : Nat) (s : TcpSt)
    (hinv : TcpInv s) (hsorted : s.conns.Pairwise (fun a b => a.2 ≤ b.2)) :
    (∀ c ∈ (close_inactive_connections now timeout s).conns, now - c.2 < timeout) ∧
    (∀ c ∈ s.conns, timeout ≤ now - c.2 →
      c.1 ∈ (close_inactive_connections now timeout s).closedIds) ∧
    TcpInv (close_inactive_connections now timeout s) ∧
    (∀ cid, (∀ c ∈ s.conns, c.2 ≤ now) →
      ((move_conn_to_tail s cid now).conns.Pairwise (fun a b => a.2 ≤ b.2))) := by
  obtain ⟨h1, h2, h3⟩ := closeInactiveGo_spec now timeout s.conns s rfl hinv hsorted
  refine ⟨h1, h2, h3, ?_⟩
  intro cid hbound
  rw [move_conn_to_tail]
  by_cases hmem : s.conns.any (fun c => c.1 = cid) = true
  · rw [if_pos hmem]
    rw [List.pairwise_append]
    refine ⟨hsorted.filter _, List.pairwise_singleton _ _, ?_⟩
    intro a ha b hb
    rw [List.mem_singleton] at hb
    rw [hb]
    exact hbound a (List.mem_of_mem_filter ha)
  · rw [if_neg hmem]
    exact hsorted

/-- C9: while open, a connection sits in exactly one LRU position
(activity moves and closes preserve id uniqueness), and closing is
idempotent: the first close unlinks the connection and runs the
`on_close` hook exactly once, and every further close — such as
`bad_request`'s unconditional close after the router hook already
closed — is a no-op guarded by the closed flag, at the TCP layer and at
the HTTP layer alike. -/
theorem c9_close_idempotent (s : TcpSt) (cid : Nat) :
    tcp_server_close_conn (tcp_server_close_conn s cid) cid =
      tcp_server_close_conn s cid ∧
    (cid ∈ s.closedIds → tcp_server_close_conn s cid = s) ∧
    (cid ∉ s.closedIds →
      (∀ c ∈ (tcp_server_close_conn s cid).conns, c.1 ≠ cid) ∧
      (tcp_server_close_conn s cid).closeLog.count cid = s.closeLog.count cid + 1 ∧
      (tcp_server_close_conn (tcp_server_close_conn s cid) cid).closeLog.count cid =
        s.closeLog.count cid + 1) ∧
    ((s.conns.map Prod.fst).Nodup →
      ∀ now, ((move_conn_to_tail s cid now).conns.map Prod.fst).Nodup ∧
        ((tcp_server_close_conn s cid).conns.map Prod.fst).Nodup) ∧
    (∀ hc : HttpConn, (closeConn (closeConn hc).1).1 = (closeConn hc).1 ∧
      (closeConn (closeConn hc).1).2 = []) := by
  have hidem : tcp_server_close_conn (tcp_server_close_conn s cid) cid =
      tcp_server_close_conn s cid := by
    by_cases h : cid ∈ s.closedIds
    · have hinner : tcp_server_close_conn s cid = s := by
        rw [tcp_server_close_conn, if_pos h]
      rw [hinner]
      exact hinner
    · have hmem : cid ∈ (tcp_server_close_conn s cid).closedIds := by
        rw [close_conn_closedIds_of_open h]
        exact List.mem_cons_self _ _
      rw [tcp_server_close_conn, if_pos hmem]
  refine ⟨hidem, ?_, ?_, ?_, ?_⟩
  · intro h
    rw [tcp_server_close_conn, if_pos h]
  · intro h
    refine ⟨?_, ?_, ?_⟩
    · intro c hmem
      rw [close_conn_conns_of_open h] at hmem
      simpa using (List.mem_filter.mp hmem).2
    · rw [tcp_server_close_conn, if_neg h]
      simp
    · rw [hidem, tcp_server_close_conn, if_neg h]
      simp
  · intro hnd now
    constructor
    · rw [move_conn_to_tail]
      by_cases hmem : s.conns.any (fun c => c.1 = cid) = true
      · rw [if_pos hmem]
        rw [List.map_append, List.nodup_append]
        refine ⟨?_, by simp, ?_⟩
        · have hsub : (s.conns.filter (fun c => c.1 ≠ cid)).map Prod.fst |>.Sublist
              (s.conns.map Prod.fst) :=
            (List.filter_sublist _).map _
          exact hnd.sublist hsub
        · intro i hi
          simp only [List.map_cons, List.map_nil, List.mem_singleton]
          intro he
          rcases List.mem_map.mp hi with ⟨c2, hc2, hfst⟩
          have := (List.mem_filter.mp hc2).2
          rw [he] at hfst
          simp at this
          exact this hfst
      · rw [if_neg hmem]
        exact hnd
    · by_cases h : cid ∈ s.closedIds
      · rw [tcp_server_close_conn, if_pos h]
        exact hnd
      · rw [close_conn_conns_of_open h]
        have hsub : (s.conns.filter (fun c => c.1 ≠ cid)).map Prod.fst |>.Sublist
            (s.conns.map Prod.fst) :=
          (List.filter_sublist _).map _
        exact hnd.sublist hsub
  · intro hc
    by_cases h : hc.closed = true
    · simp [closeConn, h]
    · have h' : hc.closed = false := by simpa using h
      simp [closeConn, h']

/-! ## Concrete fixtures and witnesses -/

/-- A concrete router that answers every request with an empty 200 and
never closes from inside the hook. -/
def wRouter : HttpRequestParsed → List Nat → Bool → RouterResult :=
  fun _ _ _ =>
    { sends := [bytesOf "HTTP/1.1 200 OK\r\nContent-Length: 0\r\n\r\n"], closes := false }

/-- Callbacks with the concrete router installed. -/
def wCb : HttpCallbacks :=
  { onRequest := some wRouter, onBadRequest := none, onServerError := none }

/-- Callbacks with no `on_request` hook. -/
def wCbNone : HttpCallbacks :=
  { onRequest := none, onBadRequest := none, onServerError := none }

/-- A minimal well-formed GET request. -/
def w0 : WfReq :=
  { methodB := bytesOf "GET", uriB := bytesOf "/",
    rawLines := [bytesOf "Host: a"], body := [] }

/-- A well-formed POST request with a two-byte body. -/
def w1 : WfReq :=
  { methodB := bytesOf "POST", uriB := bytesOf "/u",
    rawLines := [bytesOf "Host: a", bytesOf "Content-Length: 2"], body := [65, 66] }

theorem wCb_tame : routerTame wCb := by
  intro f hf pr body inf
  have h2 : some wRouter = some f := hf
  cases h2
  rfl

theorem c1_witness :
    (∀ r ∈ [w0], wfReq r = true) ∧
    (∃ conn' evs, runChunks wCb initialHttpConn [streamOf [w0]] = some (conn', evs) ∧
      dispatchesOf evs = [w0].map canonicalReq ∧
      sendsOf evs =
        ([w0].map (fun r => (wRouter (canonicalReq r) r.body (inFileOf r)).sends)).flatten ∧
      (conn'.closed = true ↔ lastClose [w0] = true)) :=
  ⟨by decide, c1_pipelined_requests_trace wCb wRouter wCb_tame rfl [w0] [streamOf [w0]]
    (by decide) (by decide) (by simp)⟩

theorem c2_witness :
    wfReq w0 = true ∧
    ([(reqBytes w0).take 5, (reqBytes w0).drop 5].flatten = reqBytes w0) ∧
    (∃ conn1 conn2 evs,
      runChunks wCb initialHttpConn [(reqBytes w0).take 5, (reqBytes w0).drop 5] =
        some (conn1, evs) ∧
      runChunks wCb initialHttpConn [reqBytes w0] = some (conn2, evs) ∧
      dispatchesOf evs = [canonicalReq w0] ∧
      bodiesOf evs = [w0.body]) :=
  ⟨by decide, by simp, c2_chunking_invariance wCb wRouter wCb_tame rfl w0 (by decide)
    [(reqBytes w0).take 5, (reqBytes w0).drop 5] (by decide) (by simp)⟩

theorem c3_witness :
    wfReq w1 = true ∧
    parseContentLengthE (parsedHeaders w1.rawLines) = .ok (some 2) ∧
    (∃ conn' evs, runChunks wCb initialHttpConn [streamOf [w1]] = some (conn', evs) ∧
      bodiesOf evs = [((streamOf [w1]).drop (headerBytes w1).length).take 2]) :=
  ⟨by decide, by rfl, c3_body_exact wCb wRouter wCb_tame rfl w1 2 (by decide) (by rfl)
    (by decide) [streamOf [w1]] (by simp)⟩

theorem c4_witness :
    containsSub CRLF4 (List.replicate 8192 97) = false ∧
    8192 ≤ (List.replicate 8192 97).length ∧
    (∃ conn', runChunks wCb initialHttpConn [List.replicate 8192 97] =
        some (conn', [.send res431, .close]) ∧
      conn'.closed = true ∧
      sendsOf [HttpEv.send res431, HttpEv.close] = [res431] ∧
      containsSub (bytesOf "431 Request Header Fields Too Large") res431 = true ∧
      containsSub (bytesOf "Connection: close") res431 = true ∧
      containsSub (bytesOf "200") res431 = false) := by
  have hnz : ∀ ch ∈ List.replicate 8192 97, ch ≠ 0 := by
    intro ch hch
    rw [List.eq_of_mem_replicate hch]
    decide
  have hterm : containsSub CRLF4 (List.replicate 8192 97) = false := by
    rw [containsSub_eq_false_iff]
    intro j hm
    have h13 : (13 : Nat) ∈ (List.replicate 8192 97).drop j :=
      hm.subset (by decide)
    rw [List.drop_replicate] at h13
    have h2 := List.eq_of_mem_replicate h13
    exact absurd h2 (by decide)
  have hlen : 8192 ≤ (List.replicate 8192 97).length := by
    rw [List.length_replicate]
  have hflat : [List.replicate 8192 97].flatten = List.replicate 8192 97 := by
    rw [List.flatten_cons, List.flatten_nil, List.append_nil]
  exact ⟨hterm, hlen,
    c4_header_overflow_431 wCb (List.replicate 8192 97) [List.replicate 8192 97]
      hnz hterm hlen hflat⟩

theorem c5_witness :
    http_get_header_value (parsedHeaders [bytesOf "Content-Length: 5"])
      (bytesOf "Content-Length") = some (bytesOf "5") ∧
    parseContentLengthE (parsedHeaders [bytesOf "Content-Length: 5"]) =
      (if (strtol10 (bytesOf "5")).2 = (bytesOf "5").length ∧
          0 ≤ (strtol10 (bytesOf "5")).1 then
        .ok (some (strtol10 (bytesOf "5")).1.toNat) else .error ()) :=
  ⟨by rfl, (c5_content_length_parsing (parsedHeaders [bytesOf "Content-Length: 5"])).2
    (bytesOf "5") (by rfl)⟩

theorem c6_witness :
    containsSub (bytesOf "Content-Length: ")
      (send_error_response 404 (bytesOf "Not Found")) = true ∧
    containsSub (bytesOf "Connection: close")
      (send_error_response 404 (bytesOf "Not Found")) = true :=
  ⟨(c6_response_headers 404 (bytesOf "Not Found")).1,
   (c6_response_headers 404 (bytesOf "Not Found")).2.1⟩

theorem c7_witness :
    (∀ c ∈ bytesOf "/a%2F", c ≠ 0) ∧
    is_valid_uri (bytesOf "/a%2F") = uriSpecValid (bytesOf "/a%2F") :=
  ⟨by decide,
   (c7_uri_acceptance (bytesOf "/a%2F") (by decide) (by decide) (by decide) []).1⟩

theorem c8_witness :
    TcpInv ⟨[(1, 0), (2, 10)], [], []⟩ ∧
    (∀ c ∈ (close_inactive_connections 20 15 ⟨[(1, 0), (2, 10)], [], []⟩).conns,
      20 - c.2 < 15) :=
  ⟨⟨by decide, by decide⟩,
   (c8_inactivity_eviction 20 15 ⟨[(1, 0), (2, 10)], [], []⟩ ⟨by decide, by decide⟩
     (by decide)).1⟩

theorem c9_witness :
    tcp_server_close_conn (tcp_server_close_conn ⟨[(1, 0), (2, 10)], [], []⟩ 1) 1 =
      tcp_server_close_conn ⟨[(1, 0), (2, 10)], [], []⟩ 1 :=
  (c9_close_idempotent ⟨[(1, 0), (2, 10)], [], []⟩ 1).1

theorem c10_witness :
    wfReq w0 = true ∧ hasCloseHdr w0 = false ∧
    (∃ conn', runChunks wCbNone initialHttpConn [streamOf [w0]] =
        some (conn', [.send res501]) ∧
      conn'.closed = false ∧
      containsSub (bytesOf "501 Not Implemented") res501 = true ∧
      containsSub (bytesOf "Content-Length: 0") res501 = true) :=
  ⟨by decide, by decide, c10_no_router_501_keepalive wCbNone rfl w0 (by decide)
    (by decide) [streamOf [w0]] (by simp)⟩

end Synapse
